import Mathlib

/-!
Verification of the compact elastic binary tree library (cbtree).

The development shallowly embeds the u32 flavor of the generic descent
engine `_cebu_descend` and the structural mutators `_cebu_insert` /
`_cebu_delete`, together with the range operations built on them, from
the internal header (src/unnamed/part_002).  Nodes are modelled as
allocations indexed by natural-number ids; a branch slot holds
`Option Nat` where `none` models a NULL pointer.  The 32-bit keys are
modelled as naturals below 2^32 (no u32 operation in this code path can
overflow: only xor and comparisons are used).

A separate, smaller embedding at the end of the file covers the legacy
compact-binary-tree string variant `cba_pick_st` (src/cb/cbatree_st.c)
together with the string descent of src/cb/cbuib_tree.c, for the claim
about its `abort()` integrity check.
-/

set_option maxHeartbeats 1000000

namespace Cebtree

/-- One allocation: `struct ceb_node` (two branch slots) plus the u32 key
that immediately follows it (`union ceb_key_storage`, member `u32`).
`none` models a NULL branch pointer. -/
structure CebNode where
  b0 : Option Nat
  b1 : Option Nat
  key : Nat
deriving DecidableEq, Repr

/-- The heap: every id denotes an allocation. -/
def Mem := Nat → CebNode

/-- A tree: the heap plus the root slot (`struct ceb_node **root`). -/
structure State where
  mem : Mem
  root : Option Nat

/-- Read branch slot `b[side]` of a node. -/
def CebNode.b (n : CebNode) (side : Bool) : Option Nat :=
  if side then n.b1 else n.b0

/-- Walk methods, `enum ceb_walk_meth`. -/
inductive Meth where
  | FST | NXT | PRV | LST | KEQ | KGE | KGT | KLE | KLT | KNX | KPR
deriving DecidableEq, Repr

/-- The C test `meth >= CEB_WM_KEQ`: the method carries a key. -/
def Meth.hasKey : Meth → Bool
  | .KEQ | .KGE | .KGT | .KLE | .KLT | .KNX | .KPR => true
  | .FST | .NXT | .PRV | .LST => false

/-- Owner of a branch slot: either a real node, or the virtual node
`container_of(root, struct ceb_node, b[0])` whose `b[0]` is the root
slot itself. -/
inductive NRef where
  | virt
  | node (i : Nat)
deriving DecidableEq, Repr

/-- A pointer slot, named by its owning node and side.  `(virt, false)`
is the slot the descent started from (the caller's root slot). -/
def Slot := NRef × Bool
deriving instance DecidableEq, Repr for Slot

/-- The outputs of `_cebu_descend`: the returned node and the side-output
sinks (`ret_nside`, `ret_root`, `ret_lparent`/`ret_lpside`,
`ret_nparent`/`ret_npside`, `ret_gparent`/`ret_gpside`, `ret_back`). -/
structure DRes where
  ret : Option Nat
  nside : Bool
  rroot : Slot
  lparent : NRef
  lpside : Bool
  nparent : NRef
  npside : Bool
  gparent : NRef
  gpside : Bool
  back : Option Nat
deriving DecidableEq, Repr

/-- The code run after the descent loop exits: compute `ret_nside` from the
final compare `key_u32 >= p->key.u32`, fill the sinks, and classify the
candidate `p` against the method (the `meth >= CEB_WM_KEQ` switch and the
unconditional returns for FST/LST/NXT/PRV). -/
def exitRes (m : Mem) (meth : Meth) (key : Nat) (p : Nat) (loc : Slot)
    (lparent : NRef) (lpside : Bool) (nparent : NRef) (npside : Bool)
    (gparent : NRef) (gpside : Bool) (bnode : Option Nat) : DRes :=
  let pk := (m p).key
  let ret : Option Nat :=
    match meth with
    | .KEQ | .KNX | .KPR => if pk = key then some p else none
    | .KGE => if pk ≥ key then some p else none
    | .KGT => if pk > key then some p else none
    | .KLE => if pk ≤ key then some p else none
    | .KLT => if pk < key then some p else none
    | .FST | .LST | .NXT | .PRV => some p
  { ret := ret, nside := decide (pk ≤ key), rroot := loc,
    lparent := lparent, lpside := lpside, nparent := nparent,
    npside := npside, gparent := gparent, gpside := gpside, back := bnode }

/-- The descent loop of `_cebu_descend`, u32 flavor, with explicit fuel
(`none` = fuel exhausted, which never happens on well-formed trees).
`p` is the node the current slot `loc` points to (`p = *root`), `px` is
`pxor32`, `wantN` models `ret_npside || ret_nparent` being requested.
Each iteration mirrors one iteration of the C loop:
equal-pointer check, branch side choice, inter-branch xor and leaf check,
mismatch check, node-parent capture, window shift, and self-loop check. -/
def descendLoop (m : Mem) (meth : Meth) (key : Nat) (wantN : Bool) :
    Nat → Nat → Slot → Nat → Bool → NRef → Bool → NRef → Bool →
    NRef → Bool → Option Nat → Option DRes
  | 0, _, _, _, _, _, _, _, _, _, _, _ => none
  | fuel+1, p, loc, px, brside, lparent, lpside, gparent, gpside,
    nparent, npside, bnode =>
    let l? := (m p).b0
    let r? := (m p).b1
    if l? = r? then
      -- two equal pointers identify the nodeless leaf
      some (exitRes m meth key p loc lparent lpside nparent npside gparent gpside bnode)
    else
      match l?, r? with
      | some l, some r =>
        let brside := if meth.hasKey then
            decide ((key ^^^ (m l).key) ≥ (key ^^^ (m r).key)) else brside
        let xor32 := (m l).key ^^^ (m r).key
        if xor32 > px then
          -- the inter-branch xor grew back: p is visited in its leaf role
          some (exitRes m meth key p loc lparent lpside nparent npside gparent gpside bnode)
        else
          if meth.hasKey ∧ (key ^^^ (m l).key) > xor32 ∧ (key ^^^ (m r).key) > xor32 then
            -- the key differs from both branches above the split bit
            some (exitRes m meth key p loc lparent lpside nparent npside gparent gpside bnode)
          else
            let np : NRef × Bool :=
              if wantN ∧ meth.hasKey ∧ key = (m p).key then (lparent, lpside)
              else (nparent, npside)
            -- shift all copies by one
            let gparent := lparent
            let gpside := lpside
            let lparent := NRef.node p
            let lpside := brside
            if brside then
              let bnode := if meth = .KPR ∨ meth = .KLE ∨ meth = .KLT then some p else bnode
              let loc : Slot := (NRef.node p, true)
              let brside := if meth = .NXT then false else brside
              if r = p then
                -- loops over itself: p is a leaf
                some (exitRes m meth key p loc lparent lpside np.1 np.2 gparent gpside bnode)
              else
                descendLoop m meth key wantN fuel r loc xor32 brside
                  lparent lpside gparent gpside np.1 np.2 bnode
            else
              let bnode := if meth = .KNX ∨ meth = .KGE ∨ meth = .KGT then some p else bnode
              let loc : Slot := (NRef.node p, false)
              let brside := if meth = .PRV then true else brside
              if l = p then
                some (exitRes m meth key p loc lparent lpside np.1 np.2 gparent gpside bnode)
              else
                descendLoop m meth key wantN fuel l loc xor32 brside
                  lparent lpside gparent gpside np.1 np.2 bnode
      | _, _ => none  -- NULL branch dereference: cannot happen on a tree

/-- `_cebu_descend` for the u32 flavor: initialize `pxor32 = ~0U`, the
initial branch side for the key-less walks, the virtual parent
(`lparent = gparent = nparent = container_of(root, ...)`) and run the
loop from the node the root slot points to. -/
def _cebu_descend (m : Mem) (meth : Meth) (key : Nat) (wantN : Bool)
    (fuel : Nat) (start : Nat) : Option DRes :=
  descendLoop m meth key wantN fuel start (NRef.virt, false) (2 ^ 32 - 1)
    (decide (meth = .NXT ∨ meth = .LST)) .virt false .virt false .virt false none

/-- Point update of the heap. -/
def updateMem (m : Mem) (i : Nat) (v : CebNode) : Mem :=
  fun j => if j = i then v else m j

/-- Write branch slot `b[side]` of node `i`. -/
def writeB (m : Mem) (i : Nat) (side : Bool) (v : Option Nat) : Mem :=
  updateMem m i (if side then { m i with b1 := v } else { m i with b0 := v })

/-- Read a pointer slot (the root slot for the virtual owner). -/
def readSlot (s : State) : Slot → Option Nat
  | (.virt, _) => s.root
  | (.node i, side) => (s.mem i).b side

/-- Write a pointer slot (the root slot for the virtual owner; the
virtual owner is only ever written on side 0, i.e. the root slot). -/
def writeSlot (s : State) : Slot → Option Nat → State
  | (.virt, _), v => { s with root := v }
  | (.node i, side), v => { s with mem := writeB s.mem i side v }

/-- `_cebu_insert`, u32 flavor.  The node `n` carries its key inline:
`key_u32 = (s.mem n).key`.  Returns `none` when the descent ran out of
fuel, otherwise the returned node together with the updated state. -/
def _cebu_insert (fuel : Nat) (s : State) (n : Nat) : Option (Nat × State) :=
  let key := (s.mem n).key
  match s.root with
  | none =>
    -- empty tree, insert a leaf only
    some (n, ⟨updateMem s.mem n { s.mem n with b0 := some n, b1 := some n }, some n⟩)
  | some rv =>
    match _cebu_descend s.mem .KEQ key false fuel rv with
    | none => none
    | some d =>
      match d.ret with
      | some r => some (r, s)
      | none =>
        -- the key was not in the tree, we can insert it
        let parent := readSlot s d.rroot
        let nv : CebNode :=
          if d.nside then { s.mem n with b1 := some n, b0 := parent }
          else { s.mem n with b0 := some n, b1 := parent }
        let s1 : State := ⟨updateMem s.mem n nv, s.root⟩
        some (n, writeSlot s1 d.rroot (some n))

/-- `_cebu_lookup`, u32 flavor.  The outer `Option` is the fuel guard;
the inner `Option Nat` is the C return value (node or NULL). -/
def _cebu_lookup (fuel : Nat) (s : State) (key : Nat) : Option (Option Nat) :=
  match s.root with
  | none => some none
  | some rv => (_cebu_descend s.mem .KEQ key false fuel rv).map (·.ret)

/-- `_cebu_first`, u32 flavor. -/
def _cebu_first (fuel : Nat) (s : State) : Option (Option Nat) :=
  match s.root with
  | none => some none
  | some rv => (_cebu_descend s.mem .FST 0 false fuel rv).map (·.ret)

/-- `_cebu_last`, u32 flavor. -/
def _cebu_last (fuel : Nat) (s : State) : Option (Option Nat) :=
  match s.root with
  | none => some none
  | some rv => (_cebu_descend s.mem .LST 0 false fuel rv).map (·.ret)

/-- `_cebu_next`, u32 flavor: KNX descent recording the last left fork,
then an NXT descent from that fork. -/
def _cebu_next (fuel : Nat) (s : State) (key : Nat) : Option (Option Nat) :=
  match s.root with
  | none => some none
  | some rv =>
    match _cebu_descend s.mem .KNX key false fuel rv with
    | none => none
    | some d =>
      match d.ret with
      | none => some none
      | some _ =>
        match d.back with
        | none => some none
        | some restart =>
          (_cebu_descend s.mem .NXT 0 false fuel restart).map (·.ret)

/-- `_cebu_prev`, u32 flavor. -/
def _cebu_prev (fuel : Nat) (s : State) (key : Nat) : Option (Option Nat) :=
  match s.root with
  | none => some none
  | some rv =>
    match _cebu_descend s.mem .KPR key false fuel rv with
    | none => none
    | some d =>
      match d.ret with
      | none => some none
      | some _ =>
        match d.back with
        | none => some none
        | some restart =>
          (_cebu_descend s.mem .PRV 0 false fuel restart).map (·.ret)

/-- `_cebu_lookup_le`, u32 flavor: KLE descent, then on a miss a PRV
descent from the recorded fork. -/
def _cebu_lookup_le (fuel : Nat) (s : State) (key : Nat) : Option (Option Nat) :=
  match s.root with
  | none => some none
  | some rv =>
    match _cebu_descend s.mem .KLE key false fuel rv with
    | none => none
    | some d =>
      match d.ret with
      | some r => some (some r)
      | none =>
        match d.back with
        | none => some none
        | some restart =>
          (_cebu_descend s.mem .PRV 0 false fuel restart).map (·.ret)

/-- `_cebu_lookup_lt`, u32 flavor. -/
def _cebu_lookup_lt (fuel : Nat) (s : State) (key : Nat) : Option (Option Nat) :=
  match s.root with
  | none => some none
  | some rv =>
    match _cebu_descend s.mem .KLT key false fuel rv with
    | none => none
    | some d =>
      match d.ret with
      | some r => some (some r)
      | none =>
        match d.back with
        | none => some none
        | some restart =>
          (_cebu_descend s.mem .PRV 0 false fuel restart).map (·.ret)

/-- `_cebu_lookup_ge`, u32 flavor: KGE descent, then on a miss an NXT
descent from the recorded fork. -/
def _cebu_lookup_ge (fuel : Nat) (s : State) (key : Nat) : Option (Option Nat) :=
  match s.root with
  | none => some none
  | some rv =>
    match _cebu_descend s.mem .KGE key false fuel rv with
    | none => none
    | some d =>
      match d.ret with
      | some r => some (some r)
      | none =>
        match d.back with
        | none => some none
        | some restart =>
          (_cebu_descend s.mem .NXT 0 false fuel restart).map (·.ret)

/-- `_cebu_lookup_gt`, u32 flavor. -/
def _cebu_lookup_gt (fuel : Nat) (s : State) (key : Nat) : Option (Option Nat) :=
  match s.root with
  | none => some none
  | some rv =>
    match _cebu_descend s.mem .KGT key false fuel rv with
    | none => none
    | some d =>
      match d.ret with
      | some r => some (some r)
      | none =>
        match d.back with
        | none => some none
        | some restart =>
          (_cebu_descend s.mem .NXT 0 false fuel restart).map (·.ret)

/-- `_cebu_delete`, u32 flavor.  `node?` is the optional node check
(`NULL` for delete-by-key, i.e. pick).  Returns `none` on fuel
exhaustion, otherwise the C return value together with the updated
state.  The writes are performed in exactly the order of the source so
that aliased slots behave as in C. -/
def _cebu_delete (fuel : Nat) (s : State) (node? : Option Nat) (key : Nat) :
    Option (Option Nat × State) :=
  if (node?.map (fun n => (s.mem n).b0)) = some none then
    -- NULL on a branch means the node is not in the tree
    some (none, s)
  else
    match s.root with
    | none => some (none, s)  -- empty tree, the node cannot be there
    | some rv =>
      match _cebu_descend s.mem .KEQ key true fuel rv with
      | none => none
      | some d =>
        match d.ret with
        | none => some (none, s)  -- key not found
        | some ret =>
          if node? = none ∨ node? = some ret then
            match d.lparent with
            | .virt =>
              -- single entry: &lparent->b[0] == root
              let s1 : State := { s with root := none }
              some (some ret, { s1 with mem := writeB s1.mem ret false none })
            | .node lp =>
              -- gparent->b[gpside] = lparent->b[!lpside]
              let sib := (s.mem lp).b (!d.lpside)
              let s1 := writeSlot s (d.gparent, d.gpside) sib
              if lp = ret then
                -- leaf and node removed together
                some (some ret, { s1 with mem := writeB s1.mem ret false none })
              else if (s1.mem ret).b0 = (s1.mem ret).b1 then
                -- removing the node-less item: the parent takes this role
                let s2 : State := { s1 with mem := writeB s1.mem lp true (some lp) }
                let s3 : State := { s2 with mem := writeB s2.mem lp false (some lp) }
                some (some ret, { s3 with mem := writeB s3.mem ret false none })
              else
                -- the node was split from the leaf: recycle the parent
                let s2 : State := { s1 with mem := writeB s1.mem lp false ((s1.mem ret).b0) }
                let s3 : State := { s2 with mem := writeB s2.mem lp true ((s2.mem ret).b1) }
                let s4 := writeSlot s3 (d.nparent, d.npside) (some lp)
                some (some ret, { s4 with mem := writeB s4.mem ret false none })
          else
            -- the found node does not match the one supplied: no mutation
            some (some ret, s)

/-- `cebu32_insert`: key taken from the node's inline storage. -/
def cebu32_insert (fuel : Nat) (s : State) (n : Nat) : Option (Nat × State) :=
  _cebu_insert fuel s n

/-- `cebu32_lookup`. -/
def cebu32_lookup (fuel : Nat) (s : State) (key : Nat) : Option (Option Nat) :=
  _cebu_lookup fuel s key

/-- `cebu32_delete`: delete with the node check, key from the node. -/
def cebu32_delete (fuel : Nat) (s : State) (n : Nat) : Option (Option Nat × State) :=
  _cebu_delete fuel s (some n) ((s.mem n).key)

/-- `cebu32_pick`: delete by key without a node check. -/
def cebu32_pick (fuel : Nat) (s : State) (key : Nat) : Option (Option Nat × State) :=
  _cebu_delete fuel s none key

/-- The read-only operations of the u32 flavor, seen as state
transformers.  The translated code of these operations contains no
store (`_cebu_descend` only fills caller-local sinks), so each returns
the state it was given. -/
inductive ROp where
  | lookup (key : Nat)
  | lookupLe (key : Nat)
  | lookupLt (key : Nat)
  | lookupGe (key : Nat)
  | lookupGt (key : Nat)
  | first
  | last
  | next (key : Nat)
  | prev (key : Nat)
deriving DecidableEq, Repr

/-- Run a read-only operation: the C return value paired with the tree
state after the call. -/
def runRead (fuel : Nat) (op : ROp) (s : State) : Option (Option Nat) × State :=
  match op with
  | .lookup k => (_cebu_lookup fuel s k, s)
  | .lookupLe k => (_cebu_lookup_le fuel s k, s)
  | .lookupLt k => (_cebu_lookup_lt fuel s k, s)
  | .lookupGe k => (_cebu_lookup_ge fuel s k, s)
  | .lookupGt k => (_cebu_lookup_gt fuel s k, s)
  | .first => (_cebu_first fuel s, s)
  | .last => (_cebu_last fuel s, s)
  | .next k => (_cebu_next fuel s k, s)
  | .prev k => (_cebu_prev fuel s k, s)

/-- Helper to build concrete heaps for witnesses and counterexamples. -/
def mkMem (l : List (Nat × CebNode)) : Mem :=
  fun i => (l.lookup i).getD ⟨none, none, 0⟩

/-- Concrete heap for the delete-mismatch counterexample: id 1 is a
singleton tree with key 2; id 9 is an unlinked allocation carrying the
same key, with a non-NULL `b[0]` so it passes the detached-node check. -/
def mismatchMem : Mem := mkMem [(1, ⟨some 1, some 1, 2⟩), (9, ⟨some 9, none, 2⟩)]

/-- The corresponding tree state. -/
def mismatchSt : State := ⟨mismatchMem, some 1⟩

/-- The descent result reached by the delete descent on that state. -/
def mismatchDRes : DRes :=
  { ret := some 1, nside := true, rroot := (NRef.virt, false),
    lparent := .virt, lpside := false, nparent := .virt, npside := false,
    gparent := .virt, gpside := false, back := none }

/-!
The logical shape of a linked tree.  A tree with N keys consists of N
allocations; each allocation serves once as a leaf ("leaf role") and at
most once as an internal router ("node role").  `LT` records that
shape: `lf i` is the leaf role of allocation `i`, `nd i l r` the node
role of allocation `i`.  The well-formedness predicate `WFt` below
states the memory and split-bit conditions under which the pointer
structure encodes such a shape; it is the formal counterpart of the
invariants of section 3 of the specification.
-/

/-- Logical tree shapes. -/
inductive LT where
  | lf (i : Nat)
  | nd (i : Nat) (l : LT) (r : LT)
deriving DecidableEq, Repr

/-- The allocation a subtree's root pointer designates. -/
def LT.top : LT → Nat
  | .lf i => i
  | .nd i _ _ => i

/-- The ids of the leaves, in tree order. -/
def LT.leaves : LT → List Nat
  | .lf i => [i]
  | .nd _ l r => l.leaves ++ r.leaves

/-- The ids serving node roles. -/
def LT.nodes : LT → List Nat
  | .lf _ => []
  | .nd i l r => i :: (l.nodes ++ r.nodes)

/-- Number of role positions (bounds the descent length). -/
def LT.size : LT → Nat
  | .lf _ => 1
  | .nd _ l r => l.size + r.size + 1

/-- The key stored with allocation `i`. -/
def keyOf (m : Mem) (i : Nat) : Nat := (m i).key

/-- The keys of a subtree, in tree order. -/
def LT.keys (m : Mem) (t : LT) : List Nat := t.leaves.map (keyOf m)

/-- The split bit of a node role with child subtrees `l` and `r`: the
position of the highest bit at which the two sides differ. -/
def splitBit (m : Mem) (l r : LT) : Nat :=
  Nat.log2 (keyOf m l.top ^^^ keyOf m r.top)

/-- Every key of `t` agrees with `P` at all bits above `k` and has bit
`k` equal to `side`. -/
def keysOn (m : Mem) (k P : Nat) (side : Bool) (t : LT) : Prop :=
  ∀ a ∈ t.keys m, a >>> (k + 1) = P >>> (k + 1) ∧ a.testBit k = side

/-- The inter-branch xor stored in allocation `j` (0 if a branch is
NULL). -/
def xorB (m : Mem) (j : Nat) : Nat :=
  match (m j).b0, (m j).b1 with
  | some a, some b => keyOf m a ^^^ keyOf m b
  | _, _ => 0

/-- The memory condition letting the descent recognize the leaf visit of
`j` below a node whose split bit is `k`: either the two branch pointers
are equal (nodeless leaf), or the stored pair's xor lives above bit `k`
(it belongs to an ancestor node role of the same allocation). -/
def leafBreakable (m : Mem) (k j : Nat) : Prop :=
  (m j).b0 = (m j).b1 ∨ 2 ^ (k + 1) ≤ xorB m j

/-- Conditions on a direct child subtree of the node role of `i` with
split bit `k`: a leaf child is either `i` itself (detected by the
self-loop check) or recognizable on its visit; a node child must not
alias `i` (the self-loop check must not fire on it). -/
def childOK (m : Mem) (i k : Nat) : LT → Prop
  | .lf j => j = i ∨ leafBreakable m k j
  | .nd j _ _ => j ≠ i

/-- Well-formedness of a subtree: branch pointers match the shape, the
two sides split at `splitBit` under a common prefix, the node role's
allocation serves a leaf role below it, and both children are
recognizable. -/
def WFt (m : Mem) : LT → Prop
  | .lf _ => True
  | .nd i l r =>
      (m i).b0 = some l.top ∧ (m i).b1 = some r.top ∧
      keysOn m (splitBit m l r) (keyOf m l.top) false l ∧
      keysOn m (splitBit m l r) (keyOf m l.top) true r ∧
      i ∈ l.leaves ++ r.leaves ∧
      childOK m i (splitBit m l r) l ∧
      childOK m i (splitBit m l r) r ∧
      WFt m l ∧ WFt m r

/-- Well-formedness of a whole tree state: the root slot points at the
shape's top, keys are 32-bit, ids are served once per role kind, the
single-key tree is the self-looped nodeless leaf, and the shape is
well-formed. -/
def WFst (s : State) (t : LT) : Prop :=
  s.root = some t.top ∧
  (∀ a ∈ t.keys s.mem, a < 2 ^ 32) ∧
  t.leaves.Nodup ∧
  t.nodes.Nodup ∧
  (∀ j ∈ t.leaves, (s.mem j).b0 ≠ none) ∧
  (match t with
   | .lf i => (s.mem i).b0 = some i ∧ (s.mem i).b1 = some i
   | .nd _ _ _ => True) ∧
  WFt s.mem t

/-- Entry condition for the descent loop reaching the top of `t` with
previous xor `px`: a node visit must not trigger the leaf check, a leaf
visit must trigger one of the exit checks. -/
def EnterOK (m : Mem) (px : Nat) : LT → Prop
  | .lf j => (m j).b0 = (m j).b1 ∨ px < xorB m j
  | .nd _ l r => keyOf m l.top ^^^ keyOf m r.top ≤ px

/-- Structural replay of the key-directed descent along the logical
shape: the decisions are computed from memory exactly as the loop
computes them, and each case produces the exit record the loop produces
there.  On well-formed trees `descendLoop` returns exactly this
(equivalence theorem below). -/
def sDescend (m : Mem) (meth : Meth) (kx : Nat) (wantN : Bool) :
    LT → Slot → NRef → Bool → NRef → Bool → NRef → Bool → Option Nat → DRes
  | .lf j, loc, lparent, lpside, gparent, gpside, nparent, npside, bnode =>
      exitRes m meth kx j loc lparent lpside nparent npside gparent gpside bnode
  | .nd i l r, loc, lparent, lpside, gparent, gpside, nparent, npside, bnode =>
      let lk := keyOf m l.top
      let rk := keyOf m r.top
      if (kx ^^^ lk) > (lk ^^^ rk) ∧ (kx ^^^ rk) > (lk ^^^ rk) then
        exitRes m meth kx i loc lparent lpside nparent npside gparent gpside bnode
      else
        let np : NRef × Bool :=
          if wantN ∧ kx = keyOf m i then (lparent, lpside) else (nparent, npside)
        if (kx ^^^ lk) ≥ (kx ^^^ rk) then
          let bn := if meth = .KPR ∨ meth = .KLE ∨ meth = .KLT then some i else bnode
          sDescend m meth kx wantN r (NRef.node i, true) (NRef.node i) true
            lparent lpside np.1 np.2 bn
        else
          let bn := if meth = .KNX ∨ meth = .KGE ∨ meth = .KGT then some i else bnode
          sDescend m meth kx wantN l (NRef.node i, false) (NRef.node i) false
            lparent lpside np.1 np.2 bn

/-- The leaf of `t` carrying key `kx`, if any. -/
def LT.findLeaf (m : Mem) (kx : Nat) : LT → Option Nat
  | .lf j => if keyOf m j = kx then some j else none
  | .nd _ l r => (l.findLeaf m kx).orElse (fun _ => r.findLeaf m kx)

/-- The sliding window of the descent: current slot, leaf parent, grand
parent, node parent and recorded fork. -/
structure Win where
  loc : Slot
  lp : NRef
  lps : Bool
  gp : NRef
  gps : Bool
  np : NRef
  nps : Bool
  bn : Option Nat
deriving DecidableEq, Repr

/-- One window shift of the descent at the node role of `i`, taking side
`side` (the capture of `nparent`, the copy shift, the fork record and
the slot move of the loop body). -/
def shiftWin (m : Mem) (meth : Meth) (kx : Nat) (wantN : Bool) (i : Nat)
    (side : Bool) (w : Win) : Win :=
  { loc := (NRef.node i, side), lp := .node i, lps := side,
    gp := w.lp, gps := w.lps,
    np := if wantN ∧ kx = keyOf m i then w.lp else w.np,
    nps := if wantN ∧ kx = keyOf m i then w.lps else w.nps,
    bn := if side then
        (if meth = .KPR ∨ meth = .KLE ∨ meth = .KLT then some i else w.bn)
      else
        (if meth = .KNX ∨ meth = .KGE ∨ meth = .KGT then some i else w.bn) }

/-- The window at the end of a key-directed descent that follows the
routing all the way to a leaf. -/
def finWin (m : Mem) (meth : Meth) (kx : Nat) (wantN : Bool) :
    LT → Win → Win
  | .lf _, w => w
  | .nd i l r, w =>
      if (kx ^^^ keyOf m l.top) ≥ (kx ^^^ keyOf m r.top)
      then finWin m meth kx wantN r (shiftWin m meth kx wantN i true w)
      else finWin m meth kx wantN l (shiftWin m meth kx wantN i false w)

/-- The leaf a key-directed descent reaches when it never mismatches. -/
def destLeaf (m : Mem) (kx : Nat) : LT → Nat
  | .lf j => j
  | .nd _ l r =>
      if (kx ^^^ keyOf m l.top) ≥ (kx ^^^ keyOf m r.top)
      then destLeaf m kx r
      else destLeaf m kx l

/-- The initial window of `_cebu_descend`. -/
def startWin : Win :=
  { loc := (NRef.virt, false), lp := .virt, lps := false, gp := .virt,
    gps := false, np := .virt, nps := false, bn := none }

/-- Mismatch test at a node role (the looked-up key differs from both
branches above the split bit), as the descent computes it. -/
def misAt (m : Mem) (kx : Nat) (l r : LT) : Prop :=
  (kx ^^^ keyOf m l.top) > (keyOf m l.top ^^^ keyOf m r.top) ∧
  (kx ^^^ keyOf m r.top) > (keyOf m l.top ^^^ keyOf m r.top)

instance (m : Mem) (kx : Nat) (l r : LT) : Decidable (misAt m kx l r) := by
  unfold misAt
  infer_instance

/-- The slot a descent for a missing key stops at (where the new node
would be written), starting from slot `loc`. -/
def insLoc (m : Mem) (kx : Nat) : LT → Slot → Slot
  | .lf _, loc => loc
  | .nd i l r, loc =>
      if misAt m kx l r then loc
      else if (kx ^^^ keyOf m l.top) ≥ (kx ^^^ keyOf m r.top)
        then insLoc m kx r (NRef.node i, true)
        else insLoc m kx l (NRef.node i, false)

/-- The subtree whose slot the descent for a missing key stops at (the
subtree the inserted node takes over). -/
def insSub (m : Mem) (kx : Nat) : LT → LT
  | .lf j => .lf j
  | .nd i l r =>
      if misAt m kx l r then .nd i l r
      else if (kx ^^^ keyOf m l.top) ≥ (kx ^^^ keyOf m r.top)
        then insSub m kx r
        else insSub m kx l

/-- The logical shape after inserting node `n` carrying key `kx`: the
stop subtree is wrapped under the node role of `n`, with the leaf role
of `n` on the side given by the final compare. -/
def insLT (m : Mem) (kx n : Nat) : LT → LT
  | .lf j =>
      if keyOf m j ≤ kx then .nd n (.lf j) (.lf n)
      else .nd n (.lf n) (.lf j)
  | .nd i l r =>
      if misAt m kx l r then
        (if keyOf m i ≤ kx then .nd n (.nd i l r) (.lf n)
         else .nd n (.lf n) (.nd i l r))
      else if (kx ^^^ keyOf m l.top) ≥ (kx ^^^ keyOf m r.top)
        then .nd i l (insLT m kx n r)
        else .nd i (insLT m kx n l) r

/-- Side evolution of the key-less walks: NXT turns left after its first
step, PRV turns right, FST/LST keep going the same way. -/
def stepSide (meth : Meth) (bs : Bool) : Bool :=
  if meth = .NXT then false else if meth = .PRV then true else bs

/-- The leaf a key-less walk reaches: first step on side `bs`, then
following `stepSide`. -/
def walkLeaf (meth : Meth) : LT → Bool → Nat
  | .lf j, _ => j
  | .nd _ _ r, true => walkLeaf meth r (stepSide meth true)
  | .nd _ l _, false => walkLeaf meth l (stepSide meth false)

/-- The side the key-directed descent takes at a node role with child
subtrees `l` and `r`, as the loop computes it. -/
def tSide (m : Mem) (kx : Nat) (l r : LT) : Bool :=
  decide ((kx ^^^ keyOf m l.top) ≥ (kx ^^^ keyOf m r.top))

/-- Shape test of a subtree root. -/
def LT.isLf : LT → Bool
  | .lf _ => true
  | .nd _ _ _ => false

/-- The id of the node role directly above the leaf reached for `kx`
(the descent\'s `lparent`; only meaningful for a node-rooted tree). -/
def lPar (m : Mem) (kx : Nat) : LT → Nat
  | .lf j => j
  | .nd i l r =>
      if tSide m kx l r then (if r.isLf then i else lPar m kx r)
      else (if l.isLf then i else lPar m kx l)

/-- The side of the reached leaf under its parent node role (the
descent\'s `lpside`). -/
def lSide (m : Mem) (kx : Nat) : LT → Bool
  | .lf _ => false
  | .nd _ l r =>
      if tSide m kx l r then (if r.isLf then true else lSide m kx r)
      else (if l.isLf then false else lSide m kx l)

/-- The sibling subtree of the reached leaf (what `lparent->b[!lpside]`
points to). -/
def tSib (m : Mem) (kx : Nat) : LT → LT
  | .lf j => .lf j
  | .nd _ l r =>
      if tSide m kx l r then (if r.isLf then l else tSib m kx r)
      else (if l.isLf then r else tSib m kx l)

/-- The subtree rooted at the parent node role of the reached leaf. -/
def pSub (m : Mem) (kx : Nat) : LT → LT
  | .lf j => .lf j
  | .nd i l r =>
      if tSide m kx l r then (if r.isLf then .nd i l r else pSub m kx r)
      else (if l.isLf then .nd i l r else pSub m kx l)

/-- The slot pointing at the parent node role of the reached leaf (the
descent\'s `gparent`/`gpside` pair). -/
def gSlot (m : Mem) (kx : Nat) : LT → Slot → Slot
  | .lf _, loc => loc
  | .nd i l r, loc =>
      if tSide m kx l r then
        (if r.isLf then loc else gSlot m kx r (NRef.node i, true))
      else
        (if l.isLf then loc else gSlot m kx l (NRef.node i, false))

/-- The slot pointing at the node role carrying the looked-up key (the
descent\'s `nparent`/`npside` pair), with the not-yet-found default in
`acc`. -/
def nSlot (m : Mem) (kx : Nat) : LT → Slot → Slot → Slot
  | .lf _, _, acc => acc
  | .nd i l r, loc, acc =>
      let acc2 := if kx = keyOf m i then loc else acc
      if tSide m kx l r then nSlot m kx r (NRef.node i, true) acc2
      else nSlot m kx l (NRef.node i, false) acc2

/-- The logical shape after unlinking the reached leaf together with its
parent node role: the parent\'s slot is redirected to the sibling. -/
def splice (m : Mem) (kx : Nat) : LT → LT
  | .lf j => .lf j
  | .nd i l r =>
      if tSide m kx l r then
        (if r.isLf then l else .nd i l (splice m kx r))
      else
        (if l.isLf then r else .nd i (splice m kx l) r)

/-- Renaming of a node role: the allocation `a` hands its node role to
`b` (the delete recycling of `lparent` into the deleted node\'s role). -/
def renameNd (a b : Nat) : LT → LT
  | .lf j => .lf j
  | .nd i l r => .nd (if i = a then b else i) (renameNd a b l) (renameNd a b r)

/-- The logical shape after a delete of key `kx` from a node-rooted
tree. -/
def delLT (m : Mem) (kx : Nat) (t : LT) : LT :=
  renameNd (destLeaf m kx t) (lPar m kx t) (splice m kx t)

/-- Occurrence of a subtree inside a shape. -/
inductive IsSub : LT → LT → Prop where
  | refl : ∀ t, IsSub t t
  | left : ∀ {u : LT} (i : Nat) {l : LT} (r : LT), IsSub u l → IsSub u (.nd i l r)
  | right : ∀ {u : LT} (i : Nat) (l : LT) {r : LT}, IsSub u r → IsSub u (.nd i l r)

/-- The node-less-leaf invariant: a leaf role without a node role keeps
the two self branches it received at insert or unlink time. -/
def NLF (s : State) (t : LT) : Prop :=
  ∀ j ∈ t.leaves, j ∉ t.nodes →
    (s.mem j).b0 = some j ∧ (s.mem j).b1 = some j

/-- A whole tree state, possibly empty. -/
def WFstO (s : State) : Option LT → Prop
  | none => s.root = none
  | some t => WFst s t ∧ NLF s t

/-- The state after a found delete from a node-rooted tree: the write
sequence of `_cebu_delete` with the descent outputs replaced by their
structural values. -/
def delState (s : State) (kx : Nat) (t : LT) : State :=
  let ret := destLeaf s.mem kx t
  let lp := lPar s.mem kx t
  let sib := some (tSib s.mem kx t).top
  let s1 := writeSlot s (gSlot s.mem kx t (NRef.virt, false)) sib
  if lp = ret then
    { s1 with mem := writeB s1.mem ret false none }
  else if (s1.mem ret).b0 = (s1.mem ret).b1 then
    let s2 : State := { s1 with mem := writeB s1.mem lp true (some lp) }
    let s3 : State := { s2 with mem := writeB s2.mem lp false (some lp) }
    { s3 with mem := writeB s3.mem ret false none }
  else
    let s2 : State := { s1 with mem := writeB s1.mem lp false ((s1.mem ret).b0) }
    let s3 : State := { s2 with mem := writeB s2.mem lp true ((s2.mem ret).b1) }
    let s4 := writeSlot s3
      (nSlot s.mem kx t (NRef.virt, false) (NRef.virt, false)) (some lp)
    { s4 with mem := writeB s4.mem ret false none }

end Cebtree

/-!
Embedding of the legacy compact-binary-tree string variant
(src/cb/cbatree_st.c), for the claim about the `abort()` integrity
check in `cba_pick_st`.  The node type is `struct cba_st`
(src/cb/cbuib_tree.c line 896): the branch pair followed by the string
key stored inline as a flexible array member, so `p->key` denotes the
address of that embedded array.  Strings are byte lists (NUL terminator
implicit); a string pointer is either an external buffer or the address
of the key array embedded in a node, which is what the C pointer
comparison `p->key != key` distinguishes.
-/

namespace Cba

open Cebtree (NRef)

/-- `struct cba_st`: two branch slots plus the inline string key. -/
structure CbaNode where
  b0 : Option Nat
  b1 : Option Nat
  key : List Nat
deriving DecidableEq, Repr

/-- Tree state for the string variant. -/
structure CState where
  mem : Nat → CbaNode
  root : Option Nat

/-- A `const void *` string argument: the address of an external buffer
(identified by its contents) or the address of the key array embedded
in node `i`. -/
inductive SPtr where
  | ext (buf : List Nat)
  | nodeKey (i : Nat)
deriving DecidableEq, Repr

/-- Dereference a string pointer. -/
def SPtr.content (m : Nat → CbaNode) : SPtr → List Nat
  | .ext b => b
  | .nodeKey i => (m i).key

/-- Leading equal bits of two distinct bytes (bits compared from the
most significant one down). -/
def byteBits (x y : Nat) : Nat := 7 - Nat.log2 ((x ^^^ y) % 256)

/-- Modelled from the spec: `string_equal_bits(a, b, 0)` (its definition
lives in the tools header, which is not part of the sources).  Per
section 4.1 of the specification it returns the bit length of the
common prefix of two NUL-terminated strings, with a negative sentinel
when both strings are entirely equal including the terminator. -/
def string_equal_bits (a b : List Nat) : Int :=
  go 0 a b
where
  go : Nat → List Nat → List Nat → Int
  | _, [], [] => -1
  | acc, [], y :: _ => if y = 0 then -1 else 8 * acc + byteBits 0 y
  | acc, x :: _, [] => if x = 0 then -1 else 8 * acc + byteBits x 0
  | acc, x :: xs, y :: ys =>
    if x = y then (if x = 0 then -1 else go (acc + 1) xs ys)
    else 8 * acc + byteBits x y

/-- `strcmp` on NUL-terminated byte strings (three-way sign). -/
def strcmpBytes : List Nat → List Nat → Int
  | [], [] => 0
  | [], y :: _ => if y = 0 then 0 else -(y : Int)
  | x :: _, [] => if x = 0 then 0 else (x : Int)
  | x :: xs, y :: ys =>
    if x = y then (if x = 0 then 0 else strcmpBytes xs ys)
    else (x : Int) - (y : Int)

/-- The C cast `(unsigned)` applied to an `int` length. -/
def toU (x : Int) : Nat := (x % (2 ^ 32 : Int)).toNat

/-- The outputs of `cbau_descend_st` used by `cba_pick_st`. -/
structure CRes where
  ret : Option Nat
  lparent : NRef
  lpside : Bool
  nparent : NRef
  npside : Bool
  gparent : NRef
  gpside : Bool
deriving DecidableEq, Repr

/-- Exit code of the string descent for `CB_WM_KEY` with `ret_root`
NULL (a lookup/delete-style call): recompute `plen`, then return `p`
when the candidate matches, NULL otherwise. -/
def exitKey (m : Nat → CbaNode) (key : List Nat) (p : Nat) (found : Bool)
    (llen rlen : Int) (lparent : NRef) (lpside : Bool) (nparent : NRef)
    (npside : Bool) (gparent : NRef) (gpside : Bool) : CRes :=
  let plen : Int := if found then -1 else max llen rlen
  let ret : Option Nat :=
    if plen < 0 ∨
       strcmpBytes (key.drop (plen.toNat / 8)) (((m p).key).drop (plen.toNat / 8)) = 0
    then some p else none
  { ret := ret, lparent := lparent, lpside := lpside, nparent := nparent,
    npside := npside, gparent := gparent, gpside := gpside }

/-- The descent loop of `cbau_descend_st` (the `CB_KT_ST` body of the
generic `_cbau_descend`, src/cb/cbuib_tree.c), specialized as
`cba_pick_st` calls it: method `CB_WM_KEY`, `node` and `ret_root` NULL,
the node-parent sinks requested.  `plen` is the previous inter-branch
matching length, `found` the sticky exact-match flag. -/
def descendStLoop (m : Nat → CbaNode) (key : List Nat) :
    Nat → Nat → Int → Bool → Int → Int → NRef → Bool → NRef → Bool →
    NRef → Bool → Option CRes
  | 0, _, _, _, _, _, _, _, _, _, _, _ => none
  | fuel+1, p, plen, found, llen, rlen, lparent, lpside, gparent, gpside,
    nparent, npside =>
    let l? := (m p).b0
    let r? := (m p).b1
    if l? = r? then
      some (exitKey m key p found llen rlen lparent lpside nparent npside gparent gpside)
    else
      match l?, r? with
      | some l, some r =>
        let llen := string_equal_bits key (m l).key
        let rlen := string_equal_bits key (m r).key
        let brside := decide (toU llen ≤ toU rlen)
        let found := found || llen < 0 || rlen < 0
        let xlen := string_equal_bits (m l).key (m r).key
        if xlen < plen then
          some (exitKey m key p found llen rlen lparent lpside nparent npside gparent gpside)
        else
          if toU llen < toU xlen ∧ toU rlen < toU xlen then
            some (exitKey m key p found llen rlen lparent lpside nparent npside gparent gpside)
          else
            let mlen := if max llen rlen > xlen then xlen else max llen rlen
            let hit := strcmpBytes (key.drop (mlen.toNat / 8))
                (((m p).key).drop (mlen.toNat / 8)) = 0
            let np : NRef × Bool := if hit then (lparent, lpside) else (nparent, npside)
            let found := found || hit
            let gparent := lparent
            let gpside := lpside
            let lparent := NRef.node p
            let lpside := brside
            let chosen := if brside then r else l
            if chosen = p then
              some (exitKey m key p found llen rlen lparent lpside np.1 np.2 gparent gpside)
            else
              descendStLoop m key fuel chosen xlen found llen rlen
                lparent lpside gparent gpside np.1 np.2
      | _, _ => none  -- NULL branch dereference: cannot happen on a tree

/-- `cbau_descend_st` as called from `cba_pick_st`. -/
def cbau_descend_st (m : Nat → CbaNode) (key : List Nat) (fuel : Nat)
    (start : Nat) : Option CRes :=
  descendStLoop m key fuel start 0 false 0 0 .virt false .virt false .virt false

/-- The outcome of `cba_pick_st`: either `abort()` was called, or the
function returned a value with the resulting tree state. -/
inductive PickRes where
  | aborted
  | ok (ret : Option Nat) (s : CState)

/-- Whether a pick outcome is the `abort()` one (state equality is not
decidable, so the counterexample is phrased through this observer). -/
def PickRes.isAborted : PickRes → Bool
  | .aborted => true
  | .ok _ _ => false

/-- Write branch slot `b[side]` of node `i` in the string variant. -/
def writeCB (m : Nat → CbaNode) (i : Nat) (side : Bool) (v : Option Nat) :
    Nat → CbaNode :=
  fun j => if j = i then
    (if side then { m i with b1 := v } else { m i with b0 := v }) else m j

/-- Read branch slot `b[side]`. -/
def readCB (m : Nat → CbaNode) (i : Nat) (side : Bool) : Option Nat :=
  if side then (m i).b1 else (m i).b0

/-- Write the slot designated by an `NRef` and a side (the root slot for
the virtual owner). -/
def writeCSlot (s : CState) : NRef → Bool → Option Nat → CState
  | .virt, _, v => { s with root := v }
  | .node i, side, v => { s with mem := writeCB s.mem i side v }

/-- `cba_pick_st` (src/cb/cbatree_st.c): look up the string key, then
`if (p->key != key) abort();` — a comparison of the *address* of the
found node's embedded key array with the caller's key pointer — and on
success unlink the node exactly as the source does. -/
def cba_pick_st (fuel : Nat) (s : CState) (key : SPtr) : Option PickRes :=
  match s.root with
  | none => some (.ok none s)
  | some rv =>
    match cbau_descend_st s.mem (key.content s.mem) fuel rv with
    | none => none
    | some d =>
      match d.ret with
      | none => some (.ok none s)
      | some ret =>
        if key ≠ SPtr.nodeKey ret then
          some .aborted
        else
          match d.lparent with
          | .virt =>
            -- single entry: *root = NULL
            some (.ok (some ret) { s with root := none })
          | .node lp =>
            let sib := readCB s.mem lp (!d.lpside)
            let s1 := writeCSlot s d.gparent d.gpside sib
            if lp = ret then
              some (.ok (some ret) s1)
            else if (s1.mem ret).b0 = (s1.mem ret).b1 then
              let s2 : CState := { s1 with mem := writeCB s1.mem lp true (some lp) }
              let s3 : CState := { s2 with mem := writeCB s2.mem lp false (some lp) }
              some (.ok (some ret) s3)
            else
              let s2 : CState := { s1 with mem := writeCB s1.mem lp false ((s1.mem ret).b0) }
              let s3 : CState := { s2 with mem := writeCB s2.mem lp true ((s2.mem ret).b1) }
              let s4 := writeCSlot s3 d.nparent d.npside (some lp)
              some (.ok (some ret) s4)

/-- The failing input: a well-formed singleton tree whose node 0 stores
the string "a", picked with an external buffer also holding "a". -/
def abortMem : Nat → CbaNode := fun i => if i = 0 then ⟨some 0, some 0, [97]⟩ else ⟨none, none, []⟩

/-- The corresponding tree state. -/
def abortSt : CState := ⟨abortMem, some 0⟩

end Cba

namespace CebKT

open Cebtree (NRef Slot Meth DRes LT)

/-- `enum ceb_key_type`: the seven key flavors of the generic engine. -/
inductive KeyT where
  | U32 | U64 | MB | IM | ST | IS | ADDR
deriving DecidableEq, Repr

/-- An allocation cell for the flavor-indexed engine: the two branch
slots and the views of the key union (`key.u32`, `key.u64`, the inline
array `key.mb`, the inline string `key.str`, and the bytes behind
`key.ptr`, read as an array by `CEB_KT_IM` and as a string by
`CEB_KT_IS`).  Under `CEB_KT_ADDR` the key is the allocation id itself
(the node address). -/
structure KNode where
  b0 : Option Nat
  b1 : Option Nat
  u32 : Nat
  u64 : Nat
  mb : List Nat
  str : List Nat
  ptrb : List Nat
deriving DecidableEq, Repr

/-- The heap of the flavor-indexed engine. -/
def KMem := Nat → KNode

/-- Modelled from the spec: `equal_bits(a, b, 0, max)` (its definition
lives in the tools header, which is not part of the sources).  Per the
key-primitive row of section 2 and the divergence-measure paragraph of
the specification it returns the bit length of the common prefix of two
fixed-length byte arrays, capped at `max` bits. -/
def equal_bits (a b : List Nat) (mx : Nat) : Nat :=
  go 0 a b
where
  go : Nat → List Nat → List Nat → Nat
  | acc, x :: xs, y :: ys =>
      if x = y then go (acc + 8) xs ys
      else min mx (acc + Cba.byteBits x y)
  | acc, _, _ => min mx acc

/-- `memcmp` over byte lists (three-way sign; the engine only compares
equal-length remainders of its fixed-length keys). -/
def memcmpBytes : List Nat → List Nat → Int
  | x :: xs, y :: ys =>
      if x = y then memcmpBytes xs ys else (x : Int) - (y : Int)
  | _, _ => 0

/-- The C conversion of an `ssize_t` value into the `size_t` variables
`llen`/`rlen`/`plen`/`xlen` (reduction modulo `2^64`; a negative length
becomes a huge unsigned one, recognized later by the `(ssize_t)v < 0`
tests as `2^63 ≤ v`). -/
def szt (v : Int) : Nat := (v % (2 ^ 64 : Int)).toNat

/-- The method/diff dispatch shared by the per-flavor return blocks of
`_cebu_descend`: return `p` when the three-way comparison between the
reached key and the requested one satisfies the walk method. -/
def retOfDiff (meth : Meth) (diff : Int) (p : Nat) : Option Nat :=
  if (meth = .KEQ ∧ diff = 0) ∨ (meth = .KNX ∧ diff = 0) ∨
     (meth = .KPR ∧ diff = 0) ∨ (meth = .KGE ∧ 0 ≤ diff) ∨
     (meth = .KGT ∧ 0 < diff) ∨ (meth = .KLE ∧ diff ≤ 0) ∨
     (meth = .KLT ∧ diff < 0)
  then some p else none

/-- The post-loop block of the flavor-indexed `_cebu_descend`: for
strings, recompute `plen` from the last `llen`/`rlen` when no exact
match was seen; fill `ret_nside` per flavor; and apply the per-method
return dispatch on the flavor's final comparison. -/
def exitResKT (m : KMem) (kt : KeyT) (meth : Meth) (ku32 ku64 : Nat)
    (kb : List Nat) (kad : Nat) (p : Nat) (found : Bool)
    (llen rlen plen0 : Nat) (loc : Slot) (lparent : NRef) (lpside : Bool)
    (nparent : NRef) (npside : Bool) (gparent : NRef) (gpside : Bool)
    (bnode : Option Nat) : DRes :=
  let plen := if (kt = .ST ∨ kt = .IS) ∧ meth.hasKey = true ∧ found = false
              then max llen rlen else plen0
  let nside : Bool :=
    match kt with
    | .U32 => decide (ku32 ≥ (m p).u32)
    | .U64 => decide (ku64 ≥ (m p).u64)
    | .MB => decide (plen / 8 = ku64) ||
        decide (0 ≤ memcmpBytes (kb.drop (plen / 8)) ((m p).mb.drop (plen / 8)))
    | .IM => decide (plen / 8 = ku64) ||
        decide (0 ≤ memcmpBytes (kb.drop (plen / 8)) ((m p).ptrb.drop (plen / 8)))
    | .ST => found ||
        decide (0 ≤ Cba.strcmpBytes (kb.drop (plen / 8)) ((m p).str.drop (plen / 8)))
    | .IS => found ||
        decide (0 ≤ Cba.strcmpBytes (kb.drop (plen / 8)) ((m p).ptrb.drop (plen / 8)))
    | .ADDR => decide (kad ≥ p)
  let ret : Option Nat :=
    if meth.hasKey then
      match kt with
      | .U32 => retOfDiff meth (((m p).u32 : Int) - (ku32 : Int)) p
      | .U64 => retOfDiff meth (((m p).u64 : Int) - (ku64 : Int)) p
      | .MB => retOfDiff meth (if plen / 8 = ku64 then 0
          else memcmpBytes ((m p).mb.drop (plen / 8)) (kb.drop (plen / 8))) p
      | .IM => retOfDiff meth (if plen / 8 = ku64 then 0
          else memcmpBytes ((m p).ptrb.drop (plen / 8)) (kb.drop (plen / 8))) p
      | .ST => retOfDiff meth (if found then 0
          else Cba.strcmpBytes ((m p).str.drop (plen / 8)) (kb.drop (plen / 8))) p
      | .IS => retOfDiff meth (if found then 0
          else Cba.strcmpBytes ((m p).ptrb.drop (plen / 8)) (kb.drop (plen / 8))) p
      | .ADDR => retOfDiff meth ((p : Int) - (kad : Int)) p
    else some p
  { ret := ret, nside := nside, rroot := loc, lparent := lparent,
    lpside := lpside, nparent := nparent, npside := npside,
    gparent := gparent, gpside := gpside, back := bnode }

/-- The values a per-flavor block of the loop body produces: the new
branch side, sticky exact-match flag and key-vs-branch matching lengths
(updated only for key-carrying methods, like the C), the inter-branch
divergence `dv` (`xorXX`/`xoraddr`/`xlen`), and the three tests of the
block: the leaf check against the carried previous divergence, the
mismatch check, and the node-parent capture condition (the two checks
and the capture fold the enclosing `meth >= CEB_WM_KEQ` guard). -/
structure KStep where
  brside : Bool
  found : Bool
  llen : Nat
  rlen : Nat
  dv : Nat
  leafBrk : Bool
  misBrk : Bool
  npHit : Bool
deriving DecidableEq, Repr

/-- One per-flavor block of the loop of `_cebu_descend` (the
`key_type` dispatch of its body), for the visit of allocation `p` whose
branch pointers were dereferenced into `l` and `r`. -/
def ktStep (m : KMem) (kt : KeyT) (meth : Meth) (ku32 ku64 : Nat)
    (kb : List Nat) (kad : Nat) (p l r : Nat) (px32 px64 plen : Nat)
    (found : Bool) (llen rlen : Nat) (brside : Bool) : KStep :=
  match kt with
  | .U32 =>
      let brside := if meth.hasKey then
          decide ((ku32 ^^^ (m l).u32) ≥ (ku32 ^^^ (m r).u32)) else brside
      let x := (m l).u32 ^^^ (m r).u32
      { brside := brside, found := found, llen := llen, rlen := rlen,
        dv := x, leafBrk := decide (x > px32),
        misBrk := meth.hasKey &&
          decide ((ku32 ^^^ (m l).u32) > x ∧ (ku32 ^^^ (m r).u32) > x),
        npHit := meth.hasKey && decide (ku32 = (m p).u32) }
  | .U64 =>
      let brside := if meth.hasKey then
          decide ((ku64 ^^^ (m l).u64) ≥ (ku64 ^^^ (m r).u64)) else brside
      let x := (m l).u64 ^^^ (m r).u64
      { brside := brside, found := found, llen := llen, rlen := rlen,
        dv := x, leafBrk := decide (x > px64),
        misBrk := meth.hasKey &&
          decide ((ku64 ^^^ (m l).u64) > x ∧ (ku64 ^^^ (m r).u64) > x),
        npHit := meth.hasKey && decide (ku64 = (m p).u64) }
  | .MB =>
      let llen := if meth.hasKey then equal_bits kb (m l).mb (ku64 <<< 3) else llen
      let rlen := if meth.hasKey then equal_bits kb (m r).mb (ku64 <<< 3) else rlen
      let brside := if meth.hasKey then decide (llen ≤ rlen) else brside
      let found := found ||
        (meth.hasKey && decide (llen = rlen ∧ llen = ku64 <<< 3))
      let x := equal_bits (m l).mb (m r).mb (ku64 <<< 3)
      let mlen := if max llen rlen > x then x else max llen rlen
      { brside := brside, found := found, llen := llen, rlen := rlen,
        dv := x, leafBrk := decide (x < plen),
        misBrk := meth.hasKey && decide (llen < x ∧ rlen < x),
        npHit := meth.hasKey && (decide (x / 8 = ku64) ||
          decide (memcmpBytes (kb.drop (mlen / 8)) ((m p).mb.drop (mlen / 8)) = 0)) }
  | .IM =>
      let llen := if meth.hasKey then equal_bits kb (m l).ptrb (ku64 <<< 3) else llen
      let rlen := if meth.hasKey then equal_bits kb (m r).ptrb (ku64 <<< 3) else rlen
      let brside := if meth.hasKey then decide (llen ≤ rlen) else brside
      let found := found ||
        (meth.hasKey && decide (llen = rlen ∧ llen = ku64 <<< 3))
      let x := equal_bits (m l).ptrb (m r).ptrb (ku64 <<< 3)
      let mlen := if max llen rlen > x then x else max llen rlen
      { brside := brside, found := found, llen := llen, rlen := rlen,
        dv := x, leafBrk := decide (x < plen),
        misBrk := meth.hasKey && decide (llen < x ∧ rlen < x),
        npHit := meth.hasKey && (decide (x / 8 = ku64) ||
          decide (memcmpBytes (kb.drop (mlen / 8)) ((m p).ptrb.drop (mlen / 8)) = 0)) }
  | .ST =>
      let llen := if meth.hasKey then szt (Cba.string_equal_bits kb (m l).str) else llen
      let rlen := if meth.hasKey then szt (Cba.string_equal_bits kb (m r).str) else rlen
      let brside := if meth.hasKey then decide (llen ≤ rlen) else brside
      let found := found ||
        (meth.hasKey && (decide (2 ^ 63 ≤ llen) || decide (2 ^ 63 ≤ rlen)))
      let x := szt (Cba.string_equal_bits (m l).str (m r).str)
      let mlen := if max llen rlen > x then x else max llen rlen
      { brside := brside, found := found, llen := llen, rlen := rlen,
        dv := x, leafBrk := decide (x < plen),
        misBrk := meth.hasKey &&
          decide (llen % 2 ^ 32 < x % 2 ^ 32 ∧ rlen % 2 ^ 32 < x % 2 ^ 32),
        npHit := meth.hasKey &&
          decide (Cba.strcmpBytes (kb.drop (mlen / 8)) ((m p).str.drop (mlen / 8)) = 0) }
  | .IS =>
      let llen := if meth.hasKey then szt (Cba.string_equal_bits kb (m l).ptrb) else llen
      let rlen := if meth.hasKey then szt (Cba.string_equal_bits kb (m r).ptrb) else rlen
      let brside := if meth.hasKey then decide (llen ≤ rlen) else brside
      let found := found ||
        (meth.hasKey && (decide (2 ^ 63 ≤ llen) || decide (2 ^ 63 ≤ rlen)))
      let x := szt (Cba.string_equal_bits (m l).ptrb (m r).ptrb)
      let mlen := if max llen rlen > x then x else max llen rlen
      { brside := brside, found := found, llen := llen, rlen := rlen,
        dv := x, leafBrk := decide (x < plen),
        misBrk := meth.hasKey &&
          decide (llen % 2 ^ 32 < x % 2 ^ 32 ∧ rlen % 2 ^ 32 < x % 2 ^ 32),
        npHit := meth.hasKey &&
          decide (Cba.strcmpBytes (kb.drop (mlen / 8)) ((m p).ptrb.drop (mlen / 8)) = 0) }
  | .ADDR =>
      let brside := if meth.hasKey then
          decide ((kad ^^^ l) ≥ (kad ^^^ r)) else brside
      let x := l ^^^ r
      { brside := brside, found := found, llen := llen, rlen := rlen,
        dv := x, leafBrk := decide (x > px64),
        misBrk := meth.hasKey &&
          decide ((kad ^^^ l) > x ∧ (kad ^^^ r) > x),
        npHit := meth.hasKey && decide (kad = p) }

/-- The descent loop of the flavor-indexed `_cebu_descend`, with
explicit fuel.  The per-flavor `key_type` block is `ktStep`; the rest
of each iteration (equal-pointer check, breaks, node-parent capture,
per-flavor previous-divergence update, window shift, key-less side
flip, self-loop check) is shared by all flavors exactly as in the
source.  On a leaf or mismatch break the exit uses the not-yet-updated
`plen`, as the C breaks before `plen = xlen`. -/
def descendKTLoop (m : KMem) (kt : KeyT) (meth : Meth) (ku32 ku64 : Nat)
    (kb : List Nat) (kad : Nat) (wantN : Bool) :
    Nat → Nat → Slot → Nat → Nat → Nat → Bool → Nat → Nat → Bool →
    NRef → Bool → NRef → Bool → NRef → Bool → Option Nat → Option DRes
  | 0, _, _, _, _, _, _, _, _, _, _, _, _, _, _, _, _ => none
  | fuel+1, p, loc, px32, px64, plen, found, llen, rlen, brside,
    lparent, lpside, gparent, gpside, nparent, npside, bnode =>
    let l? := (m p).b0
    let r? := (m p).b1
    if l? = r? then
      some (exitResKT m kt meth ku32 ku64 kb kad p found llen rlen plen loc
        lparent lpside nparent npside gparent gpside bnode)
    else
      match l?, r? with
      | some l, some r =>
        let st := ktStep m kt meth ku32 ku64 kb kad p l r px32 px64 plen
          found llen rlen brside
        if st.leafBrk then
          some (exitResKT m kt meth ku32 ku64 kb kad p st.found st.llen
            st.rlen plen loc lparent lpside nparent npside gparent gpside bnode)
        else if st.misBrk then
          some (exitResKT m kt meth ku32 ku64 kb kad p st.found st.llen
            st.rlen plen loc lparent lpside nparent npside gparent gpside bnode)
        else
          let np : NRef × Bool :=
            if wantN && st.npHit then (lparent, lpside) else (nparent, npside)
          let found2 := st.found ||
            (decide (kt = .MB ∨ kt = .IM ∨ kt = .ST ∨ kt = .IS) &&
             (wantN && st.npHit))
          let px32' := if kt = .U32 then st.dv else px32
          let px64' := if kt = .U64 ∨ kt = .ADDR then st.dv else px64
          let plen' := if kt = .MB ∨ kt = .IM ∨ kt = .ST ∨ kt = .IS
                       then st.dv else plen
          let gparent := lparent
          let gpside := lpside
          let lparent := NRef.node p
          let lpside := st.brside
          if st.brside then
            let bnode := if meth = .KPR ∨ meth = .KLE ∨ meth = .KLT
                         then some p else bnode
            let loc : Slot := (NRef.node p, true)
            let brside2 := if meth = .NXT then false else st.brside
            if r = p then
              some (exitResKT m kt meth ku32 ku64 kb kad p found2 st.llen
                st.rlen plen' loc lparent lpside np.1 np.2 gparent gpside bnode)
            else
              descendKTLoop m kt meth ku32 ku64 kb kad wantN fuel r loc
                px32' px64' plen' found2 st.llen st.rlen brside2
                lparent lpside gparent gpside np.1 np.2 bnode
          else
            let bnode := if meth = .KNX ∨ meth = .KGE ∨ meth = .KGT
                         then some p else bnode
            let loc : Slot := (NRef.node p, false)
            let brside2 := if meth = .PRV then true else st.brside
            if l = p then
              some (exitResKT m kt meth ku32 ku64 kb kad p found2 st.llen
                st.rlen plen' loc lparent lpside np.1 np.2 gparent gpside bnode)
            else
              descendKTLoop m kt meth ku32 ku64 kb kad wantN fuel l loc
                px32' px64' plen' found2 st.llen st.rlen brside2
                lparent lpside gparent gpside np.1 np.2 bnode
      | _, _ => none  -- NULL branch dereference: cannot happen on a tree

/-- The flavor-indexed `_cebu_descend`: initialize `pxor32 = ~0U`,
`pxor64 = ~0ULL`, `plen = llen = rlen = 0`, `found = 0`, the initial
branch side for the key-less walks, the virtual parents, and run the
loop from the node the root slot points to. -/
def _cebu_descend_kt (m : KMem) (kt : KeyT) (meth : Meth) (ku32 ku64 : Nat)
    (kb : List Nat) (kad : Nat) (wantN : Bool) (fuel : Nat) (start : Nat) :
    Option DRes :=
  descendKTLoop m kt meth ku32 ku64 kb kad wantN fuel start (NRef.virt, false)
    (2 ^ 32 - 1) (2 ^ 64 - 1) 0 false 0 0
    (decide (meth = .NXT ∨ meth = .LST)) .virt false .virt false .virt
    false none

/-- The stored inter-branch divergence of allocation `j` under flavor
`kt`: the value the loop computes on its visit (0 when a branch is
NULL, a case the invariants rule out at visited cells). -/
def divK (kt : KeyT) (m : KMem) (ku64 : Nat) (j : Nat) : Nat :=
  match (m j).b0, (m j).b1 with
  | some a, some b =>
    match kt with
    | .U32 => (m a).u32 ^^^ (m b).u32
    | .U64 => (m a).u64 ^^^ (m b).u64
    | .MB => equal_bits (m a).mb (m b).mb (ku64 <<< 3)
    | .IM => equal_bits (m a).ptrb (m b).ptrb (ku64 <<< 3)
    | .ST => szt (Cba.string_equal_bits (m a).str (m b).str)
    | .IS => szt (Cba.string_equal_bits (m a).ptrb (m b).ptrb)
    | .ADDR => a ^^^ b
  | _, _ => 0

/-- Whether the flavor's leaf test fires for a stored divergence `dj`
against the carried previous one `di`: `xor > pxor` for the scalar
flavors, `xlen < plen` for the array and string ones. -/
def divBrk (kt : KeyT) (dj di : Nat) : Bool :=
  match kt with
  | .U32 | .U64 | .ADDR => decide (dj > di)
  | .MB | .IM | .ST | .IS => decide (dj < di)

/-- The flavor's previous-divergence variable among the three the loop
carries (`pxor32`, `pxor64`, `plen`). -/
def carrySel (kt : KeyT) (px32 px64 plen : Nat) : Nat :=
  match kt with
  | .U32 => px32
  | .U64 | .ADDR => px64
  | .MB | .IM | .ST | .IS => plen

/-- Its initial value (`~0U`, `~0ULL`, `0`). -/
def startCarry (kt : KeyT) : Nat :=
  match kt with
  | .U32 => 2 ^ 32 - 1
  | .U64 | .ADDR => 2 ^ 64 - 1
  | .MB | .IM | .ST | .IS => 0

/-- Conditions on a direct child of the node role of `i` whose stored
divergence is `di`, guaranteeing the loop exits on the child's visit
when the child is a leaf: it is `i` itself (the self-loop check fires
before entering it), a nodeless leaf (equal branch pointers), or a leaf
whose stored pair triggers the flavor's leaf test. -/
def childK (kt : KeyT) (m : KMem) (ku64 : Nat) (i di : Nat) : LT → Bool
  | .lf j => decide (j = i) || decide ((m j).b0 = (m j).b1) ||
      (decide ((m j).b0 ≠ none) && decide ((m j).b1 ≠ none) &&
       divBrk kt (divK kt m ku64 j) di)
  | .nd _ _ _ => true

/-- The structural invariant needed for termination of the
flavor-indexed descent: branch pointers follow the shape and every leaf
child is recognizable on its visit. -/
def WFk (kt : KeyT) (m : KMem) (ku64 : Nat) : LT → Bool
  | .lf _ => true
  | .nd i l r =>
      decide ((m i).b0 = some l.top) && decide ((m i).b1 = some r.top) &&
      childK kt m ku64 i (divK kt m ku64 i) l &&
      childK kt m ku64 i (divK kt m ku64 i) r &&
      WFk kt m ku64 l && WFk kt m ku64 r

/-- Entry condition at the top of `t` with carried divergence `c`: a
leaf entry must trigger the nodeless-leaf or the leaf check. -/
def EnterK (kt : KeyT) (m : KMem) (ku64 : Nat) (c : Nat) : LT → Bool
  | .lf j => decide ((m j).b0 = (m j).b1) ||
      (decide ((m j).b0 ≠ none) && decide ((m j).b1 ≠ none) &&
       divBrk kt (divK kt m ku64 j) c)
  | .nd _ _ _ => true

/-- A concrete two-string state for the witness: allocation 1 serves
the root node role and the leaf role of "a", allocation 2 is the
nodeless leaf of "b". -/
def stKMem : KMem := fun i =>
  if i = 1 then ⟨some 1, some 2, 0, 0, [], [97], []⟩
  else if i = 2 then ⟨some 2, some 2, 0, 0, [], [98], []⟩
  else ⟨none, none, 0, 0, [], [], []⟩

/-- Its shape. -/
def stKTree : LT := .nd 1 (.lf 1) (.lf 2)

end CebKT

/-!
Theorems.  Helper lemmas come first, then the claim theorems, witnesses
and counterexamples.
-/

namespace Cebtree

/-! Arithmetic toolkit: xor, shifts and bits. -/

theorem shiftRight_eq_zero_iff_lt (x k : Nat) : x >>> k = 0 ↔ x < 2 ^ k := by
  rw [Nat.shiftRight_eq_div_pow]
  exact Nat.div_eq_zero_iff (Nat.pos_pow_of_pos k (by norm_num))

theorem shiftRight_xor (a b k : Nat) :
    (a ^^^ b) >>> k = (a >>> k) ^^^ (b >>> k) := by
  apply Nat.eq_of_testBit_eq
  intro j
  simp [Nat.testBit_shiftRight, Nat.testBit_xor]

theorem xor_lt_two_pow_iff (a b k : Nat) :
    a ^^^ b < 2 ^ k ↔ a >>> k = b >>> k := by
  rw [← shiftRight_eq_zero_iff_lt, shiftRight_xor]
  exact Nat.xor_eq_zero

theorem testBit_eq_of_shiftRight_eq {a b k : Nat}
    (h : a >>> k = b >>> k) {j : Nat} (hj : k ≤ j) :
    a.testBit j = b.testBit j := by
  have h2 : (a >>> k).testBit (j - k) = (b >>> k).testBit (j - k) := by rw [h]
  rwa [Nat.testBit_shiftRight, Nat.testBit_shiftRight,
    Nat.add_sub_cancel' hj] at h2

theorem shiftRight_eq_of_testBit {a b k : Nat}
    (h : ∀ j, k ≤ j → a.testBit j = b.testBit j) : a >>> k = b >>> k := by
  apply Nat.eq_of_testBit_eq
  intro j
  rw [Nat.testBit_shiftRight, Nat.testBit_shiftRight]
  exact h (k + j) (Nat.le_add_right _ _)

theorem lt_of_split {a b k : Nat} (h : a >>> (k + 1) = b >>> (k + 1))
    (ha : a.testBit k = false) (hb : b.testBit k = true) : a < b := by
  refine Nat.lt_of_testBit k ha hb ?_
  intro j hj
  exact testBit_eq_of_shiftRight_eq h hj

theorem split_xor_ge {a b k : Nat} (ha : a.testBit k = false)
    (hb : b.testBit k = true) : 2 ^ k ≤ a ^^^ b := by
  apply Nat.testBit_implies_ge
  simp [Nat.testBit_xor, ha, hb]

theorem split_xor_lt {a b k : Nat} (h : a >>> (k + 1) = b >>> (k + 1)) :
    a ^^^ b < 2 ^ (k + 1) := (xor_lt_two_pow_iff a b (k + 1)).mpr h

theorem log2_eq_of_bounds {x k : Nat} (h1 : 2 ^ k ≤ x) (h2 : x < 2 ^ (k + 1)) :
    Nat.log2 x = k := by
  have hne : x ≠ 0 := by
    have : 0 < 2 ^ k := Nat.pos_pow_of_pos k (by norm_num)
    omega
  have ha : Nat.log2 x < k + 1 := (Nat.log2_lt hne).mpr h2
  have hb : ¬ Nat.log2 x < k := by
    intro hlt
    exact absurd ((Nat.log2_lt hne).mp hlt) (by omega)
  omega

theorem lt_two_pow_log2_succ (x : Nat) : x < 2 ^ (Nat.log2 x + 1) := by
  rcases Nat.eq_zero_or_pos x with h | h
  · simp [h, Nat.log2]
  · exact (Nat.log2_lt (by omega)).mp (Nat.lt_succ_self _)

theorem two_pow_log2_le {x : Nat} (h : x ≠ 0) : 2 ^ Nat.log2 x ≤ x :=
  Nat.log2_self_le h

theorem shiftRight_eq_of_agree_succ {a b k : Nat}
    (h : a >>> (k + 1) = b >>> (k + 1)) (hk : a.testBit k = b.testBit k) :
    a >>> k = b >>> k := by
  apply shiftRight_eq_of_testBit
  intro j hj
  rcases Nat.eq_or_lt_of_le hj with h1 | h1
  · rwa [← h1]
  · exact testBit_eq_of_shiftRight_eq h h1

/-! Structural consequences of well-formedness. -/

theorem wf_top_mem {m : Mem} : ∀ {t : LT}, WFt m t → t.top ∈ t.leaves := by
  intro t h
  cases t with
  | lf i => simp [LT.top, LT.leaves]
  | nd i l r =>
    have hmem := h.2.2.2.2.1
    simpa [LT.top, LT.leaves] using hmem

theorem top_key_mem {m : Mem} {t : LT} (h : WFt m t) :
    keyOf m t.top ∈ t.keys m :=
  List.mem_map_of_mem _ (wf_top_mem h)

theorem key_mem_of_leaf {m : Mem} {t : LT} {j : Nat} (h : j ∈ t.leaves) :
    keyOf m j ∈ t.keys m :=
  List.mem_map_of_mem _ h

/-- The facts the descent needs at a well-formed node role, with
`k = splitBit m l r` and the left top key as the shared prefix. -/
theorem wfnd_facts {m : Mem} {i : Nat} {l r : LT} (h : WFt m (.nd i l r)) :
    (m i).b0 = some l.top ∧ (m i).b1 = some r.top ∧
    (keyOf m l.top).testBit (splitBit m l r) = false ∧
    (keyOf m r.top).testBit (splitBit m l r) = true ∧
    (keyOf m r.top) >>> (splitBit m l r + 1) =
      (keyOf m l.top) >>> (splitBit m l r + 1) ∧
    l.top ≠ r.top ∧
    2 ^ (splitBit m l r) ≤ keyOf m l.top ^^^ keyOf m r.top ∧
    keyOf m l.top ^^^ keyOf m r.top < 2 ^ (splitBit m l r + 1) := by
  obtain ⟨hb0, hb1, hkl, hkr, hmem, hcl, hcr, hwl, hwr⟩ := h
  have hlk := hkl _ (top_key_mem hwl)
  have hrk := hkr _ (top_key_mem hwr)
  have hne : keyOf m l.top ≠ keyOf m r.top := by
    intro he
    rw [he, hrk.2] at hlk
    exact Bool.noConfusion hlk.2
  have hXne : keyOf m l.top ^^^ keyOf m r.top ≠ 0 := by
    simpa [Nat.xor_eq_zero] using hne
  refine ⟨hb0, hb1, hlk.2, hrk.2, by rw [hrk.1], ?_, ?_, ?_⟩
  · intro he
    exact hne (by rw [he])
  · exact two_pow_log2_le hXne
  · exact lt_two_pow_log2_succ _

/-- Two keys on the same side of a well-formed split differ below the
split bit, so their xor is below it. -/
theorem same_side_xor_lt {m : Mem} {k P : Nat} {side : Bool} {t : LT}
    (hko : keysOn m k P side t) {a b : Nat}
    (ha : a ∈ t.keys m) (hb : b ∈ t.keys m) : a ^^^ b < 2 ^ k := by
  have h1 := hko a ha
  have h2 := hko b hb
  rw [xor_lt_two_pow_iff]
  exact shiftRight_eq_of_agree_succ (h1.1.trans h2.1.symm)
    (h1.2.trans h2.2.symm)

/-- A well-formed subtree whose keys all sit on one side of a split at
bit `k` can be entered with any previous xor of at least `2 ^ k`, in
particular with the parent's inter-branch xor; the self-loop leaf of the
parent is excluded. -/
theorem child_enterOK {m : Mem} {k P : Nat} {side : Bool} {t : LT} {i : Nat}
    (hwf : WFt m t) (hko : keysOn m k P side t) (hc : childOK m i k t)
    (htop : t.top ≠ i) {px : Nat} (hpx : 2 ^ k ≤ px) (hpx2 : px < 2 ^ (k + 1)) :
    EnterOK m px t := by
  cases t with
  | lf j =>
    rcases hc with hji | hlb
    · exact absurd hji htop
    · rcases hlb with hbb | hxb
      · exact Or.inl hbb
      · exact Or.inr (lt_of_lt_of_le hpx2 hxb)
  | nd j l' r' =>
    have hwl' : WFt m l' := hwf.2.2.2.2.2.2.2.1
    have hwr' : WFt m r' := hwf.2.2.2.2.2.2.2.2
    have hlm : keyOf m l'.top ∈ (LT.nd j l' r').keys m := by
      refine key_mem_of_leaf ?_
      simp only [LT.leaves]
      exact List.mem_append_left _ (wf_top_mem hwl')
    have hrm : keyOf m r'.top ∈ (LT.nd j l' r').keys m := by
      refine key_mem_of_leaf ?_
      simp only [LT.leaves]
      exact List.mem_append_right _ (wf_top_mem hwr')
    have hx : keyOf m l'.top ^^^ keyOf m r'.top < 2 ^ k :=
      same_side_xor_lt hko hlm hrm
    exact le_of_lt (lt_of_lt_of_le hx hpx)

/-- The central equivalence: on a well-formed subtree, the key-directed
descent loop computes exactly the structural replay `sDescend`, for any
incoming window state and any sufficient fuel. -/
theorem descendLoop_eq_sDescend {m : Mem} {meth : Meth} {kx : Nat}
    {wantN : Bool} (hk : meth.hasKey = true) :
    ∀ (t : LT), WFt m t → ∀ px, EnterOK m px t →
    ∀ fuel, t.size ≤ fuel →
    ∀ loc bs lparent lpside gparent gpside nparent npside bnode,
    descendLoop m meth kx wantN fuel t.top loc px bs lparent lpside gparent
        gpside nparent npside bnode
      = some (sDescend m meth kx wantN t loc lparent lpside gparent gpside
          nparent npside bnode) := by
  intro t
  induction t with
  | lf j =>
    intro _ px hent fuel hfuel loc bs lp lps gp gps np nps bn
    match fuel, hfuel with
    | fuel + 1, _ =>
    by_cases hbb : (m j).b0 = (m j).b1
    · simp [descendLoop, LT.top, sDescend, hbb]
    · have hpx : px < xorB m j := by
        rcases hent with h | h
        · exact absurd h hbb
        · exact h
      rcases hl : (m j).b0 with _ | a <;> rcases hr : (m j).b1 with _ | b
      · exact absurd (hl.trans hr.symm) hbb
      · have : xorB m j = 0 := by simp [xorB, hl, hr]
        omega
      · have : xorB m j = 0 := by simp [xorB, hl, hr]
        omega
      · have hx : xorB m j = keyOf m a ^^^ keyOf m b := by
          simp [xorB, hl, hr]
        by_cases hab : a = b
        · simp [descendLoop, LT.top, sDescend, hl, hr, hab]
        · rw [hx] at hpx
          simp only [descendLoop, LT.top, sDescend, hl, hr]
          rw [if_neg (by simpa using hab)]
          simp only [keyOf] at hpx
          rw [if_pos hpx]
  | nd i l r ihl ihr =>
    intro hwf px hent fuel hfuel loc bs lp lps gp gps np nps bn
    obtain ⟨hb0, hb1, hlkb, hrkb, hrsh, htne, hXge, hXlt⟩ := wfnd_facts hwf
    obtain ⟨_, _, hkol, hkor, hmem, hcl, hcr, hwl, hwr⟩ := hwf
    match fuel, hfuel with
    | fuel + 1, hfuel =>
    have hfl : l.size ≤ fuel := by simp [LT.size] at hfuel; omega
    have hfr : r.size ≤ fuel := by simp [LT.size] at hfuel; omega
    rw [show (LT.nd i l r).top = i from rfl]
    simp only [keyOf] at hXge hXlt
    simp only [descendLoop, sDescend, keyOf, hb0, hb1]
    simp only [EnterOK, keyOf] at hent
    rw [if_neg (by simpa using htne)]
    rw [if_neg (Nat.not_lt.mpr hent)]
    simp only [hk, true_and, if_true, eq_self_iff_true]
    by_cases hmis : kx ^^^ (m l.top).key > (m l.top).key ^^^ (m r.top).key ∧
        kx ^^^ (m r.top).key > (m l.top).key ^^^ (m r.top).key
    · rw [if_pos hmis, if_pos hmis]
    · rw [if_neg hmis, if_neg hmis]
      by_cases hbr : kx ^^^ (m l.top).key ≥ kx ^^^ (m r.top).key
      · simp only [decide_eq_true_eq, if_pos hbr]
        rw [show decide (kx ^^^ (m l.top).key ≥ kx ^^^ (m r.top).key) = true from by
          simpa using hbr]
        by_cases htop : r.top = i
        · rw [if_pos htop]
          cases r with
          | lf j =>
            simp only [LT.top] at htop
            subst htop
            simp [sDescend]
          | nd j l' r' =>
            exact absurd htop hcr
        · rw [if_neg htop]
          exact ihr hwr _ (child_enterOK hwr hkor hcr htop hXge hXlt) fuel hfr _ _ _ _ _ _ _ _ _
      · simp only [decide_eq_true_eq, if_neg hbr]
        rw [show decide (kx ^^^ (m l.top).key ≥ kx ^^^ (m r.top).key) = false from by
          simpa using hbr]
        by_cases htop : l.top = i
        · rw [if_pos htop]
          cases l with
          | lf j =>
            simp only [LT.top] at htop
            subst htop
            simp [sDescend]
          | nd j l' r' =>
            exact absurd htop hcl
        · rw [if_neg htop]
          exact ihl hwl _ (child_enterOK hwl hkol hcl htop hXge hXlt) fuel hfl _ _ _ _ _ _ _ _ _

/-! Routing of a key present in a well-formed subtree: the descent takes
the side whose key set contains it, and never mismatches. -/

theorem route_right {m : Mem} {i : Nat} {l r : LT} (hwf : WFt m (.nd i l r))
    {kx : Nat} (hin : kx ∈ r.keys m) :
    (kx ^^^ keyOf m l.top) ≥ (kx ^^^ keyOf m r.top) := by
  obtain ⟨_, _, hkol, hkor, _, _, _, hwl, hwr⟩ := hwf
  have h1 : kx ^^^ keyOf m r.top < 2 ^ splitBit m l r :=
    same_side_xor_lt hkor hin (top_key_mem hwr)
  have hlk := hkol _ (top_key_mem hwl)
  have hkx := hkor _ hin
  have h2 : 2 ^ splitBit m l r ≤ keyOf m l.top ^^^ kx :=
    split_xor_ge hlk.2 hkx.2
  rw [Nat.xor_comm (keyOf m l.top) kx] at h2
  exact le_of_lt (lt_of_lt_of_le h1 h2)

theorem route_left {m : Mem} {i : Nat} {l r : LT} (hwf : WFt m (.nd i l r))
    {kx : Nat} (hin : kx ∈ l.keys m) :
    ¬ (kx ^^^ keyOf m l.top) ≥ (kx ^^^ keyOf m r.top) := by
  obtain ⟨_, _, hkol, hkor, _, _, _, hwl, hwr⟩ := hwf
  have h1 : kx ^^^ keyOf m l.top < 2 ^ splitBit m l r :=
    same_side_xor_lt hkol hin (top_key_mem hwl)
  have hrk := hkor _ (top_key_mem hwr)
  have hkx := hkol _ hin
  have h2 : 2 ^ splitBit m l r ≤ kx ^^^ keyOf m r.top :=
    split_xor_ge hkx.2 hrk.2
  exact Nat.not_le.mpr (lt_of_lt_of_le h1 h2)

theorem no_mismatch {m : Mem} {i : Nat} {l r : LT} (hwf : WFt m (.nd i l r))
    {kx : Nat} (hin : kx ∈ (LT.nd i l r).keys m) :
    ¬ ((kx ^^^ keyOf m l.top) > (keyOf m l.top ^^^ keyOf m r.top) ∧
       (kx ^^^ keyOf m r.top) > (keyOf m l.top ^^^ keyOf m r.top)) := by
  have hX : 2 ^ splitBit m l r ≤ keyOf m l.top ^^^ keyOf m r.top :=
    (wfnd_facts hwf).2.2.2.2.2.2.1
  obtain ⟨_, _, hkol, hkor, _, _, _, hwl, hwr⟩ := hwf
  have hmem : kx ∈ l.keys m ∨ kx ∈ r.keys m := by
    simpa [LT.keys, LT.leaves] using hin
  rcases hmem with h | h
  · intro hc
    have h1 : kx ^^^ keyOf m l.top < 2 ^ splitBit m l r :=
      same_side_xor_lt hkol h (top_key_mem hwl)
    omega
  · intro hc
    have h1 : kx ^^^ keyOf m r.top < 2 ^ splitBit m l r :=
      same_side_xor_lt hkor h (top_key_mem hwr)
    omega

/-- Characterization of the key-directed descent when the key is present:
it lands on `destLeaf` with the window `finWin`. -/
theorem sDescend_found {m : Mem} {meth : Meth} {kx : Nat} {wantN : Bool} :
    ∀ {t : LT}, WFt m t → kx ∈ t.keys m → ∀ w : Win,
    sDescend m meth kx wantN t w.loc w.lp w.lps w.gp w.gps w.np w.nps w.bn
      = exitRes m meth kx (destLeaf m kx t)
          (finWin m meth kx wantN t w).loc
          (finWin m meth kx wantN t w).lp (finWin m meth kx wantN t w).lps
          (finWin m meth kx wantN t w).np (finWin m meth kx wantN t w).nps
          (finWin m meth kx wantN t w).gp (finWin m meth kx wantN t w).gps
          (finWin m meth kx wantN t w).bn := by
  intro t
  induction t with
  | lf j =>
    intro _ _ w
    simp [sDescend, finWin, destLeaf]
  | nd i l r ihl ihr =>
    intro hwf hin w
    have hnomis := no_mismatch hwf hin
    have hmem : kx ∈ l.keys m ∨ kx ∈ r.keys m := by
      simpa [LT.keys, LT.leaves] using hin
    simp only [sDescend, finWin, destLeaf]
    rw [if_neg hnomis]
    rcases hmem with h | h
    · have hdir := route_left hwf h
      rw [if_neg hdir, if_neg hdir, if_neg hdir]
      have := ihl hwf.2.2.2.2.2.2.2.1 h (shiftWin m meth kx wantN i false w)
      by_cases hnp : wantN = true ∧ kx = keyOf m i
      · simpa [shiftWin, hnp] using this
      · simpa [shiftWin, hnp] using this
    · have hdir := route_right hwf h
      rw [if_pos hdir, if_pos hdir, if_pos hdir]
      have := ihr hwf.2.2.2.2.2.2.2.2 h (shiftWin m meth kx wantN i true w)
      by_cases hnp : wantN = true ∧ kx = keyOf m i
      · simpa [shiftWin, hnp] using this
      · simpa [shiftWin, hnp] using this

/-! Derived facts about the destination leaf and key sets. -/

theorem destLeaf_mem {m : Mem} {kx : Nat} :
    ∀ {t : LT}, WFt m t → kx ∈ t.keys m →
    destLeaf m kx t ∈ t.leaves ∧ keyOf m (destLeaf m kx t) = kx := by
  intro t
  induction t with
  | lf j =>
    intro _ hin
    simp only [LT.keys, LT.leaves, List.map_singleton, List.mem_singleton] at hin
    exact ⟨by simp [destLeaf, LT.leaves], by simp [destLeaf, hin]⟩
  | nd i l r ihl ihr =>
    intro hwf hin
    have hmem : kx ∈ l.keys m ∨ kx ∈ r.keys m := by
      simpa [LT.keys, LT.leaves] using hin
    rcases hmem with h | h
    · have hdir := route_left hwf h
      have hih := ihl hwf.2.2.2.2.2.2.2.1 h
      refine ⟨?_, ?_⟩
      · simp only [destLeaf, if_neg hdir, LT.leaves]
        exact List.mem_append_left _ hih.1
      · simp only [destLeaf, if_neg hdir]
        exact hih.2
    · have hdir := route_right hwf h
      have hih := ihr hwf.2.2.2.2.2.2.2.2 h
      refine ⟨?_, ?_⟩
      · simp only [destLeaf, if_pos hdir, LT.leaves]
        exact List.mem_append_right _ hih.1
      · simp only [destLeaf, if_pos hdir]
        exact hih.2

theorem wf_keys_nodup {m : Mem} : ∀ {t : LT}, WFt m t → (t.keys m).Nodup := by
  intro t
  induction t with
  | lf j => intro _; simp [LT.keys, LT.leaves]
  | nd i l r ihl ihr =>
    intro hwf
    obtain ⟨_, _, hkol, hkor, _, _, _, hwl, hwr⟩ := hwf
    have hl := ihl hwl
    have hr := ihr hwr
    have hdisj : (l.keys m).Disjoint (r.keys m) := by
      rw [List.disjoint_left]
      intro a hal har
      have h1 := (hkol a hal).2
      have h2 := (hkor a har).2
      rw [h1] at h2
      exact Bool.noConfusion h2
    simpa [LT.keys, LT.leaves] using hl.append hr hdisj

/-- There is only one leaf carrying a given key: the one the descent
reaches. -/
theorem destLeaf_eq_of_mem {m : Mem} {t : LT} (hwf : WFt m t) {n : Nat}
    (hn : n ∈ t.leaves) {kx : Nat} (hkx : keyOf m n = kx) :
    destLeaf m kx t = n := by
  have h1 : kx ∈ t.keys m := hkx ▸ key_mem_of_leaf hn
  have h2 := destLeaf_mem hwf h1
  exact List.inj_on_of_nodup_map (wf_keys_nodup hwf) h2.1 hn (h2.2.trans hkx.symm)

/-- The `.ret` output of an equality-method descent when the key is not
in the subtree. -/
theorem sDescend_notfound_ret {m : Mem} {meth : Meth} {kx : Nat}
    {wantN : Bool} (hm : meth = .KEQ ∨ meth = .KNX ∨ meth = .KPR) :
    ∀ {t : LT}, WFt m t → kx ∉ t.keys m →
    ∀ loc lp lps gp gps np nps bn,
    (sDescend m meth kx wantN t loc lp lps gp gps np nps bn).ret = none := by
  intro t
  induction t with
  | lf j =>
    intro _ hout loc lp lps gp gps np nps bn
    have : keyOf m j ≠ kx := by
      intro h
      exact hout (by simp [LT.keys, LT.leaves, h])
    simp only [keyOf] at this
    rcases hm with h | h | h <;> subst h <;>
      simp [sDescend, exitRes, this]
  | nd i l r ihl ihr =>
    intro hwf hout loc lp lps gp gps np nps bn
    have hki : keyOf m i ≠ kx := by
      intro h
      refine hout ?_
      rw [← h]
      exact key_mem_of_leaf (wf_top_mem hwf)
    have houtl : kx ∉ l.keys m := by
      intro h
      exact hout (by simp [LT.keys, LT.leaves] at h ⊢; exact Or.inl h)
    have houtr : kx ∉ r.keys m := by
      intro h
      exact hout (by simp [LT.keys, LT.leaves] at h ⊢; exact Or.inr h)
    by_cases hmis : (kx ^^^ keyOf m l.top) > (keyOf m l.top ^^^ keyOf m r.top) ∧
        (kx ^^^ keyOf m r.top) > (keyOf m l.top ^^^ keyOf m r.top)
    · simp only [keyOf] at hki
      rcases hm with h | h | h <;> subst h <;>
        simp [sDescend, if_pos hmis, exitRes, hki]
    · by_cases hdir : (kx ^^^ keyOf m l.top) ≥ (kx ^^^ keyOf m r.top)
      · simpa [sDescend, if_neg hmis, if_pos hdir] using
          ihr hwf.2.2.2.2.2.2.2.2 houtr _ _ _ _ _ _ _ _
      · simpa [sDescend, if_neg hmis, if_neg hdir] using
          ihl hwf.2.2.2.2.2.2.2.1 houtl _ _ _ _ _ _ _ _

/-- A well-formed tree can be entered with the initial `pxor32 = ~0U`. -/
theorem root_enterOK {s : State} {t : LT} (hwf : WFst s t) :
    EnterOK s.mem (2 ^ 32 - 1) t := by
  obtain ⟨_, hk32, _, _, _, hsing, hwt⟩ := hwf
  cases t with
  | lf i =>
    exact Or.inl (hsing.1.trans hsing.2.symm)
  | nd i l r =>
    show keyOf s.mem l.top ^^^ keyOf s.mem r.top ≤ 2 ^ 32 - 1
    have h1 : keyOf s.mem l.top < 2 ^ 32 :=
      hk32 _ (by
        refine key_mem_of_leaf ?_
        simp only [LT.leaves]
        exact List.mem_append_left _ (wf_top_mem hwt.2.2.2.2.2.2.2.1))
    have h2 : keyOf s.mem r.top < 2 ^ 32 :=
      hk32 _ (by
        refine key_mem_of_leaf ?_
        simp only [LT.leaves]
        exact List.mem_append_right _ (wf_top_mem hwt.2.2.2.2.2.2.2.2))
    have := Nat.xor_lt_two_pow h1 h2
    omega

/-- Root-level form of the equivalence: a key-directed `_cebu_descend`
on a well-formed tree computes the structural replay from the initial
window. -/
theorem cebu_descend_eq {s : State} {t : LT} (hwf : WFst s t) {meth : Meth}
    (hk : meth.hasKey = true) (kx : Nat) (wantN : Bool) {fuel : Nat}
    (hfuel : t.size ≤ fuel) :
    _cebu_descend s.mem meth kx wantN fuel t.top
      = some (sDescend s.mem meth kx wantN t (NRef.virt, false) .virt false
          .virt false .virt false none) := by
  unfold _cebu_descend
  exact descendLoop_eq_sDescend hk t hwf.2.2.2.2.2.2 _ (root_enterOK hwf)
    fuel hfuel _ _ _ _ _ _ _ _ _

/-- `_cebu_lookup` on a well-formed tree returns the unique leaf holding
the key when present, NULL otherwise. -/
theorem cebu_lookup_spec {s : State} {t : LT} (hwf : WFst s t) (kx : Nat)
    {fuel : Nat} (hfuel : t.size ≤ fuel) :
    _cebu_lookup fuel s kx =
      some (if kx ∈ t.keys s.mem then some (destLeaf s.mem kx t) else none) := by
  unfold _cebu_lookup
  rw [hwf.1]
  simp only [Option.map]
  rw [cebu_descend_eq hwf (by decide) kx false hfuel]
  by_cases hin : kx ∈ t.keys s.mem
  · rw [if_pos hin]
    have hfd := @sDescend_found s.mem .KEQ kx false t
      hwf.2.2.2.2.2.2 hin startWin
    simp only [startWin] at hfd
    rw [hfd]
    have hkey := (destLeaf_mem hwf.2.2.2.2.2.2 hin).2
    simp only [keyOf] at hkey
    simp [exitRes, hkey]
  · rw [if_neg hin]
    simp [sDescend_notfound_ret (Or.inl rfl) hwf.2.2.2.2.2.2 hin]

theorem stepSide_false {meth : Meth} (hk : meth.hasKey = false) :
    stepSide meth false = if meth = Meth.PRV then true else false := by
  cases meth <;> simp [stepSide, Meth.hasKey] at hk ⊢

theorem stepSide_true {meth : Meth} (hk : meth.hasKey = false) :
    stepSide meth true = if meth = Meth.NXT then false else true := by
  cases meth <;> simp [stepSide, Meth.hasKey] at hk ⊢

/-- The key-less walks (FST, LST, NXT, PRV) reach the leaf given by
`walkLeaf` on any well-formed, enterable subtree. -/
theorem descendLoop_keyless_ret {m : Mem} {meth : Meth} {kx : Nat}
    {wantN : Bool} (hk : meth.hasKey = false) :
    ∀ t, WFt m t → ∀ px, EnterOK m px t → ∀ fuel, t.size ≤ fuel →
    ∀ loc (bs : Bool) lp lps gp gps np nps bn,
    (descendLoop m meth kx wantN fuel t.top loc px bs lp lps gp gps np nps
        bn).map (fun d => d.ret)
      = some (some (walkLeaf meth t bs)) := by
  intro t
  induction t with
  | lf j =>
    intro _ px hent fuel hfuel loc bs lp lps gp gps np nps bn
    match fuel, hfuel with
    | fuel + 1, _ =>
    by_cases hbb : (m j).b0 = (m j).b1
    · simp [descendLoop, LT.top, walkLeaf, hbb, exitRes, hk]
      cases meth <;> simp_all [Meth.hasKey, walkLeaf]
    · have hpx : px < xorB m j := by
        rcases hent with h | h
        · exact absurd h hbb
        · exact h
      rcases hl : (m j).b0 with _ | a <;> rcases hr : (m j).b1 with _ | b
      · exact absurd (hl.trans hr.symm) hbb
      · have : xorB m j = 0 := by simp [xorB, hl, hr]
        omega
      · have : xorB m j = 0 := by simp [xorB, hl, hr]
        omega
      · have hx : xorB m j = keyOf m a ^^^ keyOf m b := by
          simp [xorB, hl, hr]
        by_cases hab : a = b
        · simp [descendLoop, LT.top, walkLeaf, hl, hr, hab, exitRes]
          cases meth <;> simp_all [Meth.hasKey, walkLeaf]
        · rw [hx] at hpx
          simp only [descendLoop, LT.top]
          rw [hl, hr]
          rw [if_neg (by simpa using hab)]
          simp only [keyOf] at hpx
          simp only [hk, Bool.false_eq_true, if_false]
          rw [if_pos hpx]
          simp only [walkLeaf, exitRes, Option.map]
          cases meth <;> simp_all [Meth.hasKey, walkLeaf]
  | nd i l r ihl ihr =>
    intro hwf px hent fuel hfuel loc bs lp lps gp gps np nps bn
    obtain ⟨hb0, hb1, hlkb, hrkb, hrsh, htne, hXge, hXlt⟩ := wfnd_facts hwf
    obtain ⟨_, _, hkol, hkor, hmem, hcl, hcr, hwl, hwr⟩ := hwf
    match fuel, hfuel with
    | fuel + 1, hfuel =>
    have hfl : l.size ≤ fuel := by simp [LT.size] at hfuel; omega
    have hfr : r.size ≤ fuel := by simp [LT.size] at hfuel; omega
    rw [show (LT.nd i l r).top = i from rfl]
    simp only [keyOf] at hXge hXlt
    simp only [descendLoop, hb0, hb1]
    rw [if_neg (by simpa using htne)]
    simp only [EnterOK, keyOf] at hent
    rw [if_neg (Nat.not_lt.mpr hent)]
    have hnomis : ¬ (meth.hasKey = true ∧
        kx ^^^ (m l.top).key > (m l.top).key ^^^ (m r.top).key ∧
        kx ^^^ (m r.top).key > (m l.top).key ^^^ (m r.top).key) := by
      simp [hk]
    rw [if_neg hnomis]
    rw [show (if meth.hasKey = true then
        decide (kx ^^^ (m l.top).key ≥ kx ^^^ (m r.top).key) else bs) = bs from by
      simp [hk]]
    cases bs with
    | true =>
      rw [if_pos rfl]
      simp only [walkLeaf]
      by_cases htop : r.top = i
      · cases r with
        | lf j =>
          simp only [LT.top] at htop
          subst htop
          rw [if_pos (show (LT.lf j).top = j from rfl)]
          simp only [walkLeaf, exitRes, Option.map]
          cases meth <;> simp_all [Meth.hasKey, walkLeaf]
        | nd j l' r' =>
          exact absurd htop hcr
      · rw [if_neg htop, stepSide_true hk]
        exact ihr hwr _ (child_enterOK hwr hkor hcr htop hXge hXlt)
          fuel hfr _ _ _ _ _ _ _ _ _
    | false =>
      rw [if_neg (show ¬ (false = true) from by simp)]
      simp only [walkLeaf]
      by_cases htop : l.top = i
      · cases l with
        | lf j =>
          simp only [LT.top] at htop
          subst htop
          rw [if_pos (show (LT.lf j).top = j from rfl)]
          simp only [walkLeaf, exitRes, Option.map]
          cases meth <;> simp_all [Meth.hasKey, walkLeaf]
        | nd j l' r' =>
          exact absurd htop hcl
      · rw [if_neg htop, stepSide_false hk]
        exact ihl hwl _ (child_enterOK hwl hkol hcl htop hXge hXlt)
          fuel hfl _ _ _ _ _ _ _ _ _

/-! Heap update laws. -/

theorem updateMem_self (m : Mem) (i : Nat) (v : CebNode) :
    updateMem m i v i = v := by simp [updateMem]

theorem updateMem_other (m : Mem) (i : Nat) (v : CebNode) {j : Nat}
    (h : j ≠ i) : updateMem m i v j = m j := by simp [updateMem, h]

theorem writeB_b0_self (m : Mem) (i : Nat) (v : Option Nat) :
    (writeB m i false v i).b0 = v := by simp [writeB, updateMem]

theorem writeB_b1_self (m : Mem) (i : Nat) (v : Option Nat) :
    (writeB m i true v i).b1 = v := by simp [writeB, updateMem]

theorem writeB_b1_of_b0 (m : Mem) (i : Nat) (v : Option Nat) :
    (writeB m i false v i).b1 = (m i).b1 := by simp [writeB, updateMem]

theorem writeB_b0_of_b1 (m : Mem) (i : Nat) (v : Option Nat) :
    (writeB m i true v i).b0 = (m i).b0 := by simp [writeB, updateMem]

theorem writeB_other (m : Mem) (i : Nat) (side : Bool) (v : Option Nat)
    {j : Nat} (h : j ≠ i) : writeB m i side v j = m j := by
  cases side <;> simp [writeB, updateMem, h]

theorem writeB_key (m : Mem) (i : Nat) (side : Bool) (v : Option Nat)
    (j : Nat) : (writeB m i side v j).key = (m j).key := by
  by_cases h : j = i
  · subst h
    cases side <;> simp [writeB, updateMem]
  · rw [writeB_other m i side v h]

theorem writeSlot_key (s : State) (sl : Slot) (v : Option Nat) (j : Nat) :
    ((writeSlot s sl v).mem j).key = (s.mem j).key := by
  rcases sl with ⟨nr, side⟩
  cases nr with
  | virt => rfl
  | node i => simp [writeSlot, writeB_key]

/-- A successful checked delete marks the returned node: every
mutation branch of `_cebu_delete` ends by clearing `ret->b[0]`. -/
theorem cebu_delete_marks {fuel : Nat} {s : State} {n kv rv : Nat}
    {d : DRes}
    (hb : (s.mem n).b0 ≠ none)
    (hroot : s.root = some rv)
    (hd : _cebu_descend s.mem .KEQ kv true fuel rv = some d)
    (hret : d.ret = some n) :
    ∃ s', _cebu_delete fuel s (some n) kv = some (some n, s') ∧
      (s'.mem n).b0 = none := by
  unfold _cebu_delete
  rw [if_neg (by simpa using hb)]
  rw [hroot]
  simp only [hd, hret]
  rw [if_pos (Or.inr trivial)]
  rcases hlp : d.lparent with _ | lp
  · exact ⟨_, rfl, writeB_b0_self _ _ _⟩
  · dsimp only
    by_cases hlpn : lp = n
    · rw [if_pos hlpn]
      exact ⟨_, rfl, writeB_b0_self _ _ _⟩
    · rw [if_neg hlpn]
      by_cases hbb : ((writeSlot s (d.gparent, d.gpside)
          ((s.mem lp).b (!d.lpside))).mem n).b0 =
          ((writeSlot s (d.gparent, d.gpside) ((s.mem lp).b (!d.lpside))).mem n).b1
      · rw [if_pos hbb]
        exact ⟨_, rfl, writeB_b0_self _ _ _⟩
      · rw [if_neg hbb]
        exact ⟨_, rfl, writeB_b0_self _ _ _⟩

/-- The equal-key descent on a well-formed tree returns the leaf whose
key was asked for. -/
theorem cebu_descend_keq_ret {s : State} {t : LT} (hwf : WFst s t) {n : Nat}
    (hn : n ∈ t.leaves) (wantN : Bool) {fuel : Nat} (hfuel : t.size ≤ fuel) :
    ∃ d, _cebu_descend s.mem .KEQ (keyOf s.mem n) wantN fuel t.top = some d ∧
      d.ret = some n := by
  refine ⟨_, cebu_descend_eq hwf (by decide) _ wantN hfuel, ?_⟩
  have hfd := @sDescend_found s.mem .KEQ (keyOf s.mem n) wantN t
    hwf.2.2.2.2.2.2 (key_mem_of_leaf hn) startWin
  simp only [startWin] at hfd
  rw [hfd]
  have hdl := destLeaf_eq_of_mem hwf.2.2.2.2.2.2 hn rfl
  rw [hdl]
  simp [exitRes, keyOf]

/-- The singleton tree used as the concrete well-formed state of the
witnesses. -/
theorem mismatchSt_wf : WFst mismatchSt (.lf 1) := by
  refine ⟨rfl, ?_, ?_, ?_, ?_, ?_, trivial⟩ <;> decide

/-- C3: deleting an already detached node (`b[0] == nil`) returns nil
and leaves the tree unchanged; consequently, deleting a node that is in
the tree returns the node on the first call (which marks it detached)
and nil on the second. -/
theorem delete_detached_nil_and_idem :
    (∀ fuel (s : State) (n : Nat), (s.mem n).b0 = none →
        cebu32_delete fuel s n = some (none, s)) ∧
    (∀ (s : State) (t : LT), WFst s t → ∀ n ∈ t.leaves,
        ∀ fuel, t.size ≤ fuel →
        ∃ s', cebu32_delete fuel s n = some (some n, s') ∧
          ∀ fuel2, cebu32_delete fuel2 s' n = some (none, s')) := by
  have hdetached : ∀ fuel (s : State) (n : Nat), (s.mem n).b0 = none →
      cebu32_delete fuel s n = some (none, s) := by
    intro fuel s n hb
    unfold cebu32_delete _cebu_delete
    rw [if_pos (by simpa using hb)]
  refine ⟨hdetached, ?_⟩
  intro s t hwf n hn fuel hfuel
  obtain ⟨d, hd, hret⟩ := cebu_descend_keq_ret hwf hn true hfuel
  have hb : (s.mem n).b0 ≠ none := hwf.2.2.2.2.1 n hn
  obtain ⟨s', heq, hmark⟩ := cebu_delete_marks hb hwf.1 hd hret
  exact ⟨s', heq, fun fuel2 => hdetached fuel2 s' n hmark⟩

/-- C3, witness: on the concrete singleton tree, the first delete of
node 1 returns it and the second returns nil; and deleting the detached
allocation 9 on a state where its `b[0]` is nil returns nil. -/
theorem delete_detached_nil_and_idem_witness :
    ∃ s', cebu32_delete 1 mismatchSt 1 = some (some 1, s') ∧
      ∀ fuel2, cebu32_delete fuel2 s' 1 = some (none, s') :=
  delete_detached_nil_and_idem.2 mismatchSt (.lf 1) mismatchSt_wf 1
    (by decide) 1 (by decide)

/-! Bits of `log2`, congruence of well-formedness under writes. -/

theorem testBit_false_of_lt {x j : Nat} (h : x < 2 ^ j) :
    x.testBit j = false := Nat.testBit_lt_two_pow h

theorem testBit_log2_self {x : Nat} (h : x ≠ 0) :
    x.testBit (Nat.log2 x) = true := by
  have h1 := two_pow_log2_le h
  have h2 := lt_two_pow_log2_succ x
  rw [Nat.testBit_to_div_mod]
  have hdiv : x / 2 ^ Nat.log2 x = 1 := by
    have hp : 0 < 2 ^ Nat.log2 x := Nat.pos_pow_of_pos _ (by norm_num)
    have ha : 1 ≤ x / 2 ^ Nat.log2 x := (Nat.le_div_iff_mul_le hp).mpr (by omega)
    have hb : x / 2 ^ Nat.log2 x < 2 := by
      rw [Nat.div_lt_iff_lt_mul hp]
      rw [pow_succ] at h2
      omega
    omega
  simp [hdiv]

theorem testBit_false_of_log2_lt {x j : Nat} (h : Nat.log2 x < j) :
    x.testBit j = false := by
  rcases Nat.eq_zero_or_pos x with h0 | h0
  · simp [h0]
  · refine testBit_false_of_lt (lt_of_lt_of_le (lt_two_pow_log2_succ x) ?_)
    exact Nat.pow_le_pow_right (by norm_num) (by omega)

/-- The stored inter-branch xor only depends on the branch pair and on
the key assignment. -/
theorem xorB_congr {m m2 : Mem} {j : Nat}
    (hkeys : ∀ a, keyOf m2 a = keyOf m a)
    (hb0 : (m2 j).b0 = (m j).b0) (hb1 : (m2 j).b1 = (m j).b1) :
    xorB m2 j = xorB m j := by
  unfold xorB
  rw [hb0, hb1]
  rcases (m j).b0 with _ | a <;> rcases (m j).b1 with _ | b <;>
    simp [hkeys]

/-- Well-formedness transfers along a memory change that preserves all
keys, the branches of every node role, and the breakability of every
leaf role. -/
theorem WFt_mono {m m2 : Mem}
    (hkeys : ∀ a, keyOf m2 a = keyOf m a) :
    ∀ {t : LT},
    (∀ i ∈ t.nodes, (m2 i).b0 = (m i).b0 ∧ (m2 i).b1 = (m i).b1) →
    (∀ j ∈ t.leaves, ∀ k, leafBreakable m k j → leafBreakable m2 k j) →
    WFt m t → WFt m2 t := by
  intro t
  induction t with
  | lf j => intro _ _ _; trivial
  | nd i l r ihl ihr =>
    intro hb hlb hwf
    obtain ⟨hb0, hb1, hkol, hkor, hmem, hcl, hcr, hwl, hwr⟩ := hwf
    have hbi := hb i (by simp [LT.nodes])
    have hkeq : ∀ u : LT, u.keys m2 = u.keys m := by
      intro u
      simp only [LT.keys]
      exact List.map_congr_left (fun a _ => hkeys a)
    have hsp : splitBit m2 l r = splitBit m l r := by
      unfold splitBit
      rw [hkeys, hkeys]
    have hko : ∀ (k P : Nat) (side : Bool) (u : LT),
        keysOn m k P side u → keysOn m2 k P side u := by
      intro k P side u h a ha
      rw [hkeq] at ha
      exact h a ha
    have hcc : ∀ u : LT, (∀ j ∈ u.leaves, ∀ k,
          leafBreakable m k j → leafBreakable m2 k j) →
        childOK m i (splitBit m l r) u → childOK m2 i (splitBit m l r) u := by
      intro u hlb2 hc
      cases u with
      | lf j =>
        rcases hc with h | h
        · exact Or.inl h
        · exact Or.inr (hlb2 j (by simp [LT.leaves]) _ h)
      | nd j _ _ => exact hc
    refine ⟨hbi.1.trans hb0, ?_, ?_, ?_, ?_, ?_, ?_, ?_, ?_⟩
    · exact hbi.2.trans hb1
    · rw [hsp, hkeys]
      exact hko _ _ _ _ hkol
    · rw [hsp, hkeys]
      exact hko _ _ _ _ hkor
    · exact hmem
    · rw [hsp]
      refine hcc l ?_ hcl
      intro j hj k h
      exact hlb j (by simp [LT.leaves]; exact Or.inl hj) k h
    · rw [hsp]
      refine hcc r ?_ hcr
      intro j hj k h
      exact hlb j (by simp [LT.leaves]; exact Or.inr hj) k h
    · refine ihl ?_ ?_ hwl
      · intro a ha
        exact hb a (by simp [LT.nodes]; exact Or.inr (Or.inl ha))
      · intro j hj k h
        exact hlb j (by simp [LT.leaves]; exact Or.inl hj) k h
    · refine ihr ?_ ?_ hwr
      · intro a ha
        exact hb a (by simp [LT.nodes]; exact Or.inr (Or.inr ha))
      · intro j hj k h
        exact hlb j (by simp [LT.leaves]; exact Or.inr hj) k h

/-- The slot and side outputs of any key-directed structural descent: the
final slot is the insertion slot (the slot of the stop subtree), and the
side output is the final compare against the stop subtree\'s top key. -/
theorem sDescend_slot {m : Mem} {meth : Meth} {kx : Nat} {wantN : Bool} :
    ∀ (t : LT) (loc : Slot) lp lps gp gps np nps bn,
    (sDescend m meth kx wantN t loc lp lps gp gps np nps bn).rroot
        = insLoc m kx t loc ∧
    (sDescend m meth kx wantN t loc lp lps gp gps np nps bn).nside
        = decide (keyOf m (insSub m kx t).top ≤ kx) := by
  intro t
  induction t with
  | lf j =>
    intro loc lp lps gp gps np nps bn
    simp [sDescend, exitRes, insLoc, insSub, LT.top, keyOf]
  | nd i l r ihl ihr =>
    intro loc lp lps gp gps np nps bn
    by_cases hmis : (kx ^^^ keyOf m l.top) > (keyOf m l.top ^^^ keyOf m r.top) ∧
        (kx ^^^ keyOf m r.top) > (keyOf m l.top ^^^ keyOf m r.top)
    · have hmis' : misAt m kx l r := hmis
      simp only [sDescend, if_pos hmis]
      rw [show (insLoc m kx (.nd i l r) loc) = loc from by
        simp [insLoc, if_pos hmis']]
      rw [show (insSub m kx (.nd i l r)) = .nd i l r from by
        simp [insSub, if_pos hmis']]
      simp [exitRes, LT.top, keyOf]
    · have hmis' : ¬ misAt m kx l r := hmis
      by_cases hdir : (kx ^^^ keyOf m l.top) ≥ (kx ^^^ keyOf m r.top)
      · simp only [sDescend, if_neg hmis, if_pos hdir]
        rw [show (insLoc m kx (.nd i l r) loc)
            = insLoc m kx r (NRef.node i, true) from by
          simp [insLoc, if_neg hmis', if_pos hdir]]
        rw [show (insSub m kx (.nd i l r)) = insSub m kx r from by
          simp [insSub, if_neg hmis', if_pos hdir]]
        exact ihr _ _ _ _ _ _ _ _
      · simp only [sDescend, if_neg hmis, if_neg hdir]
        rw [show (insLoc m kx (.nd i l r) loc)
            = insLoc m kx l (NRef.node i, false) from by
          simp [insLoc, if_neg hmis', if_neg hdir]]
        rw [show (insSub m kx (.nd i l r)) = insSub m kx l from by
          simp [insSub, if_neg hmis', if_neg hdir]]
        exact ihl _ _ _ _ _ _ _ _

/-- On a well-formed subtree whose slot reads to its top, the insertion
slot reads to the top of the stop subtree. -/
theorem insLoc_reads {kx : Nat} {s : State} :
    ∀ {t : LT}, WFt s.mem t → ∀ loc, readSlot s loc = some t.top →
    readSlot s (insLoc s.mem kx t loc) = some (insSub s.mem kx t).top := by
  intro t
  induction t with
  | lf j =>
    intro _ loc hloc
    simpa [insLoc, insSub] using hloc
  | nd i l r ihl ihr =>
    intro hwf loc hloc
    have hf := wfnd_facts hwf
    by_cases hmis : misAt s.mem kx l r
    · simp only [insLoc, insSub, if_pos hmis]
      exact hloc
    · by_cases hdir : (kx ^^^ keyOf s.mem l.top) ≥ (kx ^^^ keyOf s.mem r.top)
      · simp only [insLoc, insSub, if_neg hmis, if_pos hdir]
        refine ihr hwf.2.2.2.2.2.2.2.2 _ ?_
        show (s.mem i).b true = some r.top
        exact hf.2.1
      · simp only [insLoc, insSub, if_neg hmis, if_neg hdir]
        refine ihl hwf.2.2.2.2.2.2.2.1 _ ?_
        show (s.mem i).b false = some l.top
        exact hf.1

/-- Explicit form of `_cebu_insert` on a well-formed nonempty tree when
the new key is absent: the returned node is `n` and the state is the old
one with the branches of `n` set around the stop subtree and the insertion
slot redirected to `n`. -/
theorem cebu_insert_eq {s : State} {t : LT} (hwf : WFst s t) {n : Nat}
    (hout : (s.mem n).key ∉ t.keys s.mem) {fuel : Nat} (hfuel : t.size ≤ fuel) :
    _cebu_insert fuel s n = some (n,
      writeSlot
        ⟨updateMem s.mem n
          (if decide (keyOf s.mem (insSub s.mem ((s.mem n).key) t).top
              ≤ (s.mem n).key) then
            { s.mem n with b1 := some n, b0 := some (insSub s.mem ((s.mem n).key) t).top }
          else
            { s.mem n with b0 := some n, b1 := some (insSub s.mem ((s.mem n).key) t).top }),
          s.root⟩
        (insLoc s.mem ((s.mem n).key) t (NRef.virt, false)) (some n)) := by
  unfold _cebu_insert
  rw [hwf.1]
  dsimp only
  rw [cebu_descend_eq hwf (by decide) ((s.mem n).key) false hfuel]
  have hret := @sDescend_notfound_ret s.mem .KEQ ((s.mem n).key) false
    (Or.inl rfl) t hwf.2.2.2.2.2.2 hout (NRef.virt, false) .virt false .virt
    false .virt false none
  have hslot := @sDescend_slot s.mem .KEQ ((s.mem n).key) false
    t (NRef.virt, false) .virt false
    .virt false .virt false none
  simp only [hret, hslot.1, hslot.2]
  have hread : readSlot s (insLoc s.mem ((s.mem n).key) t (NRef.virt, false))
      = some (insSub s.mem ((s.mem n).key) t).top :=
    insLoc_reads hwf.2.2.2.2.2.2 _ hwf.1
  simp only [hread, keyOf]

/-! Structural facts about the insertion transform. -/

theorem insLoc_cases {m : Mem} {kx : Nat} :
    ∀ (t : LT) (p0 : Nat) (s0 : Bool),
    insLoc m kx t (NRef.node p0, s0) = (NRef.node p0, s0)
    ∨ ∃ p side, insLoc m kx t (NRef.node p0, s0) = (NRef.node p, side)
        ∧ p ∈ t.nodes := by
  intro t
  induction t with
  | lf j => intro p0 s0; exact Or.inl rfl
  | nd i l r ihl ihr =>
    intro p0 s0
    by_cases hmis : misAt m kx l r
    · exact Or.inl (by simp [insLoc, if_pos hmis])
    · right
      by_cases hdir : (kx ^^^ keyOf m l.top) ≥ (kx ^^^ keyOf m r.top)
      · rw [show insLoc m kx (.nd i l r) (NRef.node p0, s0)
            = insLoc m kx r (NRef.node i, true) from by
          simp [insLoc, if_neg hmis, if_pos hdir]]
        rcases ihr i true with h | ⟨p, side, h, hp⟩
        · exact ⟨i, true, h, by simp [LT.nodes]⟩
        · exact ⟨p, side, h, by simp [LT.nodes]; exact Or.inr (Or.inr hp)⟩
      · rw [show insLoc m kx (.nd i l r) (NRef.node p0, s0)
            = insLoc m kx l (NRef.node i, false) from by
          simp [insLoc, if_neg hmis, if_neg hdir]]
        rcases ihl i false with h | ⟨p, side, h, hp⟩
        · exact ⟨i, false, h, by simp [LT.nodes]⟩
        · exact ⟨p, side, h, by simp [LT.nodes]; exact Or.inr (Or.inl hp)⟩

theorem insLT_top_nomis {m : Mem} {kx n i : Nat} {l r : LT}
    (hmis : ¬ misAt m kx l r) :
    (insLT m kx n (.nd i l r)).top = i := by
  simp only [insLT, if_neg hmis]
  by_cases hdir : (kx ^^^ keyOf m l.top) ≥ (kx ^^^ keyOf m r.top)
  · rw [if_pos hdir]; rfl
  · rw [if_neg hdir]; rfl

theorem insLT_leaves_perm {m : Mem} {kx n : Nat} :
    ∀ (t : LT), (insLT m kx n t).leaves.Perm (n :: t.leaves) := by
  intro t
  induction t with
  | lf j =>
    by_cases h : keyOf m j ≤ kx
    · simp only [insLT, if_pos h, LT.leaves]
      exact List.perm_append_comm
    · simp [insLT, if_neg h, LT.leaves]
  | nd i l r ihl ihr =>
    by_cases hmis : misAt m kx l r
    · simp only [insLT, if_pos hmis]
      by_cases h : keyOf m i ≤ kx
      · simp only [if_pos h, LT.leaves]
        exact List.perm_append_comm
      · simp [if_neg h, LT.leaves]
    · by_cases hdir : (kx ^^^ keyOf m l.top) ≥ (kx ^^^ keyOf m r.top)
      · simp only [insLT, if_neg hmis, if_pos hdir, LT.leaves]
        exact ((ihr.append_left l.leaves).trans List.perm_middle)
      · simp only [insLT, if_neg hmis, if_neg hdir, LT.leaves]
        exact ihl.append_right r.leaves

theorem insLT_nodes_perm {m : Mem} {kx n : Nat} :
    ∀ (t : LT), (insLT m kx n t).nodes.Perm (n :: t.nodes) := by
  intro t
  induction t with
  | lf j =>
    by_cases h : keyOf m j ≤ kx
    · simp [insLT, if_pos h, LT.nodes]
    · simp [insLT, if_neg h, LT.nodes]
  | nd i l r ihl ihr =>
    by_cases hmis : misAt m kx l r
    · simp only [insLT, if_pos hmis]
      by_cases h : keyOf m i ≤ kx
      · simp only [if_pos h, LT.nodes]
        simp
      · simp only [if_neg h, LT.nodes]
        simp [List.Perm.swap]
    · by_cases hdir : (kx ^^^ keyOf m l.top) ≥ (kx ^^^ keyOf m r.top)
      · simp only [insLT, if_neg hmis, if_pos hdir, LT.nodes]
        refine List.Perm.trans ?_ (List.Perm.swap n i _)
        exact List.Perm.cons i ((ihr.append_left l.nodes).trans List.perm_middle)
      · simp only [insLT, if_neg hmis, if_neg hdir, LT.nodes]
        refine List.Perm.trans ?_ (List.Perm.swap n i _)
        exact List.Perm.cons i (ihl.append_right r.nodes)

theorem insSub_top_leaf {m : Mem} {kx : Nat} :
    ∀ {t : LT}, WFt m t → (insSub m kx t).top ∈ t.leaves := by
  intro t
  induction t with
  | lf j => intro _; simp [insSub, LT.top, LT.leaves]
  | nd i l r ihl ihr =>
    intro hwf
    by_cases hmis : misAt m kx l r
    · simp only [insSub, if_pos hmis]
      exact wf_top_mem hwf
    · by_cases hdir : (kx ^^^ keyOf m l.top) ≥ (kx ^^^ keyOf m r.top)
      · simp only [insSub, if_neg hmis, if_pos hdir, LT.leaves]
        exact List.mem_append_right _ (ihr hwf.2.2.2.2.2.2.2.2)
      · simp only [insSub, if_neg hmis, if_neg hdir, LT.leaves]
        exact List.mem_append_left _ (ihl hwf.2.2.2.2.2.2.2.1)

/-! Routing of an absent key: prefix agreement, direction bit, and the
divergence class at the stop subtree. -/

theorem not_mis_prefix {m : Mem} {i : Nat} {l r : LT} (hwf : WFt m (.nd i l r))
    {kx : Nat} (hnm : ¬ misAt m kx l r) :
    kx >>> (splitBit m l r + 1) = keyOf m l.top >>> (splitBit m l r + 1) := by
  obtain ⟨_, _, hlkb, hrkb, hrsh, _, hXge, hXlt⟩ := wfnd_facts hwf
  rw [misAt, not_and_or] at hnm
  rcases hnm with h | h
  · have hle : kx ^^^ keyOf m l.top < 2 ^ (splitBit m l r + 1) := by omega
    exact (xor_lt_two_pow_iff _ _ _).mp hle
  · have hle : kx ^^^ keyOf m r.top < 2 ^ (splitBit m l r + 1) := by omega
    exact ((xor_lt_two_pow_iff _ _ _).mp hle).trans hrsh

theorem dir_bit {m : Mem} {i : Nat} {l r : LT} (hwf : WFt m (.nd i l r))
    {kx : Nat} (hnm : ¬ misAt m kx l r) :
    ((kx ^^^ keyOf m l.top) ≥ (kx ^^^ keyOf m r.top))
      ↔ kx.testBit (splitBit m l r) = true := by
  obtain ⟨_, _, hlkb, hrkb, hrsh, _, hXge, hXlt⟩ := wfnd_facts hwf
  have hpa := not_mis_prefix hwf hnm
  constructor
  · intro hge
    by_contra hbit
    have hbit' : kx.testBit (splitBit m l r) = false := by
      cases h : kx.testBit (splitBit m l r)
      · rfl
      · exact absurd h hbit
    have h1 : kx ^^^ keyOf m l.top < 2 ^ splitBit m l r :=
      (xor_lt_two_pow_iff _ _ _).mpr
        (shiftRight_eq_of_agree_succ hpa (hbit'.trans hlkb.symm))
    have h2 : 2 ^ splitBit m l r ≤ kx ^^^ keyOf m r.top :=
      split_xor_ge hbit' hrkb
    omega
  · intro hbit
    have h1 : kx ^^^ keyOf m r.top < 2 ^ splitBit m l r :=
      (xor_lt_two_pow_iff _ _ _).mpr
        (shiftRight_eq_of_agree_succ (hpa.trans hrsh.symm) (hbit.trans hrkb.symm))
    have h2 : 2 ^ splitBit m l r ≤ keyOf m l.top ^^^ kx :=
      split_xor_ge hlkb hbit
    rw [Nat.xor_comm] at h2
    omega

theorem mis_above {m : Mem} {i : Nat} {l r : LT} (hwf : WFt m (.nd i l r))
    {kx : Nat} (hm : misAt m kx l r) :
    2 ^ (splitBit m l r + 1) ≤ kx ^^^ keyOf m l.top := by
  obtain ⟨_, _, hlkb, hrkb, hrsh, _, hXge, hXlt⟩ := wfnd_facts hwf
  by_contra hlt
  have hpa : kx >>> (splitBit m l r + 1) = keyOf m l.top >>> (splitBit m l r + 1) :=
    (xor_lt_two_pow_iff _ _ _).mp (by omega)
  obtain ⟨hA, hB⟩ := hm
  cases hbit : kx.testBit (splitBit m l r)
  · have h1 : kx ^^^ keyOf m l.top < 2 ^ splitBit m l r :=
      (xor_lt_two_pow_iff _ _ _).mpr
        (shiftRight_eq_of_agree_succ hpa (hbit.trans hlkb.symm))
    omega
  · have h1 : kx ^^^ keyOf m r.top < 2 ^ splitBit m l r :=
      (xor_lt_two_pow_iff _ _ _).mpr
        (shiftRight_eq_of_agree_succ (hpa.trans hrsh.symm) (hbit.trans hrkb.symm))
    omega

/-- Between two distinct numbers, the larger carries a one and the
smaller a zero at the top bit of their xor. -/
theorem testBit_log2_xor_of_lt {x y : Nat} (hxy : x < y) :
    y.testBit (Nat.log2 (x ^^^ y)) = true ∧
    x.testBit (Nat.log2 (x ^^^ y)) = false := by
  have hne : x ^^^ y ≠ 0 := by
    simpa [Nat.xor_eq_zero] using Nat.ne_of_lt hxy
  have hdif := testBit_log2_self hne
  rw [Nat.testBit_xor] at hdif
  have hagree : ∀ j, Nat.log2 (x ^^^ y) < j → x.testBit j = y.testBit j := by
    intro j hj
    have h0 := testBit_false_of_log2_lt (x := x ^^^ y) hj
    rw [Nat.testBit_xor] at h0
    cases hx : x.testBit j <;> cases hy : y.testBit j <;>
      simp [hx, hy] at h0 ⊢
  cases hy : y.testBit (Nat.log2 (x ^^^ y))
  · exfalso
    have hx : x.testBit (Nat.log2 (x ^^^ y)) = true := by
      cases hx : x.testBit (Nat.log2 (x ^^^ y))
      · rw [hx, hy] at hdif
        simp at hdif
      · rfl
    have : y < x := Nat.lt_of_testBit _ hy hx
      (fun j hj => (hagree j hj).symm)
    omega
  · refine ⟨rfl, ?_⟩
    cases hx : x.testBit (Nat.log2 (x ^^^ y))
    · rfl
    · rw [hx, hy] at hdif
      simp at hdif

/-- Every node role id also serves a leaf role in its own subtree. -/
theorem nodes_subset_leaves {m : Mem} :
    ∀ {t : LT}, WFt m t → ∀ i ∈ t.nodes, i ∈ t.leaves := by
  intro t
  induction t with
  | lf j => intro _ i hi; simp [LT.nodes] at hi
  | nd j l r ihl ihr =>
    intro hwf i hi
    simp only [LT.nodes, List.mem_cons, List.mem_append] at hi
    simp only [LT.leaves, List.mem_append]
    rcases hi with h | h | h
    · subst h
      simpa [LT.leaves] using hwf.2.2.2.2.1
    · exact Or.inl (ihl hwf.2.2.2.2.2.2.2.1 i h)
    · exact Or.inr (ihr hwf.2.2.2.2.2.2.2.2 i h)

/-- The memory after the insert writes keeps every key. -/
theorem keyOf_ins_eq {m : Mem} {n : Nat} {nv : CebNode}
    (h : nv.key = (m n).key) (p : Nat) (sd : Bool) (v : Option Nat) :
    ∀ a, keyOf (writeB (updateMem m n nv) p sd v) a = keyOf m a := by
  intro a
  have h1 : (writeB (updateMem m n nv) p sd v a).key
      = (updateMem m n nv a).key := by
    unfold writeB updateMem
    by_cases hap : a = p <;> cases sd <;> simp [hap]
  rw [keyOf, h1]
  unfold updateMem
  by_cases han : a = n <;> simp [han, h, keyOf]

/-- At a stop subtree (a leaf, or a node where the key mismatches), every
key shares the looked-up key\'s prefix above the divergence bit and sits
on the other side of it. -/
theorem stop_div {m : Mem} {kx : Nat} {u : LT} (hwf : WFt m u)
    (hstop : (∃ j, u = .lf j) ∨ (∃ i l r, u = .nd i l r ∧ misAt m kx l r))
    (hout : kx ∉ u.keys m) :
    ∀ a ∈ u.keys m,
      a >>> (Nat.log2 (kx ^^^ keyOf m u.top) + 1)
          = kx >>> (Nat.log2 (kx ^^^ keyOf m u.top) + 1) ∧
      a.testBit (Nat.log2 (kx ^^^ keyOf m u.top))
          = !(kx.testBit (Nat.log2 (kx ^^^ keyOf m u.top))) := by
  rcases hstop with ⟨j, hj⟩ | ⟨i, l, r, hi, hmis⟩
  · subst hj
    intro a ha
    simp only [LT.keys, LT.leaves, List.map_singleton, List.mem_singleton] at ha
    subst ha
    have hne : kx ^^^ keyOf m j ≠ 0 := by
      intro h
      rw [Nat.xor_eq_zero] at h
      exact hout (by simp [LT.keys, LT.leaves, h])
    refine ⟨?_, ?_⟩
    · rw [show (LT.lf j).top = j from rfl]
      exact ((xor_lt_two_pow_iff _ _ _).mp (lt_two_pow_log2_succ _)).symm
    · rw [show (LT.lf j).top = j from rfl]
      have := testBit_log2_self hne
      rw [Nat.testBit_xor] at this
      cases hk : kx.testBit (Nat.log2 (kx ^^^ keyOf m j)) <;>
        cases hj2 : (keyOf m j).testBit (Nat.log2 (kx ^^^ keyOf m j)) <;>
        rw [hk, hj2] at this <;> simp_all
  · subst hi
    have hfacts := wfnd_facts hwf
    obtain ⟨_, _, hlkb, hrkb, hrsh, _, hXge, hXlt⟩ := hfacts
    have habove := mis_above hwf hmis
    -- every key of the subtree clusters with the left top key below the
    -- divergence, which sits strictly above the split
    have hcl : ∀ a ∈ (LT.nd i l r).keys m,
        a ^^^ keyOf m l.top < 2 ^ (splitBit m l r + 1) := by
      intro a ha
      obtain ⟨_, _, hkol, hkor, _, _, _, hwl, hwr⟩ := hwf
      have hmem : a ∈ l.keys m ∨ a ∈ r.keys m := by
        simpa [LT.keys, LT.leaves] using ha
      rcases hmem with h | h
      · exact split_xor_lt (hkol a h).1
      · exact split_xor_lt (hkor a h).1
    -- the xor against the looked-up key keeps the top bit of
    -- kx ^^^ (left top key) for each subtree key
    have hmain : ∀ a ∈ (LT.nd i l r).keys m,
        2 ^ Nat.log2 (kx ^^^ keyOf m l.top) ≤ kx ^^^ a ∧
        kx ^^^ a < 2 ^ (Nat.log2 (kx ^^^ keyOf m l.top) + 1) := by
      intro a ha
      have hz := hcl a ha
      have hg : splitBit m l r + 1 ≤ Nat.log2 (kx ^^^ keyOf m l.top) := by
        have hne : kx ^^^ keyOf m l.top ≠ 0 := by
          have : 0 < 2 ^ (splitBit m l r + 1) := Nat.pos_pow_of_pos _ (by norm_num)
          omega
        by_contra hcon
        have hlt : Nat.log2 (kx ^^^ keyOf m l.top) < splitBit m l r + 1 := by
          omega
        exact absurd ((Nat.log2_lt hne).mp hlt) (by omega)
      have hzz : a ^^^ keyOf m l.top < 2 ^ Nat.log2 (kx ^^^ keyOf m l.top) :=
        lt_of_lt_of_le hz (Nat.pow_le_pow_right (by norm_num) hg)
      constructor
      · apply Nat.testBit_implies_ge
        rw [show kx ^^^ a = (kx ^^^ keyOf m l.top) ^^^ (a ^^^ keyOf m l.top) from by
          rw [Nat.xor_comm a (keyOf m l.top), ← Nat.xor_assoc,
            Nat.xor_assoc kx (keyOf m l.top) (keyOf m l.top)]
          simp]
        rw [Nat.testBit_xor]
        rw [testBit_log2_self (by
          have : 0 < 2 ^ (splitBit m l r + 1) := Nat.pos_pow_of_pos _ (by norm_num)
          omega), testBit_false_of_lt hzz]
        rfl
      · rw [show kx ^^^ a = (kx ^^^ keyOf m l.top) ^^^ (a ^^^ keyOf m l.top) from by
          rw [Nat.xor_comm a (keyOf m l.top), ← Nat.xor_assoc,
            Nat.xor_assoc kx (keyOf m l.top) (keyOf m l.top)]
          simp]
        exact Nat.xor_lt_two_pow (lt_two_pow_log2_succ _)
          (lt_of_lt_of_le hzz (Nat.pow_le_pow_right (by norm_num) (by omega)))
    -- in particular the divergence bit computed against the top key is
    -- the divergence bit against the left top key
    have htopm : keyOf m (LT.nd i l r).top ∈ (LT.nd i l r).keys m :=
      top_key_mem hwf
    have htb := hmain _ htopm
    have hlog : Nat.log2 (kx ^^^ keyOf m (LT.nd i l r).top)
        = Nat.log2 (kx ^^^ keyOf m l.top) := log2_eq_of_bounds htb.1 htb.2
    intro a ha
    have hm2 := hmain a ha
    rw [hlog]
    constructor
    · have := (xor_lt_two_pow_iff kx a (Nat.log2 (kx ^^^ keyOf m l.top) + 1)).mp hm2.2
      exact this.symm
    · have hbit : (kx ^^^ a).testBit (Nat.log2 (kx ^^^ keyOf m l.top)) = true := by
        have hne : kx ^^^ a ≠ 0 := by
          have : 0 < 2 ^ Nat.log2 (kx ^^^ keyOf m l.top) :=
            Nat.pos_pow_of_pos _ (by norm_num)
          omega
        have := testBit_log2_self hne
        rwa [log2_eq_of_bounds hm2.1 hm2.2] at this
      rw [Nat.testBit_xor] at hbit
      cases hk : kx.testBit (Nat.log2 (kx ^^^ keyOf m l.top)) <;>
        cases hA : a.testBit (Nat.log2 (kx ^^^ keyOf m l.top)) <;>
        rw [hk, hA] at hbit <;> simp_all

theorem keys_congr {m m2 : Mem} (hkeys : ∀ a, keyOf m2 a = keyOf m a)
    (u : LT) : u.keys m2 = u.keys m := by
  simp only [LT.keys]
  exact List.map_congr_left (fun a _ => hkeys a)

/-- Wrapping the stop subtree under the new node, new leaf on the right
(the inserted key is larger). -/
theorem wrap_core_right {m m2 : Mem} {kx n : Nat} {u : LT}
    (hkeys : ∀ a, keyOf m2 a = keyOf m a)
    (hkn : keyOf m n = kx)
    (hdiv : ∀ a ∈ u.keys m,
      a >>> (Nat.log2 (kx ^^^ keyOf m u.top) + 1)
          = kx >>> (Nat.log2 (kx ^^^ keyOf m u.top) + 1) ∧
      a.testBit (Nat.log2 (kx ^^^ keyOf m u.top))
          = !(kx.testBit (Nat.log2 (kx ^^^ keyOf m u.top))))
    (hlt : keyOf m u.top < kx)
    (hb : ∀ i ∈ u.nodes, (m2 i).b0 = (m i).b0 ∧ (m2 i).b1 = (m i).b1)
    (hlbAll : ∀ j ∈ u.leaves, ∀ k, leafBreakable m k j → leafBreakable m2 k j)
    (hlbtop : ∀ j, u = .lf j →
      leafBreakable m2 (Nat.log2 (kx ^^^ keyOf m u.top)) j)
    (hne : n ∉ u.leaves)
    (hnb0 : (m2 n).b0 = some u.top)
    (hnb1 : (m2 n).b1 = some n)
    (hwfu : WFt m u) :
    WFt m2 (.nd n u (.lf n)) := by
  have htop := wf_top_mem hwfu
  have hk1 : splitBit m2 u (.lf n) = Nat.log2 (kx ^^^ keyOf m u.top) := by
    unfold splitBit
    rw [show (LT.lf n).top = n from rfl, hkeys, hkeys, hkn, Nat.xor_comm]
  have hkxbit : kx.testBit (Nat.log2 (kx ^^^ keyOf m u.top)) = true := by
    have h := (testBit_log2_xor_of_lt hlt).1
    rwa [Nat.xor_comm (keyOf m u.top) kx] at h
  have hPag := (hdiv _ (key_mem_of_leaf htop)).1
  refine ⟨hnb0, hnb1, ?_, ?_, ?_, ?_, ?_, ?_, trivial⟩
  · rw [hk1, hkeys, keysOn]
    rw [keys_congr hkeys]
    intro a ha
    exact ⟨(hdiv a ha).1.trans hPag.symm, by rw [(hdiv a ha).2, hkxbit]; rfl⟩
  · rw [hk1, hkeys, keysOn]
    rw [keys_congr hkeys]
    intro a ha
    simp only [LT.keys, LT.leaves, List.map_singleton, List.mem_singleton] at ha
    subst ha
    rw [hkn]
    exact ⟨hPag.symm, hkxbit⟩
  · simp [LT.leaves]
  · rw [hk1]
    cases u with
    | lf j => exact Or.inr (hlbtop j rfl)
    | nd i l2 r2 =>
      intro hin
      exact hne (hin ▸ htop)
  · exact Or.inl rfl
  · exact WFt_mono hkeys hb hlbAll hwfu

/-- Wrapping the stop subtree under the new node, new leaf on the left
(the inserted key is smaller). -/
theorem wrap_core_left {m m2 : Mem} {kx n : Nat} {u : LT}
    (hkeys : ∀ a, keyOf m2 a = keyOf m a)
    (hkn : keyOf m n = kx)
    (hdiv : ∀ a ∈ u.keys m,
      a >>> (Nat.log2 (kx ^^^ keyOf m u.top) + 1)
          = kx >>> (Nat.log2 (kx ^^^ keyOf m u.top) + 1) ∧
      a.testBit (Nat.log2 (kx ^^^ keyOf m u.top))
          = !(kx.testBit (Nat.log2 (kx ^^^ keyOf m u.top))))
    (hlt : kx < keyOf m u.top)
    (hb : ∀ i ∈ u.nodes, (m2 i).b0 = (m i).b0 ∧ (m2 i).b1 = (m i).b1)
    (hlbAll : ∀ j ∈ u.leaves, ∀ k, leafBreakable m k j → leafBreakable m2 k j)
    (hlbtop : ∀ j, u = .lf j →
      leafBreakable m2 (Nat.log2 (kx ^^^ keyOf m u.top)) j)
    (hne : n ∉ u.leaves)
    (hnb0 : (m2 n).b0 = some n)
    (hnb1 : (m2 n).b1 = some u.top)
    (hwfu : WFt m u) :
    WFt m2 (.nd n (.lf n) u) := by
  have htop := wf_top_mem hwfu
  have hk1 : splitBit m2 (.lf n) u = Nat.log2 (kx ^^^ keyOf m u.top) := by
    unfold splitBit
    rw [show (LT.lf n).top = n from rfl, hkeys, hkeys, hkn]
  have hkxbit : kx.testBit (Nat.log2 (kx ^^^ keyOf m u.top)) = false :=
    (testBit_log2_xor_of_lt hlt).2
  have hPag := (hdiv _ (key_mem_of_leaf htop)).1
  refine ⟨hnb0, hnb1, ?_, ?_, ?_, ?_, ?_, trivial, ?_⟩
  · rw [hk1, hkeys, show (LT.lf n).top = n from rfl, hkn, keysOn]
    rw [keys_congr hkeys]
    intro a ha
    simp only [LT.keys, LT.leaves, List.map_singleton, List.mem_singleton] at ha
    subst ha
    rw [hkn]
    exact ⟨rfl, hkxbit⟩
  · rw [hk1, hkeys, show (LT.lf n).top = n from rfl, hkn, keysOn]
    rw [keys_congr hkeys]
    intro a ha
    exact ⟨(hdiv a ha).1, by rw [(hdiv a ha).2, hkxbit]; rfl⟩
  · simp [LT.leaves]
  · exact Or.inl rfl
  · rw [hk1]
    cases u with
    | lf j => exact Or.inr (hlbtop j rfl)
    | nd i l2 r2 =>
      intro hin
      exact hne (hin ▸ htop)
  · exact WFt_mono hkeys hb hlbAll hwfu

theorem insLT_ne_lf {m : Mem} {kx n : Nat} :
    ∀ (t : LT) (x : Nat), insLT m kx n t ≠ .lf x := by
  intro t x
  cases t with
  | lf j =>
    by_cases h : keyOf m j ≤ kx <;> simp [insLT, h]
  | nd i l r =>
    by_cases hmis : misAt m kx l r
    · by_cases h : keyOf m i ≤ kx <;> simp [insLT, hmis, h]
    · by_cases hdir : (kx ^^^ keyOf m l.top) ≥ (kx ^^^ keyOf m r.top) <;>
        simp [insLT, hmis, hdir]

/-! Reads of the two-write memory of an insert. -/

theorem wb_upd_other {m : Mem} {n : Nat} {nv : CebNode} {p : Nat} {sd : Bool}
    {v : Option Nat} {a : Nat} (hap : a ≠ p) (han : a ≠ n) :
    writeB (updateMem m n nv) p sd v a = m a := by
  unfold writeB updateMem
  cases sd <;> simp [hap, han]

theorem wb_upd_n {m : Mem} {n : Nat} {nv : CebNode} {p : Nat} {sd : Bool}
    {v : Option Nat} (hpn : p ≠ n) :
    writeB (updateMem m n nv) p sd v n = nv := by
  unfold writeB updateMem
  cases sd <;> simp [hpn, Ne.symm hpn]

theorem wb_upd_p_true {m : Mem} {n : Nat} {nv : CebNode} {p : Nat}
    {v : Option Nat} (hpn : p ≠ n) :
    (writeB (updateMem m n nv) p true v p).b0 = (m p).b0 ∧
    (writeB (updateMem m n nv) p true v p).b1 = v := by
  unfold writeB updateMem
  simp [hpn]

theorem wb_upd_p_false {m : Mem} {n : Nat} {nv : CebNode} {p : Nat}
    {v : Option Nat} (hpn : p ≠ n) :
    (writeB (updateMem m n nv) p false v p).b0 = v ∧
    (writeB (updateMem m n nv) p false v p).b1 = (m p).b1 := by
  unfold writeB updateMem
  simp [hpn]

/-- Breakability transfers to a memory that keeps the branches and the
keys. -/
theorem lb_preserved_other {m m2 : Mem} {j : Nat}
    (hkeys2 : ∀ a, keyOf m2 a = keyOf m a)
    (hb0 : (m2 j).b0 = (m j).b0) (hb1 : (m2 j).b1 = (m j).b1) {k : Nat} :
    leafBreakable m k j → leafBreakable m2 k j := by
  intro h
  rcases h with h | h
  · exact Or.inl (by rw [hb0, hb1, h])
  · exact Or.inr (by rw [xorB_congr hkeys2 hb0 hb1]; exact h)

/-- Breakability of the rewritten node role: the old inter-branch xor
bounds the breakable bit below `k`, and the new one stays at least
`2 ^ k`. -/
theorem lb_written {m m2 : Mem} {i k : Nat}
    (hbne : (m i).b0 ≠ (m i).b1)
    (hold : xorB m i < 2 ^ (k + 1))
    (hnew : 2 ^ k ≤ xorB m2 i) :
    ∀ k2, leafBreakable m k2 i → leafBreakable m2 k2 i := by
  intro k2 h
  rcases h with h | h
  · exact absurd h hbne
  · refine Or.inr ?_
    have hlt : 2 ^ (k2 + 1) < 2 ^ (k + 1) := by omega
    have hk2 : k2 + 1 ≤ k := by
      have := (Nat.pow_lt_pow_iff_right (by norm_num : 1 < 2)).mp hlt
      omega
    calc (2:Nat) ^ (k2 + 1) ≤ 2 ^ k := Nat.pow_le_pow_right (by norm_num) hk2
      _ ≤ xorB m2 i := hnew

/-- The insertion slot below a node without a mismatch is owned by one of
the node roles of that subtree. -/
theorem insLoc_nodes_of_nomis {m : Mem} {kx : Nat} {i2 : Nat} {l2 r2 : LT}
    (hmis : ¬ misAt m kx l2 r2) {loc : Slot} {p : Nat} {sd : Bool}
    (h : insLoc m kx (.nd i2 l2 r2) loc = (NRef.node p, sd)) :
    p ∈ (LT.nd i2 l2 r2).nodes := by
  by_cases hdir : (kx ^^^ keyOf m l2.top) ≥ (kx ^^^ keyOf m r2.top)
  · rw [show insLoc m kx (.nd i2 l2 r2) loc
        = insLoc m kx r2 (NRef.node i2, true) from by
      simp [insLoc, if_neg hmis, if_pos hdir]] at h
    rcases insLoc_cases r2 i2 true with hc | ⟨q, sdq, hc, hq⟩
    · rw [hc] at h
      injection h with h1 h2
      injection h1 with h3
      subst h3
      simp [LT.nodes]
    · rw [hc] at h
      injection h with h1 h2
      injection h1 with h3
      subst h3
      simp [LT.nodes]
      exact Or.inr (Or.inr hq)
  · rw [show insLoc m kx (.nd i2 l2 r2) loc
        = insLoc m kx l2 (NRef.node i2, false) from by
      simp [insLoc, if_neg hmis, if_neg hdir]] at h
    rcases insLoc_cases l2 i2 false with hc | ⟨q, sdq, hc, hq⟩
    · rw [hc] at h
      injection h with h1 h2
      injection h1 with h3
      subst h3
      simp [LT.nodes]
    · rw [hc] at h
      injection h with h1 h2
      injection h1 with h3
      subst h3
      simp [LT.nodes]
      exact Or.inr (Or.inl hq)

theorem lb_mono {m : Mem} {j k k2 : Nat} (hk : k2 ≤ k) :
    leafBreakable m k j → leafBreakable m k2 j := by
  intro h
  rcases h with h | h
  · exact Or.inl h
  · refine Or.inr (le_trans ?_ h)
    exact Nat.pow_le_pow_right (by norm_num) (by omega)

/-- One step of insert preservation, descending right into the stop
subtree: the node write at `(i, right)` and the node initialization
produce a well-formed node with the wrapped right child. -/
theorem ins_step_stop_right {m : Mem} {kx n : Nat} {nv : CebNode} {i : Nat}
    {l r : LT}
    (hkn : keyOf m n = kx) (hnvk : nv.key = (m n).key)
    (hwf : WFt m (.nd i l r))
    (hout : kx ∉ (LT.nd i l r).keys m)
    (hnle : n ∉ (LT.nd i l r).leaves)
    (hldup : (LT.nd i l r).leaves.Nodup)
    (hndup : (LT.nd i l r).nodes.Nodup)
    (hmis : ¬ misAt m kx l r)
    (hdir : (kx ^^^ keyOf m l.top) ≥ (kx ^^^ keyOf m r.top))
    (hstop : (∃ j, r = .lf j) ∨
      (∃ i2 l2 r2, r = .nd i2 l2 r2 ∧ misAt m kx l2 r2))
    (hb0 : nv.b0 = (if keyOf m (insSub m kx r).top ≤ kx
        then some (insSub m kx r).top else some n))
    (hb1 : nv.b1 = (if keyOf m (insSub m kx r).top ≤ kx
        then some n else some (insSub m kx r).top)) :
    WFt (writeB (updateMem m n nv) i true (some n))
      (.nd i l (insLT m kx n r)) := by
  have hpa := not_mis_prefix hwf hmis
  have hkbit := (dir_bit hwf hmis).mp hdir
  obtain ⟨hib0, hib1, hlkb, hrkb, hrsh, htne, hXge, hXlt⟩ := wfnd_facts hwf
  obtain ⟨_, _, hkol, hkor, hmem, hcl, hcr, hwl, hwr⟩ := hwf
  have hkeyssplit : (LT.nd i l r).keys m = l.keys m ++ r.keys m := by
    simp [LT.keys, LT.leaves]
  have houtl : kx ∉ l.keys m := fun h =>
    hout (by rw [hkeyssplit]; exact List.mem_append_left _ h)
  have houtr : kx ∉ r.keys m := fun h =>
    hout (by rw [hkeyssplit]; exact List.mem_append_right _ h)
  have hnll : n ∉ l.leaves := fun h => hnle (List.mem_append_left _ h)
  have hnlr : n ∉ r.leaves := fun h => hnle (List.mem_append_right _ h)
  have hni : n ≠ i := fun h => hnle (h ▸ hmem)
  have hldup2 : (l.leaves ++ r.leaves).Nodup := hldup
  rw [List.nodup_append] at hldup2
  have hndup2 : (i :: (l.nodes ++ r.nodes)).Nodup := hndup
  rw [List.nodup_cons, List.nodup_append] at hndup2
  have hsubr : insSub m kx r = r := by
    rcases hstop with ⟨j, hj⟩ | ⟨i2, l2, r2, hr2, hm2⟩
    · subst hj; rfl
    · subst hr2; simp [insSub, if_pos hm2]
  rw [hsubr] at hb0 hb1
  have hrtop_mem : r.top ∈ r.leaves := wf_top_mem hwr
  have hrtopk_mem : keyOf m r.top ∈ r.keys m := key_mem_of_leaf hrtop_mem
  have hktne : keyOf m r.top ≠ kx := fun h => houtr (h ▸ hrtopk_mem)
  have hragree : keyOf m r.top >>> (splitBit m l r + 1)
      = kx >>> (splitBit m l r + 1) :=
    ((hkor _ hrtopk_mem).1).trans hpa.symm
  have hxrlt : kx ^^^ keyOf m r.top < 2 ^ splitBit m l r := by
    rw [xor_lt_two_pow_iff]
    exact shiftRight_eq_of_agree_succ hragree.symm
      (hkbit.trans ((hkor _ hrtopk_mem).2).symm)
  have hxne : kx ^^^ keyOf m r.top ≠ 0 := by
    intro h
    rw [Nat.xor_eq_zero] at h
    exact hktne h.symm
  have hk1lt : Nat.log2 (kx ^^^ keyOf m r.top) < splitBit m l r :=
    (Nat.log2_lt hxne).mpr hxrlt
  have hm2n : writeB (updateMem m n nv) i true (some n) n = nv :=
    wb_upd_n (Ne.symm hni)
  have hm2i := @wb_upd_p_true m n nv i (some n) (Ne.symm hni)
  have hkeys2 := keyOf_ins_eq hnvk i true (some n)
  have hother : ∀ a, a ≠ i → a ≠ n →
      writeB (updateMem m n nv) i true (some n) a = m a :=
    fun a h1 h2 => wb_upd_other h1 h2
  have hxorBnew : xorB (writeB (updateMem m n nv) i true (some n)) i
      = keyOf m l.top ^^^ kx := by
    unfold xorB
    rw [hm2i.1, hm2i.2, hib0]
    simp only []
    rw [hkeys2, hkeys2, hkn]
  have hxnewge : 2 ^ splitBit m l r
      ≤ xorB (writeB (updateMem m n nv) i true (some n)) i := by
    rw [hxorBnew]
    exact split_xor_ge hlkb hkbit
  have hlbi : ∀ k2, leafBreakable m k2 i →
      leafBreakable (writeB (updateMem m n nv) i true (some n)) k2 i :=
    lb_written (by rw [hib0, hib1]; intro h; exact htne (Option.some.inj h))
      (by rw [show xorB m i = keyOf m l.top ^^^ keyOf m r.top from by
          unfold xorB; rw [hib0, hib1]]; exact hXlt) hxnewge
  have hlb_any : ∀ j ∈ (LT.nd i l r).leaves, ∀ k2, leafBreakable m k2 j →
      leafBreakable (writeB (updateMem m n nv) i true (some n)) k2 j := by
    intro j hj k2 h
    by_cases hjn : j = n
    · exact absurd (hjn ▸ hj) hnle
    · by_cases hji : j = i
      · subst hji
        exact hlbi k2 h
      · exact lb_preserved_other hkeys2 (by rw [hother j hji hjn])
          (by rw [hother j hji hjn]) h
  have hdiv := stop_div hwr hstop houtr
  have hbR : ∀ a ∈ r.nodes,
      (writeB (updateMem m n nv) i true (some n) a).b0 = (m a).b0 ∧
      (writeB (updateMem m n nv) i true (some n) a).b1 = (m a).b1 := by
    intro a ha
    have h1 : a ≠ i := fun h =>
      hndup2.1 (h ▸ List.mem_append_right _ ha)
    have h2 : a ≠ n := fun h =>
      hnlr (h ▸ nodes_subset_leaves hwr a ha)
    rw [hother a h1 h2]
    exact ⟨rfl, rfl⟩
  have hlbAllR : ∀ j ∈ r.leaves, ∀ k2, leafBreakable m k2 j →
      leafBreakable (writeB (updateMem m n nv) i true (some n)) k2 j :=
    fun j hj => hlb_any j (List.mem_append_right _ hj)
  have hlbtopR : ∀ j2, r = .lf j2 →
      leafBreakable (writeB (updateMem m n nv) i true (some n))
        (Nat.log2 (kx ^^^ keyOf m r.top)) j2 := by
    intro j2 hj
    subst hj
    by_cases hji : j2 = i
    · subst hji
      refine Or.inr ?_
      have h1 : 2 ^ (Nat.log2 (kx ^^^ keyOf m (LT.lf j2).top) + 1)
          ≤ 2 ^ splitBit m l (LT.lf j2) :=
        Nat.pow_le_pow_right (by norm_num) (by omega)
      exact le_trans h1 hxnewge
    · have hjn : j2 ≠ n := fun h => hnlr (h ▸ hrtop_mem)
      have hcr2 : j2 = i ∨ leafBreakable m (splitBit m l (.lf j2)) j2 := hcr
      rcases hcr2 with h | h
      · exact absurd h hji
      · refine lb_preserved_other hkeys2 (by rw [hother j2 hji hjn])
          (by rw [hother j2 hji hjn]) ?_
        exact lb_mono (by omega) h
  have hwrap : WFt (writeB (updateMem m n nv) i true (some n))
      (insLT m kx n r) ∧ (insLT m kx n r).top = n := by
    by_cases hns : keyOf m r.top ≤ kx
    · have hlt : keyOf m r.top < kx := lt_of_le_of_ne hns hktne
      have hshape : insLT m kx n r = .nd n r (.lf n) := by
        rcases hstop with ⟨j, hj⟩ | ⟨i2, l2, r2, hr2, hm2⟩
        · subst hj
          simp only [insLT]
          rw [if_pos (show keyOf m j ≤ kx from hns)]
        · subst hr2
          simp only [insLT]
          rw [if_pos hm2, if_pos (show keyOf m i2 ≤ kx from hns)]
      refine ⟨?_, by rw [hshape]; rfl⟩
      rw [hshape]
      refine wrap_core_right hkeys2 hkn hdiv hlt hbR hlbAllR hlbtopR hnlr
        ?_ ?_ hwr
      · rw [hm2n, hb0, if_pos hns]
      · rw [hm2n, hb1, if_pos hns]
    · have hlt : kx < keyOf m r.top := by omega
      have hshape : insLT m kx n r = .nd n (.lf n) r := by
        rcases hstop with ⟨j, hj⟩ | ⟨i2, l2, r2, hr2, hm2⟩
        · subst hj
          simp only [insLT]
          rw [if_neg (show ¬ keyOf m j ≤ kx from hns)]
        · subst hr2
          simp only [insLT]
          rw [if_pos hm2, if_neg (show ¬ keyOf m i2 ≤ kx from hns)]
      refine ⟨?_, by rw [hshape]; rfl⟩
      rw [hshape]
      refine wrap_core_left hkeys2 hkn hdiv hlt hbR hlbAllR hlbtopR hnlr
        ?_ ?_ hwr
      · rw [hm2n, hb0, if_neg hns]
      · rw [hm2n, hb1, if_neg hns]
  have htopn := hwrap.2
  have hsplit : splitBit (writeB (updateMem m n nv) i true (some n)) l
      (insLT m kx n r) = splitBit m l r := by
    unfold splitBit
    rw [htopn, hkeys2, hkeys2, hkn]
    exact log2_eq_of_bounds (split_xor_ge hlkb hkbit) (split_xor_lt hpa.symm)
  refine ⟨hm2i.1.trans hib0, hm2i.2.trans (by rw [htopn]), ?_, ?_, ?_, ?_,
    ?_, ?_, hwrap.1⟩
  · rw [hsplit, hkeys2, keysOn, keys_congr hkeys2]
    intro a ha
    exact hkol a ha
  · rw [hsplit, hkeys2, keysOn]
    intro a ha
    rw [show (insLT m kx n r).keys (writeB (updateMem m n nv) i true (some n))
        = (insLT m kx n r).leaves.map
            (keyOf (writeB (updateMem m n nv) i true (some n))) from rfl,
      List.mem_map] at ha
    obtain ⟨j, hj, rfl⟩ := ha
    rw [hkeys2 j]
    have hj2 := (@insLT_leaves_perm m kx n r).mem_iff.mp hj
    rcases List.mem_cons.mp hj2 with hjn | hjr
    · subst hjn
      rw [hkn]
      exact ⟨hpa, hkbit⟩
    · exact hkor _ (List.mem_map_of_mem _ hjr)
  · rcases List.mem_append.mp hmem with h | h
    · exact List.mem_append_left _ h
    · exact List.mem_append_right _
        ((insLT_leaves_perm r).mem_iff.mpr (List.mem_cons_of_mem _ h))
  · rw [hsplit]
    cases l with
    | lf j =>
      rcases hcl with h | h
      · exact Or.inl h
      · exact Or.inr (hlb_any j (List.mem_append_left _ (by
          simp [LT.leaves])) _ h)
    | nd j l2 r2 => exact hcl
  · rw [hsplit]
    cases hIns : insLT m kx n r with
    | lf x => exact absurd hIns (insLT_ne_lf r x)
    | nd a b c =>
      show a ≠ i
      have : (insLT m kx n r).top = a := by rw [hIns]; rfl
      rw [this] at htopn
      rw [htopn]
      exact hni
  · refine WFt_mono hkeys2 ?_ ?_ hwl
    · intro a ha
      have h1 : a ≠ i := fun h =>
        hndup2.1 (h ▸ List.mem_append_left _ ha)
      have h2 : a ≠ n := fun h =>
        hnll (h ▸ nodes_subset_leaves hwl a ha)
      rw [hother a h1 h2]
      exact ⟨rfl, rfl⟩
    · intro j hj k2 h
      exact hlb_any j (List.mem_append_left _ hj) k2 h

/-- One step of insert preservation, descending left into the stop
subtree. -/
theorem ins_step_stop_left {m : Mem} {kx n : Nat} {nv : CebNode} {i : Nat}
    {l r : LT}
    (hkn : keyOf m n = kx) (hnvk : nv.key = (m n).key)
    (hwf : WFt m (.nd i l r))
    (hout : kx ∉ (LT.nd i l r).keys m)
    (hnle : n ∉ (LT.nd i l r).leaves)
    (hldup : (LT.nd i l r).leaves.Nodup)
    (hndup : (LT.nd i l r).nodes.Nodup)
    (hmis : ¬ misAt m kx l r)
    (hdir : ¬ (kx ^^^ keyOf m l.top) ≥ (kx ^^^ keyOf m r.top))
    (hstop : (∃ j, l = .lf j) ∨
      (∃ i2 l2 r2, l = .nd i2 l2 r2 ∧ misAt m kx l2 r2))
    (hb0 : nv.b0 = (if keyOf m (insSub m kx l).top ≤ kx
        then some (insSub m kx l).top else some n))
    (hb1 : nv.b1 = (if keyOf m (insSub m kx l).top ≤ kx
        then some n else some (insSub m kx l).top)) :
    WFt (writeB (updateMem m n nv) i false (some n))
      (.nd i (insLT m kx n l) r) := by
  have hpa := not_mis_prefix hwf hmis
  have hkbit : kx.testBit (splitBit m l r) = false := by
    cases h : kx.testBit (splitBit m l r)
    · rfl
    · exact absurd ((dir_bit hwf hmis).mpr h) hdir
  obtain ⟨hib0, hib1, hlkb, hrkb, hrsh, htne, hXge, hXlt⟩ := wfnd_facts hwf
  obtain ⟨_, _, hkol, hkor, hmem, hcl, hcr, hwl, hwr⟩ := hwf
  have hkeyssplit : (LT.nd i l r).keys m = l.keys m ++ r.keys m := by
    simp [LT.keys, LT.leaves]
  have houtl : kx ∉ l.keys m := fun h =>
    hout (by rw [hkeyssplit]; exact List.mem_append_left _ h)
  have houtr : kx ∉ r.keys m := fun h =>
    hout (by rw [hkeyssplit]; exact List.mem_append_right _ h)
  have hnll : n ∉ l.leaves := fun h => hnle (List.mem_append_left _ h)
  have hnlr : n ∉ r.leaves := fun h => hnle (List.mem_append_right _ h)
  have hni : n ≠ i := fun h => hnle (h ▸ hmem)
  have hldup2 : (l.leaves ++ r.leaves).Nodup := hldup
  rw [List.nodup_append] at hldup2
  have hndup2 : (i :: (l.nodes ++ r.nodes)).Nodup := hndup
  rw [List.nodup_cons, List.nodup_append] at hndup2
  have hsubl : insSub m kx l = l := by
    rcases hstop with ⟨j, hj⟩ | ⟨i2, l2, r2, hl2, hm2⟩
    · subst hj; rfl
    · subst hl2; simp [insSub, if_pos hm2]
  rw [hsubl] at hb0 hb1
  have hltop_mem : l.top ∈ l.leaves := wf_top_mem hwl
  have hltopk_mem : keyOf m l.top ∈ l.keys m := key_mem_of_leaf hltop_mem
  have hktne : keyOf m l.top ≠ kx := fun h => houtl (h ▸ hltopk_mem)
  have hxllt : kx ^^^ keyOf m l.top < 2 ^ splitBit m l r := by
    rw [xor_lt_two_pow_iff]
    exact shiftRight_eq_of_agree_succ hpa (hkbit.trans hlkb.symm)
  have hxne : kx ^^^ keyOf m l.top ≠ 0 := by
    intro h
    rw [Nat.xor_eq_zero] at h
    exact hktne h.symm
  have hk1lt : Nat.log2 (kx ^^^ keyOf m l.top) < splitBit m l r :=
    (Nat.log2_lt hxne).mpr hxllt
  have hm2n : writeB (updateMem m n nv) i false (some n) n = nv :=
    wb_upd_n (Ne.symm hni)
  have hm2i := @wb_upd_p_false m n nv i (some n) (Ne.symm hni)
  have hkeys2 := keyOf_ins_eq hnvk i false (some n)
  have hother : ∀ a, a ≠ i → a ≠ n →
      writeB (updateMem m n nv) i false (some n) a = m a :=
    fun a h1 h2 => wb_upd_other h1 h2
  have hxorBnew : xorB (writeB (updateMem m n nv) i false (some n)) i
      = kx ^^^ keyOf m r.top := by
    unfold xorB
    rw [hm2i.1, hm2i.2, hib1]
    simp only []
    rw [hkeys2, hkeys2, hkn]
  have hxnewge : 2 ^ splitBit m l r
      ≤ xorB (writeB (updateMem m n nv) i false (some n)) i := by
    rw [hxorBnew]
    exact split_xor_ge hkbit hrkb
  have hlbi : ∀ k2, leafBreakable m k2 i →
      leafBreakable (writeB (updateMem m n nv) i false (some n)) k2 i :=
    lb_written (by rw [hib0, hib1]; intro h; exact htne (Option.some.inj h))
      (by rw [show xorB m i = keyOf m l.top ^^^ keyOf m r.top from by
          unfold xorB; rw [hib0, hib1]]; exact hXlt) hxnewge
  have hlb_any : ∀ j ∈ (LT.nd i l r).leaves, ∀ k2, leafBreakable m k2 j →
      leafBreakable (writeB (updateMem m n nv) i false (some n)) k2 j := by
    intro j hj k2 h
    by_cases hjn : j = n
    · exact absurd (hjn ▸ hj) hnle
    · by_cases hji : j = i
      · subst hji
        exact hlbi k2 h
      · exact lb_preserved_other hkeys2 (by rw [hother j hji hjn])
          (by rw [hother j hji hjn]) h
  have hdiv := stop_div hwl hstop houtl
  have hbL : ∀ a ∈ l.nodes,
      (writeB (updateMem m n nv) i false (some n) a).b0 = (m a).b0 ∧
      (writeB (updateMem m n nv) i false (some n) a).b1 = (m a).b1 := by
    intro a ha
    have h1 : a ≠ i := fun h =>
      hndup2.1 (h ▸ List.mem_append_left _ ha)
    have h2 : a ≠ n := fun h =>
      hnll (h ▸ nodes_subset_leaves hwl a ha)
    rw [hother a h1 h2]
    exact ⟨rfl, rfl⟩
  have hlbAllL : ∀ j ∈ l.leaves, ∀ k2, leafBreakable m k2 j →
      leafBreakable (writeB (updateMem m n nv) i false (some n)) k2 j :=
    fun j hj => hlb_any j (List.mem_append_left _ hj)
  have hlbtopL : ∀ j2, l = .lf j2 →
      leafBreakable (writeB (updateMem m n nv) i false (some n))
        (Nat.log2 (kx ^^^ keyOf m l.top)) j2 := by
    intro j2 hj
    subst hj
    by_cases hji : j2 = i
    · subst hji
      refine Or.inr ?_
      have h1 : 2 ^ (Nat.log2 (kx ^^^ keyOf m (LT.lf j2).top) + 1)
          ≤ 2 ^ splitBit m (LT.lf j2) r :=
        Nat.pow_le_pow_right (by norm_num) (by omega)
      exact le_trans h1 hxnewge
    · have hjn : j2 ≠ n := fun h => hnll (h ▸ hltop_mem)
      have hcl2 : j2 = i ∨ leafBreakable m (splitBit m (.lf j2) r) j2 := hcl
      rcases hcl2 with h | h
      · exact absurd h hji
      · refine lb_preserved_other hkeys2 (by rw [hother j2 hji hjn])
          (by rw [hother j2 hji hjn]) ?_
        exact lb_mono (by omega) h
  have hwrap : WFt (writeB (updateMem m n nv) i false (some n))
      (insLT m kx n l) ∧ (insLT m kx n l).top = n := by
    by_cases hns : keyOf m l.top ≤ kx
    · have hlt : keyOf m l.top < kx := lt_of_le_of_ne hns hktne
      have hshape : insLT m kx n l = .nd n l (.lf n) := by
        rcases hstop with ⟨j, hj⟩ | ⟨i2, l2, r2, hl2, hm2⟩
        · subst hj
          simp only [insLT]
          rw [if_pos (show keyOf m j ≤ kx from hns)]
        · subst hl2
          simp only [insLT]
          rw [if_pos hm2, if_pos (show keyOf m i2 ≤ kx from hns)]
      refine ⟨?_, by rw [hshape]; rfl⟩
      rw [hshape]
      refine wrap_core_right hkeys2 hkn hdiv hlt hbL hlbAllL hlbtopL hnll
        ?_ ?_ hwl
      · rw [hm2n, hb0, if_pos hns]
      · rw [hm2n, hb1, if_pos hns]
    · have hlt : kx < keyOf m l.top := by omega
      have hshape : insLT m kx n l = .nd n (.lf n) l := by
        rcases hstop with ⟨j, hj⟩ | ⟨i2, l2, r2, hl2, hm2⟩
        · subst hj
          simp only [insLT]
          rw [if_neg (show ¬ keyOf m j ≤ kx from hns)]
        · subst hl2
          simp only [insLT]
          rw [if_pos hm2, if_neg (show ¬ keyOf m i2 ≤ kx from hns)]
      refine ⟨?_, by rw [hshape]; rfl⟩
      rw [hshape]
      refine wrap_core_left hkeys2 hkn hdiv hlt hbL hlbAllL hlbtopL hnll
        ?_ ?_ hwl
      · rw [hm2n, hb0, if_neg hns]
      · rw [hm2n, hb1, if_neg hns]
  have htopn := hwrap.2
  have hsplit : splitBit (writeB (updateMem m n nv) i false (some n))
      (insLT m kx n l) r = splitBit m l r := by
    unfold splitBit
    rw [htopn, hkeys2, hkeys2, hkn]
    exact log2_eq_of_bounds (split_xor_ge hkbit hrkb)
      (split_xor_lt (hpa.trans hrsh.symm))
  refine ⟨hm2i.1.trans (by rw [htopn]), hm2i.2.trans hib1, ?_, ?_, ?_, ?_,
    ?_, hwrap.1, ?_⟩
  · rw [hsplit, htopn, hkeys2, hkn, keysOn]
    intro a ha
    rw [show (insLT m kx n l).keys (writeB (updateMem m n nv) i false (some n))
        = (insLT m kx n l).leaves.map
            (keyOf (writeB (updateMem m n nv) i false (some n))) from rfl,
      List.mem_map] at ha
    obtain ⟨j, hj, rfl⟩ := ha
    rw [hkeys2 j]
    have hj2 := (@insLT_leaves_perm m kx n l).mem_iff.mp hj
    rcases List.mem_cons.mp hj2 with hjn | hjl
    · subst hjn
      rw [hkn]
      exact ⟨rfl, hkbit⟩
    · have hko := hkol _ (List.mem_map_of_mem _ hjl)
      exact ⟨hko.1.trans hpa.symm, hko.2⟩
  · rw [hsplit, htopn, hkeys2, hkn, keysOn, keys_congr hkeys2]
    intro a ha
    have hko := hkor a ha
    exact ⟨hko.1.trans hpa.symm, hko.2⟩
  · rcases List.mem_append.mp hmem with h | h
    · exact List.mem_append_left _
        ((insLT_leaves_perm l).mem_iff.mpr (List.mem_cons_of_mem _ h))
    · exact List.mem_append_right _ h
  · rw [hsplit]
    cases hIns : insLT m kx n l with
    | lf x => exact absurd hIns (insLT_ne_lf l x)
    | nd a b c =>
      show a ≠ i
      have : (insLT m kx n l).top = a := by rw [hIns]; rfl
      rw [this] at htopn
      rw [htopn]
      exact hni
  · rw [hsplit]
    cases r with
    | lf j =>
      rcases hcr with h | h
      · exact Or.inl h
      · exact Or.inr (hlb_any j (List.mem_append_right _ (by
          simp [LT.leaves])) _ h)
    | nd j l2 r2 => exact hcr
  · refine WFt_mono hkeys2 ?_ ?_ hwr
    · intro a ha
      have h1 : a ≠ i := fun h =>
        hndup2.1 (h ▸ List.mem_append_right _ ha)
      have h2 : a ≠ n := fun h =>
        hnlr (h ▸ nodes_subset_leaves hwr a ha)
      rw [hother a h1 h2]
      exact ⟨rfl, rfl⟩
    · intro j hj k2 h
      exact hlb_any j (List.mem_append_right _ hj) k2 h

/-- One step of insert preservation, descending right past the node: the
write lands deeper inside the right subtree. -/
theorem ins_step_deep_right {m : Mem} {kx n : Nat} {nv : CebNode} {i : Nat}
    {l r : LT} {p : Nat} {sd : Bool}
    (hkn : keyOf m n = kx) (hnvk : nv.key = (m n).key)
    (hwf : WFt m (.nd i l r))
    (hnle : n ∉ (LT.nd i l r).leaves)
    (hldup : (LT.nd i l r).leaves.Nodup)
    (hndup : (LT.nd i l r).nodes.Nodup)
    (hmis : ¬ misAt m kx l r)
    (hdir : (kx ^^^ keyOf m l.top) ≥ (kx ^^^ keyOf m r.top))
    (hrnd : ∃ i2 l2 r2, r = .nd i2 l2 r2 ∧ ¬ misAt m kx l2 r2)
    (hp : p ∈ r.nodes)
    (hih : WFt (writeB (updateMem m n nv) p sd (some n)) (insLT m kx n r)) :
    WFt (writeB (updateMem m n nv) p sd (some n))
      (.nd i l (insLT m kx n r)) := by
  have hpa := not_mis_prefix hwf hmis
  have hkbit := (dir_bit hwf hmis).mp hdir
  obtain ⟨hib0, hib1, hlkb, hrkb, hrsh, htne, hXge, hXlt⟩ := wfnd_facts hwf
  obtain ⟨_, _, hkol, hkor, hmem, hcl, hcr, hwl, hwr⟩ := hwf
  have hnll : n ∉ l.leaves := fun h => hnle (List.mem_append_left _ h)
  have hnlr : n ∉ r.leaves := fun h => hnle (List.mem_append_right _ h)
  have hni : n ≠ i := fun h => hnle (h ▸ hmem)
  have hldup2 : (l.leaves ++ r.leaves).Nodup := hldup
  rw [List.nodup_append] at hldup2
  have hndup2 : (i :: (l.nodes ++ r.nodes)).Nodup := hndup
  rw [List.nodup_cons, List.nodup_append] at hndup2
  have hip : i ≠ p := fun h =>
    hndup2.1 (h ▸ List.mem_append_right _ hp)
  have hpleaf : p ∈ r.leaves := nodes_subset_leaves hwr _ hp
  have hpn : p ≠ n := fun h => hnlr (h ▸ hpleaf)
  have hkeys2 := keyOf_ins_eq hnvk p sd (some n)
  have hother : ∀ a, a ≠ p → a ≠ n →
      writeB (updateMem m n nv) p sd (some n) a = m a :=
    fun a h1 h2 => wb_upd_other h1 h2
  have hm2i : writeB (updateMem m n nv) p sd (some n) i = m i :=
    hother i hip (Ne.symm hni)
  have htopr : (insLT m kx n r).top = r.top := by
    obtain ⟨i2, l2, r2, hr2, hm2⟩ := hrnd
    subst hr2
    exact insLT_top_nomis hm2
  have hsplit : splitBit (writeB (updateMem m n nv) p sd (some n)) l
      (insLT m kx n r) = splitBit m l r := by
    unfold splitBit
    rw [htopr, hkeys2, hkeys2]
  refine ⟨by rw [hm2i]; exact hib0, by rw [hm2i, htopr]; exact hib1, ?_, ?_,
    ?_, ?_, ?_, ?_, hih⟩
  · rw [hsplit, hkeys2, keysOn, keys_congr hkeys2]
    intro a ha
    exact hkol a ha
  · rw [hsplit, hkeys2, keysOn]
    intro a ha
    rw [show (insLT m kx n r).keys (writeB (updateMem m n nv) p sd (some n))
        = (insLT m kx n r).leaves.map
            (keyOf (writeB (updateMem m n nv) p sd (some n))) from rfl,
      List.mem_map] at ha
    obtain ⟨j, hj, rfl⟩ := ha
    rw [hkeys2 j]
    have hj2 := (@insLT_leaves_perm m kx n r).mem_iff.mp hj
    rcases List.mem_cons.mp hj2 with hjn | hjr
    · subst hjn
      rw [hkn]
      exact ⟨hpa, hkbit⟩
    · exact hkor _ (List.mem_map_of_mem _ hjr)
  · rcases List.mem_append.mp hmem with h | h
    · exact List.mem_append_left _ h
    · exact List.mem_append_right _
        ((insLT_leaves_perm r).mem_iff.mpr (List.mem_cons_of_mem _ h))
  · rw [hsplit]
    cases l with
    | lf j =>
      rcases hcl with h | h
      · exact Or.inl h
      · have hjp : j ≠ p := fun h2 =>
          (List.disjoint_left.mp hldup2.2.2)
            (by simp [LT.leaves, h2]) hpleaf
        have hjn : j ≠ n := fun h2 => hnll (by simp [LT.leaves, h2])
        exact Or.inr (lb_preserved_other hkeys2 (by rw [hother j hjp hjn])
          (by rw [hother j hjp hjn]) h)
    | nd j l2 r2 => exact hcl
  · rw [hsplit]
    cases hIns : insLT m kx n r with
    | lf x => exact absurd hIns (insLT_ne_lf r x)
    | nd a b c =>
      show a ≠ i
      have ha2 : (insLT m kx n r).top = a := by rw [hIns]; rfl
      rw [ha2] at htopr
      rw [htopr]
      obtain ⟨i2, l2, r2, hr2, _⟩ := hrnd
      subst hr2
      exact hcr
  · refine WFt_mono hkeys2 ?_ ?_ hwl
    · intro a ha
      have h1 : a ≠ p := fun h =>
        (List.disjoint_left.mp hndup2.2.2.2) ha (h ▸ hp)
      have h2 : a ≠ n := fun h =>
        hnll (h ▸ nodes_subset_leaves hwl a ha)
      rw [hother a h1 h2]
      exact ⟨rfl, rfl⟩
    · intro j hj k2 h
      have h1 : j ≠ p := fun h2 =>
        (List.disjoint_left.mp hldup2.2.2) hj (h2 ▸ hpleaf)
      have h2 : j ≠ n := fun h2 => hnll (h2 ▸ hj)
      exact lb_preserved_other hkeys2 (by rw [hother j h1 h2])
        (by rw [hother j h1 h2]) h

/-- One step of insert preservation, descending left past the node. -/
theorem ins_step_deep_left {m : Mem} {kx n : Nat} {nv : CebNode} {i : Nat}
    {l r : LT} {p : Nat} {sd : Bool}
    (hkn : keyOf m n = kx) (hnvk : nv.key = (m n).key)
    (hwf : WFt m (.nd i l r))
    (hnle : n ∉ (LT.nd i l r).leaves)
    (hldup : (LT.nd i l r).leaves.Nodup)
    (hndup : (LT.nd i l r).nodes.Nodup)
    (hmis : ¬ misAt m kx l r)
    (hdir : ¬ (kx ^^^ keyOf m l.top) ≥ (kx ^^^ keyOf m r.top))
    (hlnd : ∃ i2 l2 r2, l = .nd i2 l2 r2 ∧ ¬ misAt m kx l2 r2)
    (hp : p ∈ l.nodes)
    (hih : WFt (writeB (updateMem m n nv) p sd (some n)) (insLT m kx n l)) :
    WFt (writeB (updateMem m n nv) p sd (some n))
      (.nd i (insLT m kx n l) r) := by
  have hpa := not_mis_prefix hwf hmis
  have hkbit : kx.testBit (splitBit m l r) = false := by
    cases h : kx.testBit (splitBit m l r)
    · rfl
    · exact absurd ((dir_bit hwf hmis).mpr h) hdir
  obtain ⟨hib0, hib1, hlkb, hrkb, hrsh, htne, hXge, hXlt⟩ := wfnd_facts hwf
  obtain ⟨_, _, hkol, hkor, hmem, hcl, hcr, hwl, hwr⟩ := hwf
  have hnll : n ∉ l.leaves := fun h => hnle (List.mem_append_left _ h)
  have hnlr : n ∉ r.leaves := fun h => hnle (List.mem_append_right _ h)
  have hni : n ≠ i := fun h => hnle (h ▸ hmem)
  have hldup2 : (l.leaves ++ r.leaves).Nodup := hldup
  rw [List.nodup_append] at hldup2
  have hndup2 : (i :: (l.nodes ++ r.nodes)).Nodup := hndup
  rw [List.nodup_cons, List.nodup_append] at hndup2
  have hip : i ≠ p := fun h =>
    hndup2.1 (h ▸ List.mem_append_left _ hp)
  have hpleaf : p ∈ l.leaves := nodes_subset_leaves hwl _ hp
  have hpn : p ≠ n := fun h => hnll (h ▸ hpleaf)
  have hkeys2 := keyOf_ins_eq hnvk p sd (some n)
  have hother : ∀ a, a ≠ p → a ≠ n →
      writeB (updateMem m n nv) p sd (some n) a = m a :=
    fun a h1 h2 => wb_upd_other h1 h2
  have hm2i : writeB (updateMem m n nv) p sd (some n) i = m i :=
    hother i hip (Ne.symm hni)
  have htopl : (insLT m kx n l).top = l.top := by
    obtain ⟨i2, l2, r2, hl2, hm2⟩ := hlnd
    subst hl2
    exact insLT_top_nomis hm2
  have hsplit : splitBit (writeB (updateMem m n nv) p sd (some n))
      (insLT m kx n l) r = splitBit m l r := by
    unfold splitBit
    rw [htopl, hkeys2, hkeys2]
  refine ⟨by rw [hm2i, htopl]; exact hib0, by rw [hm2i]; exact hib1, ?_, ?_,
    ?_, ?_, ?_, hih, ?_⟩
  · rw [hsplit, htopl, hkeys2, keysOn]
    intro a ha
    rw [show (insLT m kx n l).keys (writeB (updateMem m n nv) p sd (some n))
        = (insLT m kx n l).leaves.map
            (keyOf (writeB (updateMem m n nv) p sd (some n))) from rfl,
      List.mem_map] at ha
    obtain ⟨j, hj, rfl⟩ := ha
    rw [hkeys2 j]
    have hj2 := (@insLT_leaves_perm m kx n l).mem_iff.mp hj
    rcases List.mem_cons.mp hj2 with hjn | hjl
    · subst hjn
      rw [hkn]
      exact ⟨hpa, hkbit⟩
    · exact hkol _ (List.mem_map_of_mem _ hjl)
  · rw [hsplit, htopl, hkeys2, keysOn, keys_congr hkeys2]
    intro a ha
    exact hkor a ha
  · rcases List.mem_append.mp hmem with h | h
    · exact List.mem_append_left _
        ((insLT_leaves_perm l).mem_iff.mpr (List.mem_cons_of_mem _ h))
    · exact List.mem_append_right _ h
  · rw [hsplit]
    cases hIns : insLT m kx n l with
    | lf x => exact absurd hIns (insLT_ne_lf l x)
    | nd a b c =>
      show a ≠ i
      have ha2 : (insLT m kx n l).top = a := by rw [hIns]; rfl
      rw [ha2] at htopl
      rw [htopl]
      obtain ⟨i2, l2, r2, hl2, _⟩ := hlnd
      subst hl2
      exact hcl
  · rw [hsplit]
    cases r with
    | lf j =>
      rcases hcr with h | h
      · exact Or.inl h
      · have hjp : j ≠ p := fun h2 =>
          (List.disjoint_left.mp hldup2.2.2) hpleaf
            (by simp [LT.leaves, h2])
        have hjn : j ≠ n := fun h2 => hnlr (by simp [LT.leaves, h2])
        exact Or.inr (lb_preserved_other hkeys2 (by rw [hother j hjp hjn])
          (by rw [hother j hjp hjn]) h)
    | nd j l2 r2 => exact hcr
  · refine WFt_mono hkeys2 ?_ ?_ hwr
    · intro a ha
      have h1 : a ≠ p := fun h =>
        (List.disjoint_left.mp hndup2.2.2.2) (h ▸ hp) ha
      have h2 : a ≠ n := fun h =>
        hnlr (h ▸ nodes_subset_leaves hwr a ha)
      rw [hother a h1 h2]
      exact ⟨rfl, rfl⟩
    · intro j hj k2 h
      have h1 : j ≠ p := fun h2 =>
        (List.disjoint_left.mp hldup2.2.2) hpleaf (h2 ▸ hj)
      have h2 : j ≠ n := fun h2 => hnlr (h2 ▸ hj)
      exact lb_preserved_other hkeys2 (by rw [hother j h1 h2])
        (by rw [hother j h1 h2]) h

/-- Insert preservation below the root: if the descent stops strictly
below the top of `t`, the two insert writes leave the transformed shape
well-formed. -/
theorem insLT_wf_go {m : Mem} {kx n : Nat} {nv : CebNode}
    (hkn : keyOf m n = kx) (hnvk : nv.key = (m n).key) :
    ∀ (t : LT), WFt m t → kx ∉ t.keys m → n ∉ t.leaves →
    t.leaves.Nodup → t.nodes.Nodup →
    (∀ j, t ≠ .lf j) →
    (∀ i1 l1 r1, t = .nd i1 l1 r1 → ¬ misAt m kx l1 r1) →
    nv.b0 = (if keyOf m (insSub m kx t).top ≤ kx
        then some (insSub m kx t).top else some n) →
    nv.b1 = (if keyOf m (insSub m kx t).top ≤ kx
        then some n else some (insSub m kx t).top) →
    ∀ p sd, insLoc m kx t (NRef.virt, false) = (NRef.node p, sd) →
    WFt (writeB (updateMem m n nv) p sd (some n)) (insLT m kx n t) := by
  intro t
  induction t with
  | lf j =>
    intro _ _ _ _ _ hsh _ _ _ _ _ _
    exact absurd rfl (hsh j)
  | nd i l r ihl ihr =>
    intro hwf hout hnle hldup hndup _ hnm hb0 hb1 p sd hloc
    have hmis : ¬ misAt m kx l r := hnm i l r rfl
    have hkeyssplit : (LT.nd i l r).keys m = l.keys m ++ r.keys m := by
      simp [LT.keys, LT.leaves]
    have houtl : kx ∉ l.keys m := fun h =>
      hout (by rw [hkeyssplit]; exact List.mem_append_left _ h)
    have houtr : kx ∉ r.keys m := fun h =>
      hout (by rw [hkeyssplit]; exact List.mem_append_right _ h)
    have hnll : n ∉ l.leaves := fun h => hnle (List.mem_append_left _ h)
    have hnlr : n ∉ r.leaves := fun h => hnle (List.mem_append_right _ h)
    have hldup2 : (l.leaves ++ r.leaves).Nodup := hldup
    rw [List.nodup_append] at hldup2
    have hndup2 : (i :: (l.nodes ++ r.nodes)).Nodup := hndup
    rw [List.nodup_cons, List.nodup_append] at hndup2
    have hwl : WFt m l := hwf.2.2.2.2.2.2.2.1
    have hwr : WFt m r := hwf.2.2.2.2.2.2.2.2
    by_cases hdir : (kx ^^^ keyOf m l.top) ≥ (kx ^^^ keyOf m r.top)
    · have hloc2 : insLoc m kx r (NRef.node i, true) = (NRef.node p, sd) := by
        rw [← hloc]
        simp [insLoc, if_neg hmis, if_pos hdir]
      have hsub : insSub m kx (LT.nd i l r) = insSub m kx r := by
        simp [insSub, if_neg hmis, if_pos hdir]
      rw [hsub] at hb0 hb1
      have hinslt : insLT m kx n (LT.nd i l r) = .nd i l (insLT m kx n r) := by
        simp [insLT, if_neg hmis, if_pos hdir]
      rw [hinslt]
      cases r with
      | lf j =>
        have h2 : ((NRef.node i : NRef), true) = ((NRef.node p : NRef), sd) := by
          rw [← hloc2]
          rfl
        injection h2 with h3 h4
        injection h3 with h5
        subst h5
        subst h4
        exact ins_step_stop_right hkn hnvk hwf hout hnle hldup hndup hmis hdir
          (Or.inl ⟨j, rfl⟩) hb0 hb1
      | nd i2 l2 r2 =>
        by_cases hmis2 : misAt m kx l2 r2
        · have h2 : ((NRef.node i : NRef), true)
              = ((NRef.node p : NRef), sd) := by
            rw [← hloc2]
            simp [insLoc, if_pos hmis2]
          injection h2 with h3 h4
          injection h3 with h5
          subst h5
          subst h4
          exact ins_step_stop_right hkn hnvk hwf hout hnle hldup hndup hmis
            hdir (Or.inr ⟨i2, l2, r2, rfl, hmis2⟩) hb0 hb1
        · have hp : p ∈ (LT.nd i2 l2 r2).nodes :=
            insLoc_nodes_of_nomis hmis2 hloc2
          have hloc3 : insLoc m kx (LT.nd i2 l2 r2) (NRef.virt, false)
              = (NRef.node p, sd) := by
            rw [← hloc2]
            by_cases hdir2 : (kx ^^^ keyOf m l2.top) ≥ (kx ^^^ keyOf m r2.top) <;>
              simp [insLoc, if_neg hmis2, hdir2]
          have hih := ihr hwr houtr hnlr hldup2.2.1 hndup2.2.2.1
            (fun j h => LT.noConfusion h)
            (fun i3 l3 r3 h => by
              injection h with ha hb hc
              subst ha
              subst hb
              subst hc
              exact hmis2)
            hb0 hb1 p sd hloc3
          exact ins_step_deep_right hkn hnvk hwf hnle hldup hndup hmis hdir
            ⟨i2, l2, r2, rfl, hmis2⟩ hp hih
    · have hloc2 : insLoc m kx l (NRef.node i, false) = (NRef.node p, sd) := by
        rw [← hloc]
        simp [insLoc, if_neg hmis, if_neg hdir]
      have hsub : insSub m kx (LT.nd i l r) = insSub m kx l := by
        simp [insSub, if_neg hmis, if_neg hdir]
      rw [hsub] at hb0 hb1
      have hinslt : insLT m kx n (LT.nd i l r) = .nd i (insLT m kx n l) r := by
        simp [insLT, if_neg hmis, if_neg hdir]
      rw [hinslt]
      cases l with
      | lf j =>
        have h2 : ((NRef.node i : NRef), false)
            = ((NRef.node p : NRef), sd) := by
          rw [← hloc2]
          rfl
        injection h2 with h3 h4
        injection h3 with h5
        subst h5
        subst h4
        exact ins_step_stop_left hkn hnvk hwf hout hnle hldup hndup hmis hdir
          (Or.inl ⟨j, rfl⟩) hb0 hb1
      | nd i2 l2 r2 =>
        by_cases hmis2 : misAt m kx l2 r2
        · have h2 : ((NRef.node i : NRef), false)
              = ((NRef.node p : NRef), sd) := by
            rw [← hloc2]
            simp [insLoc, if_pos hmis2]
          injection h2 with h3 h4
          injection h3 with h5
          subst h5
          subst h4
          exact ins_step_stop_left hkn hnvk hwf hout hnle hldup hndup hmis
            hdir (Or.inr ⟨i2, l2, r2, rfl, hmis2⟩) hb0 hb1
        · have hp : p ∈ (LT.nd i2 l2 r2).nodes :=
            insLoc_nodes_of_nomis hmis2 hloc2
          have hloc3 : insLoc m kx (LT.nd i2 l2 r2) (NRef.virt, false)
              = (NRef.node p, sd) := by
            rw [← hloc2]
            by_cases hdir2 : (kx ^^^ keyOf m l2.top) ≥ (kx ^^^ keyOf m r2.top) <;>
              simp [insLoc, if_neg hmis2, hdir2]
          have hih := ihl hwl houtl hnll hldup2.1 hndup2.2.1
            (fun j h => LT.noConfusion h)
            (fun i3 l3 r3 h => by
              injection h with ha hb hc
              subst ha
              subst hb
              subst hc
              exact hmis2)
            hb0 hb1 p sd hloc3
          exact ins_step_deep_left hkn hnvk hwf hnle hldup hndup hmis hdir
            ⟨i2, l2, r2, rfl, hmis2⟩ hp hih

theorem keyOf_upd_eq {m : Mem} {n : Nat} {nv : CebNode}
    (h : nv.key = (m n).key) :
    ∀ a, keyOf (updateMem m n nv) a = keyOf m a := by
  intro a
  unfold keyOf updateMem
  by_cases han : a = n <;> simp [han, h]

/-- The key set after the insert transform is the old one plus the new
key, over any memory that keeps all keys. -/
theorem insLT_keys_mem {m m2 : Mem} {kx n : Nat}
    (hkeys2 : ∀ a, keyOf m2 a = keyOf m a) (hkn : keyOf m n = kx) (t : LT) :
    ∀ a, a ∈ (insLT m kx n t).keys m2 ↔ (a = kx ∨ a ∈ t.keys m) := by
  intro a
  rw [keys_congr hkeys2]
  constructor
  · intro h
    obtain ⟨j, hj, rfl⟩ := List.mem_map.mp h
    rcases List.mem_cons.mp ((insLT_leaves_perm t).mem_iff.mp hj) with h2 | h2
    · subst h2
      exact Or.inl hkn
    · exact Or.inr (List.mem_map_of_mem _ h2)
  · intro h
    rcases h with h | h
    · subst h
      refine List.mem_map.mpr ⟨n, ?_, hkn⟩
      exact (insLT_leaves_perm t).mem_iff.mpr (List.mem_cons_self _ _)
    · obtain ⟨j, hj, rfl⟩ := List.mem_map.mp h
      refine List.mem_map.mpr ⟨j, ?_, rfl⟩
      exact (insLT_leaves_perm t).mem_iff.mpr (List.mem_cons_of_mem _ hj)

/-- Inserting a key already present returns the unique holder and leaves
the state untouched. -/
theorem cebu_insert_dup {s : State} {t : LT} (hwf : WFst s t)
    {n : Nat} {fuel : Nat} (hfuel : t.size ≤ fuel)
    (hin : (s.mem n).key ∈ t.keys s.mem) :
    _cebu_insert fuel s n
      = some (destLeaf s.mem ((s.mem n).key) t, s) := by
  unfold _cebu_insert
  rw [hwf.1]
  dsimp only
  rw [cebu_descend_eq hwf (by decide) ((s.mem n).key) false hfuel]
  have hfd := @sDescend_found s.mem .KEQ ((s.mem n).key) false t
    hwf.2.2.2.2.2.2 hin startWin
  simp only [startWin] at hfd
  rw [hfd]
  have hkey := (destLeaf_mem hwf.2.2.2.2.2.2 hin).2
  simp only [keyOf] at hkey
  simp [exitRes, hkey]

/-- Inserting into the empty tree makes the node the self-looped root. -/
theorem cebu_insert_empty {s : State} (hroot : s.root = none) (n : Nat)
    (hk32 : (s.mem n).key < 2 ^ 32) (fuel : Nat) :
    _cebu_insert fuel s n = some (n,
      ⟨updateMem s.mem n { s.mem n with b0 := some n, b1 := some n },
        some n⟩) ∧
    WFst ⟨updateMem s.mem n { s.mem n with b0 := some n, b1 := some n },
      some n⟩ (.lf n) := by
  constructor
  · unfold _cebu_insert
    rw [hroot]
  · refine ⟨rfl, ?_, by simp [LT.leaves], by simp [LT.nodes], ?_, ?_, trivial⟩
    · intro a ha
      simp only [LT.keys, LT.leaves, List.map_singleton,
        List.mem_singleton] at ha
      subst ha
      simpa [keyOf, updateMem] using hk32
    · intro j hj
      simp only [LT.leaves, List.mem_singleton] at hj
      subst hj
      simp [updateMem]
    · constructor <;> simp [updateMem]

/-- Assembling the root-level invariant after an insert, once the shape
is known to be well-formed. -/
theorem wfst_assemble {s2mem : Mem} {m : Mem} {kx n : Nat} {t : LT}
    {rt : Option Nat}
    (hwft : WFt s2mem (insLT m kx n t))
    (hkeys2 : ∀ a, keyOf s2mem a = keyOf m a)
    (hroot2 : rt = some (insLT m kx n t).top)
    (hk32 : kx < 2 ^ 32) (hk32all : ∀ a ∈ t.keys m, a < 2 ^ 32)
    (hkn : keyOf m n = kx)
    (hfresh : n ∉ t.leaves) (hldup : t.leaves.Nodup) (hndup : t.nodes.Nodup)
    (hnnodes : n ∉ t.nodes)
    (hb0nn : ∀ j ∈ (insLT m kx n t).leaves, (s2mem j).b0 ≠ none) :
    WFst ⟨s2mem, rt⟩ (insLT m kx n t) := by
  refine ⟨hroot2, ?_, ?_, ?_, hb0nn, ?_, hwft⟩
  · intro a ha
    rcases (insLT_keys_mem hkeys2 hkn t a).mp ha with h | h
    · subst h
      exact hk32
    · exact hk32all a h
  · exact ((insLT_leaves_perm t).nodup_iff).mpr
      (List.nodup_cons.mpr ⟨hfresh, hldup⟩)
  · exact ((insLT_nodes_perm t).nodup_iff).mpr
      (List.nodup_cons.mpr ⟨hnnodes, hndup⟩)
  · cases hIns : insLT m kx n t with
    | lf x => exact absurd hIns (insLT_ne_lf t x)
    | nd a b c => trivial

/-- Well-formedness of the full post-insert state, for every shape of
the stop position (root leaf, root mismatch, or deeper). -/
theorem insLT_wf_root {s : State} {t : LT} (hwf : WFst s t) {n : Nat}
    {nv : CebNode}
    (hk32 : (s.mem n).key < 2 ^ 32)
    (hfresh : n ∉ t.leaves)
    (hout : (s.mem n).key ∉ t.keys s.mem)
    (hnvk : nv.key = (s.mem n).key)
    (hb0 : nv.b0 = (if keyOf s.mem (insSub s.mem ((s.mem n).key) t).top
        ≤ (s.mem n).key then some (insSub s.mem ((s.mem n).key) t).top
        else some n))
    (hb1 : nv.b1 = (if keyOf s.mem (insSub s.mem ((s.mem n).key) t).top
        ≤ (s.mem n).key then some n
        else some (insSub s.mem ((s.mem n).key) t).top)) :
    WFst (writeSlot ⟨updateMem s.mem n nv, s.root⟩
        (insLoc s.mem ((s.mem n).key) t (NRef.virt, false)) (some n))
      (insLT s.mem ((s.mem n).key) n t) ∧
    ∀ a, keyOf (writeSlot ⟨updateMem s.mem n nv, s.root⟩
        (insLoc s.mem ((s.mem n).key) t (NRef.virt, false)) (some n)).mem a
      = keyOf s.mem a := by
  obtain ⟨hroot, hk32all, hldup, hndup, hb0nn, hsing, hwt⟩ := hwf
  have hnnodes : n ∉ t.nodes := fun h => hfresh (nodes_subset_leaves hwt _ h)
  cases t with
  | lf j =>
    have hktne : keyOf s.mem j ≠ (s.mem n).key := by
      intro h
      exact hout (by simp [LT.keys, LT.leaves, h])
    have hnj : n ≠ j := fun h => hfresh (by simp [LT.leaves, h])
    have hkeys2 := keyOf_upd_eq hnvk
    have hm1j : updateMem s.mem n nv j = s.mem j :=
      updateMem_other _ _ _ (Ne.symm hnj)
    have hloc0 : insLoc s.mem ((s.mem n).key) (LT.lf j) (NRef.virt, false)
        = (NRef.virt, false) := rfl
    rw [hloc0]
    have hws : writeSlot ⟨updateMem s.mem n nv, s.root⟩ (NRef.virt, false)
        (some n) = ⟨updateMem s.mem n nv, some n⟩ := rfl
    rw [hws]
    have hsub0 : insSub s.mem ((s.mem n).key) (LT.lf j) = .lf j := rfl
    rw [hsub0] at hb0 hb1
    simp only [LT.top] at hb0 hb1
    have hwrap : WFt (updateMem s.mem n nv)
        (insLT s.mem ((s.mem n).key) n (.lf j)) ∧
        (insLT s.mem ((s.mem n).key) n (.lf j)).top = n := by
      have hdiv := @stop_div s.mem ((s.mem n).key) (.lf j)
        trivial (Or.inl ⟨j, rfl⟩) hout
      by_cases hns : keyOf s.mem j ≤ (s.mem n).key
      · rw [if_pos hns] at hb0 hb1
        have hshapeI : insLT s.mem ((s.mem n).key) n (.lf j)
            = .nd n (.lf j) (.lf n) := by
          simp only [insLT]
          rw [if_pos hns]
        rw [hshapeI]
        refine ⟨?_, rfl⟩
        refine wrap_core_right (u := .lf j) hkeys2 rfl hdiv
          (lt_of_le_of_ne hns hktne) ?_ ?_ ?_ hfresh ?_ ?_ trivial
        · intro a ha
          simp [LT.nodes] at ha
        · intro j2 hj2 k2 h
          simp only [LT.leaves, List.mem_singleton] at hj2
          subst hj2
          exact lb_preserved_other hkeys2 (by rw [hm1j]) (by rw [hm1j]) h
        · intro j2 hj2
          injection hj2 with h
          subst h
          refine Or.inl ?_
          rw [hm1j, hsing.1, hsing.2]
        · rw [updateMem_self, hb0]
          rfl
        · rw [updateMem_self, hb1]
      · rw [if_neg hns] at hb0 hb1
        have hshapeI : insLT s.mem ((s.mem n).key) n (.lf j)
            = .nd n (.lf n) (.lf j) := by
          simp only [insLT]
          rw [if_neg hns]
        rw [hshapeI]
        refine ⟨?_, rfl⟩
        refine wrap_core_left (u := .lf j) hkeys2 rfl hdiv
          (show (s.mem n).key < keyOf s.mem j by omega) ?_ ?_
          ?_ hfresh ?_ ?_ trivial
        · intro a ha
          simp [LT.nodes] at ha
        · intro j2 hj2 k2 h
          simp only [LT.leaves, List.mem_singleton] at hj2
          subst hj2
          exact lb_preserved_other hkeys2 (by rw [hm1j]) (by rw [hm1j]) h
        · intro j2 hj2
          injection hj2 with h
          subst h
          refine Or.inl ?_
          rw [hm1j, hsing.1, hsing.2]
        · rw [updateMem_self, hb0]
        · rw [updateMem_self, hb1]
          rfl
    refine ⟨?_, hkeys2⟩
    refine wfst_assemble hwrap.1 hkeys2 (by rw [hwrap.2]) hk32 hk32all rfl
      hfresh hldup hndup hnnodes ?_
    intro j2 hj2
    rcases List.mem_cons.mp ((insLT_leaves_perm _).mem_iff.mp hj2) with h | h
    · subst h
      rw [updateMem_self, hb0]
      split <;> simp
    · have hne : j2 ≠ n := fun he => hfresh (he ▸ h)
      rw [updateMem_other _ _ _ hne]
      exact hb0nn j2 h
  | nd i l r =>
    by_cases hmisr : misAt s.mem ((s.mem n).key) l r
    · have hktne : keyOf s.mem i ≠ (s.mem n).key := by
        intro h
        exact hout (h ▸ key_mem_of_leaf (wf_top_mem hwt))
      have hkeys2 := keyOf_upd_eq hnvk
      have hloc0 : insLoc s.mem ((s.mem n).key) (LT.nd i l r)
          (NRef.virt, false) = (NRef.virt, false) := by
        simp [insLoc, if_pos hmisr]
      rw [hloc0]
      have hws : writeSlot ⟨updateMem s.mem n nv, s.root⟩ (NRef.virt, false)
          (some n) = ⟨updateMem s.mem n nv, some n⟩ := rfl
      rw [hws]
      have hsub0 : insSub s.mem ((s.mem n).key) (LT.nd i l r)
          = .nd i l r := by
        simp [insSub, if_pos hmisr]
      rw [hsub0] at hb0 hb1
      simp only [LT.top] at hb0 hb1
      have hbn : ∀ a ∈ (LT.nd i l r).nodes,
          ((updateMem s.mem n nv) a).b0 = (s.mem a).b0 ∧
          ((updateMem s.mem n nv) a).b1 = (s.mem a).b1 := by
        intro a ha
        have : a ≠ n := fun h => hnnodes (h ▸ ha)
        rw [updateMem_other _ _ _ this]
        exact ⟨rfl, rfl⟩
      have hlbAll : ∀ j2 ∈ (LT.nd i l r).leaves, ∀ k2,
          leafBreakable s.mem k2 j2 →
          leafBreakable (updateMem s.mem n nv) k2 j2 := by
        intro j2 hj2 k2 h
        have hne : j2 ≠ n := fun he => hfresh (he ▸ hj2)
        exact lb_preserved_other hkeys2
          (by rw [updateMem_other _ _ _ hne])
          (by rw [updateMem_other _ _ _ hne]) h
      have hlbtop : ∀ j2, (LT.nd i l r) = .lf j2 →
          leafBreakable (updateMem s.mem n nv)
            (Nat.log2 ((s.mem n).key ^^^ keyOf s.mem (LT.nd i l r).top))
            j2 := by
        intro j2 h
        exact LT.noConfusion h
      have hwrap : WFt (updateMem s.mem n nv)
          (insLT s.mem ((s.mem n).key) n (.nd i l r)) ∧
          (insLT s.mem ((s.mem n).key) n (.nd i l r)).top = n := by
        have hdiv := @stop_div s.mem ((s.mem n).key) (.nd i l r)
          hwt (Or.inr ⟨i, l, r, rfl, hmisr⟩) hout
        by_cases hns : keyOf s.mem i ≤ (s.mem n).key
        · rw [if_pos hns] at hb0 hb1
          have hshapeI : insLT s.mem ((s.mem n).key) n (.nd i l r)
              = .nd n (.nd i l r) (.lf n) := by
            simp only [insLT]
            rw [if_pos hmisr, if_pos hns]
          rw [hshapeI]
          refine ⟨?_, rfl⟩
          refine wrap_core_right (u := .nd i l r) hkeys2 rfl hdiv
            (lt_of_le_of_ne hns hktne) hbn hlbAll hlbtop hfresh ?_ ?_ hwt
          · rw [updateMem_self, hb0]
            rfl
          · rw [updateMem_self, hb1]
        · rw [if_neg hns] at hb0 hb1
          have hshapeI : insLT s.mem ((s.mem n).key) n (.nd i l r)
              = .nd n (.lf n) (.nd i l r) := by
            simp only [insLT]
            rw [if_pos hmisr, if_neg hns]
          rw [hshapeI]
          refine ⟨?_, rfl⟩
          refine wrap_core_left (u := .nd i l r) hkeys2 rfl hdiv
            (show (s.mem n).key < keyOf s.mem i by omega)
            hbn hlbAll hlbtop hfresh ?_ ?_ hwt
          · rw [updateMem_self, hb0]
          · rw [updateMem_self, hb1]
            rfl
      refine ⟨?_, hkeys2⟩
      refine wfst_assemble hwrap.1 hkeys2 (by rw [hwrap.2]) hk32 hk32all rfl
        hfresh hldup hndup hnnodes ?_
      intro j2 hj2
      rcases List.mem_cons.mp ((insLT_leaves_perm _).mem_iff.mp hj2) with h | h
      · subst h
        rw [updateMem_self, hb0]
        split <;> simp
      · have hne : j2 ≠ n := fun he => hfresh (he ▸ h)
        rw [updateMem_other _ _ _ hne]
        exact hb0nn j2 h
    · obtain ⟨p, sd, hploc⟩ : ∃ p sd,
          insLoc s.mem ((s.mem n).key) (LT.nd i l r) (NRef.virt, false)
            = (NRef.node p, sd) := by
        by_cases hdir : ((s.mem n).key ^^^ keyOf s.mem l.top)
            ≥ ((s.mem n).key ^^^ keyOf s.mem r.top)
        · rw [show insLoc s.mem ((s.mem n).key) (LT.nd i l r)
              (NRef.virt, false)
              = insLoc s.mem ((s.mem n).key) r (NRef.node i, true) from by
            simp [insLoc, if_neg hmisr, if_pos hdir]]
          rcases insLoc_cases r i true with h | ⟨q, sq, h, _⟩
          · exact ⟨i, true, h⟩
          · exact ⟨q, sq, h⟩
        · rw [show insLoc s.mem ((s.mem n).key) (LT.nd i l r)
              (NRef.virt, false)
              = insLoc s.mem ((s.mem n).key) l (NRef.node i, false) from by
            simp [insLoc, if_neg hmisr, if_neg hdir]]
          rcases insLoc_cases l i false with h | ⟨q, sq, h, _⟩
          · exact ⟨i, false, h⟩
          · exact ⟨q, sq, h⟩
      have hpn : p ∈ (LT.nd i l r).nodes := insLoc_nodes_of_nomis hmisr hploc
      have hpleaf : p ∈ (LT.nd i l r).leaves :=
        nodes_subset_leaves hwt _ hpn
      have hpne : p ≠ n := fun h => hfresh (h ▸ hpleaf)
      rw [hploc]
      have hws : writeSlot ⟨updateMem s.mem n nv, s.root⟩ (NRef.node p, sd)
          (some n)
          = ⟨writeB (updateMem s.mem n nv) p sd (some n), s.root⟩ := rfl
      rw [hws]
      have hkeys2 := keyOf_ins_eq hnvk p sd (some n)
      have hwft := @insLT_wf_go s.mem ((s.mem n).key) n nv rfl hnvk
        (LT.nd i l r) hwt hout hfresh hldup hndup
        (fun j h => LT.noConfusion h)
        (fun i3 l3 r3 h => by
          injection h with ha hb hc
          subst ha
          subst hb
          subst hc
          exact hmisr)
        hb0 hb1 p sd hploc
      have htopi : (insLT s.mem ((s.mem n).key) n (LT.nd i l r)).top = i :=
        insLT_top_nomis hmisr
      refine ⟨?_, hkeys2⟩
      refine wfst_assemble hwft hkeys2 ?_ hk32 hk32all rfl hfresh hldup
        hndup hnnodes ?_
      · rw [htopi]
        exact hroot
      · intro j2 hj2
        rcases List.mem_cons.mp ((insLT_leaves_perm _).mem_iff.mp hj2)
          with h | h
        · subst h
          rw [wb_upd_n hpne, hb0]
          split <;> simp
        · by_cases hj2p : j2 = p
          · subst hj2p
            cases sd
            · rw [(wb_upd_p_false hpne).1]
              simp
            · rw [(wb_upd_p_true hpne).1]
              exact hb0nn _ hpleaf
          · have hne : j2 ≠ n := fun he => hfresh (he ▸ h)
            rw [wb_upd_other hj2p hne]
            exact hb0nn j2 h

/-- The new-key insert: explicit success, well-formedness of the new
shape, and key preservation. -/
theorem insert_wfst {s : State} {t : LT} (hwf : WFst s t) {n : Nat}
    (hk32 : (s.mem n).key < 2 ^ 32) (hfresh : n ∉ t.leaves)
    (hout : (s.mem n).key ∉ t.keys s.mem) {fuel : Nat}
    (hfuel : t.size ≤ fuel) :
    ∃ s2, _cebu_insert fuel s n = some (n, s2) ∧
      WFst s2 (insLT s.mem ((s.mem n).key) n t) ∧
      ∀ a, keyOf s2.mem a = keyOf s.mem a := by
  refine ⟨_, cebu_insert_eq hwf hout hfuel, ?_⟩
  have h := @insLT_wf_root s t hwf n (if decide (keyOf s.mem
        (insSub s.mem ((s.mem n).key) t).top ≤ (s.mem n).key) then
        { s.mem n with b1 := some n, b0 := some (insSub s.mem ((s.mem n).key) t).top }
      else
        { s.mem n with b0 := some n, b1 := some (insSub s.mem ((s.mem n).key) t).top })
    hk32 hfresh hout
    (by split <;> rfl)
    (by by_cases hc : keyOf s.mem (insSub s.mem ((s.mem n).key) t).top
          ≤ (s.mem n).key <;> simp [hc])
    (by by_cases hc : keyOf s.mem (insSub s.mem ((s.mem n).key) t).top
          ≤ (s.mem n).key <;> simp [hc])
  exact ⟨h.1, h.2⟩

/-- C1: on the empty tree, `_cebu_insert` gives the node two self
branches and makes it the root; on a well-formed tree holding the key it
returns the pre-existing holder and leaves the state untouched; on a
well-formed tree without the key it returns the node itself and produces
a well-formed tree whose key set gains exactly that key. -/
theorem cebu_insert_correct (s : State) (n : Nat) (fuel : Nat)
    (hk32 : (s.mem n).key < 2 ^ 32) :
    (s.root = none →
      _cebu_insert fuel s n = some (n,
        ⟨updateMem s.mem n { s.mem n with b0 := some n, b1 := some n },
          some n⟩) ∧
      WFst ⟨updateMem s.mem n { s.mem n with b0 := some n, b1 := some n },
        some n⟩ (.lf n)) ∧
    (∀ t : LT, WFst s t → n ∉ t.leaves → t.size ≤ fuel →
      ((∀ j ∈ t.leaves, keyOf s.mem j = (s.mem n).key →
        _cebu_insert fuel s n = some (j, s)) ∧
      ((s.mem n).key ∉ t.keys s.mem →
        ∃ s2, _cebu_insert fuel s n = some (n, s2) ∧
          WFst s2 (insLT s.mem ((s.mem n).key) n t) ∧
          ∀ a, (a ∈ (insLT s.mem ((s.mem n).key) n t).keys s2.mem ↔
            (a = (s.mem n).key ∨ a ∈ t.keys s.mem))))) := by
  constructor
  · intro hroot
    exact cebu_insert_empty hroot n hk32 fuel
  · intro t hwf hfresh hfuel
    constructor
    · intro j hj hkey
      have hin : (s.mem n).key ∈ t.keys s.mem := hkey ▸ key_mem_of_leaf hj
      have hdl := destLeaf_eq_of_mem hwf.2.2.2.2.2.2 hj hkey
      rw [cebu_insert_dup hwf hfuel hin, hdl]
    · intro hout
      obtain ⟨s2, heq, hwf2, hkeys⟩ := insert_wfst hwf hk32 hfresh hout hfuel
      exact ⟨s2, heq, hwf2, fun a => insLT_keys_mem hkeys rfl t a⟩

/-- Witness for C1: node 5 with key 0 over the all-empty memory. -/
theorem cebu_insert_correct_witness :
    ((0 : Nat) < 2 ^ 32) ∧
    (((⟨mkMem [], none⟩ : State).root = none →
      _cebu_insert 10 ⟨mkMem [], none⟩ 5 = some (5,
        ⟨updateMem (mkMem []) 5 ⟨some 5, some 5, 0⟩, some 5⟩) ∧
      WFst ⟨updateMem (mkMem []) 5 ⟨some 5, some 5, 0⟩, some 5⟩ (.lf 5)) ∧
    (∀ t : LT, WFst ⟨mkMem [], none⟩ t → 5 ∉ t.leaves → t.size ≤ 10 →
      ((∀ j ∈ t.leaves, keyOf (mkMem []) j = 0 →
        _cebu_insert 10 ⟨mkMem [], none⟩ 5 = some (j, ⟨mkMem [], none⟩)) ∧
      ((0 : Nat) ∉ t.keys (mkMem []) →
        ∃ s2, _cebu_insert 10 ⟨mkMem [], none⟩ 5 = some (5, s2) ∧
          WFst s2 (insLT (mkMem []) 0 5 t) ∧
          ∀ a, (a ∈ (insLT (mkMem []) 0 5 t).keys s2.mem ↔
            (a = 0 ∨ a ∈ t.keys (mkMem []))))))) :=
  ⟨by norm_num,
   cebu_insert_correct ⟨mkMem [], none⟩ 5 10
     (by show (0 : Nat) < 2 ^ 32; norm_num)⟩

end Cebtree

namespace CebKT

open Cebtree (NRef Slot Meth DRes LT)

/-- The per-flavor block computes the stored divergence of the visited
allocation. -/
theorem ktStep_dv (m : KMem) (kt : KeyT) (meth : Meth) (ku32 ku64 : Nat)
    (kb : List Nat) (kad : Nat) {p l r : Nat} (px32 px64 plen : Nat)
    (found : Bool) (llen rlen : Nat) (brside : Bool)
    (hl : (m p).b0 = some l) (hr : (m p).b1 = some r) :
    (ktStep m kt meth ku32 ku64 kb kad p l r px32 px64 plen found llen
      rlen brside).dv = divK kt m ku64 p := by
  cases kt <;> simp [ktStep, divK, hl, hr]

/-- The per-flavor leaf test is the flavor's divergence comparison
against the flavor's carried variable. -/
theorem ktStep_leafBrk (m : KMem) (kt : KeyT) (meth : Meth)
    (ku32 ku64 : Nat) (kb : List Nat) (kad : Nat) (p l r : Nat)
    (px32 px64 plen : Nat) (found : Bool) (llen rlen : Nat)
    (brside : Bool) :
    (ktStep m kt meth ku32 ku64 kb kad p l r px32 px64 plen found llen
      rlen brside).leafBrk
      = divBrk kt (ktStep m kt meth ku32 ku64 kb kad p l r px32 px64 plen
          found llen rlen brside).dv (carrySel kt px32 px64 plen) := by
  cases kt <;> simp [ktStep, divBrk, carrySel]

/-- After a node visit, the flavor's carried variable holds the node's
divergence. -/
theorem carrySel_upd (kt : KeyT) (dv px32 px64 plen : Nat) :
    carrySel kt (if kt = .U32 then dv else px32)
      (if kt = .U64 ∨ kt = .ADDR then dv else px64)
      (if kt = .MB ∨ kt = .IM ∨ kt = .ST ∨ kt = .IS then dv else plen)
      = dv := by
  cases kt <;> simp [carrySel]

/-- A child that is not the visited allocation itself satisfies the
entry condition under the parent's divergence. -/
theorem childK_enter {kt : KeyT} {m : KMem} {ku64 i di : Nat} {c : LT}
    (hc : childK kt m ku64 i di c = true) (hne : c.top ≠ i) :
    EnterK kt m ku64 di c = true := by
  cases c with
  | lf j =>
    simp only [childK, Bool.or_eq_true, decide_eq_true_eq] at hc
    rcases hc with (hji | hbb) | hdb
    · exact absurd hji hne
    · simp [EnterK, hbb]
    · simp only [EnterK, Bool.or_eq_true]
      exact Or.inr hdb
  | nd j a b => simp [EnterK]

/-- Termination of the flavor-indexed loop: on a subtree satisfying the
structural invariant, entered with its flavor's carried divergence
meeting the entry condition, the loop exits within `t.size` iterations,
whatever the window and method state. -/
theorem descendKTLoop_ret (m : KMem) (kt : KeyT) (meth : Meth)
    (ku32 ku64 : Nat) (kb : List Nat) (kad : Nat) (wantN : Bool) :
    ∀ (t : LT), WFk kt m ku64 t = true →
    ∀ (px32 px64 plen : Nat),
    EnterK kt m ku64 (carrySel kt px32 px64 plen) t = true →
    ∀ (fuel : Nat), t.size ≤ fuel →
    ∀ (loc : Slot) (found : Bool) (llen rlen : Nat) (brside : Bool)
      (lparent : NRef) (lpside : Bool) (gparent : NRef) (gpside : Bool)
      (nparent : NRef) (npside : Bool) (bnode : Option Nat),
    ∃ d, descendKTLoop m kt meth ku32 ku64 kb kad wantN fuel t.top loc
      px32 px64 plen found llen rlen brside lparent lpside gparent gpside
      nparent npside bnode = some d := by
  intro t
  induction t with
  | lf j =>
    intro _ px32 px64 plen hent fuel hfuel loc found llen rlen brside
      lparent lpside gparent gpside nparent npside bnode
    match fuel, hfuel with
    | fuel + 1, _ =>
    by_cases hbb : (m j).b0 = (m j).b1
    · simp only [descendKTLoop, LT.top]
      rw [if_pos hbb]
      exact ⟨_, rfl⟩
    · simp only [EnterK, Bool.or_eq_true, Bool.and_eq_true,
        decide_eq_true_eq] at hent
      rcases hent with hbb2 | ⟨⟨h0, h1⟩, hdb⟩
      · exact absurd hbb2 hbb
      · rcases hl : (m j).b0 with _ | a
        · exact absurd hl h0
        rcases hr : (m j).b1 with _ | b
        · exact absurd hr h1
        have hab : a ≠ b := by
          intro h
          exact hbb (by rw [hl, hr, h])
        have hst : (ktStep m kt meth ku32 ku64 kb kad j a b px32 px64 plen
            found llen rlen brside).leafBrk = true := by
          rw [ktStep_leafBrk,
            ktStep_dv m kt meth ku32 ku64 kb kad px32 px64 plen found llen
              rlen brside hl hr]
          exact hdb
        simp only [descendKTLoop, LT.top]
        rw [hl, hr]
        rw [if_neg (by simpa using hab)]
        simp only [hst, if_true]
        exact ⟨_, rfl⟩
  | nd i l r ihl ihr =>
    intro hwf px32 px64 plen _ fuel hfuel loc found llen rlen brside
      lparent lpside gparent gpside nparent npside bnode
    simp only [WFk, Bool.and_eq_true, decide_eq_true_eq] at hwf
    obtain ⟨⟨⟨⟨⟨hb0, hb1⟩, hcl⟩, hcr⟩, hwl⟩, hwr⟩ := hwf
    match fuel, hfuel with
    | fuel + 1, hfuel =>
    have hfl : l.size ≤ fuel := by simp [LT.size] at hfuel; omega
    have hfr : r.size ≤ fuel := by simp [LT.size] at hfuel; omega
    by_cases htr : l.top = r.top
    · simp only [descendKTLoop, LT.top]
      rw [if_pos (show (m i).b0 = (m i).b1 by rw [hb0, hb1, htr])]
      exact ⟨_, rfl⟩
    · have hdv := ktStep_dv m kt meth ku32 ku64 kb kad px32 px64 plen found
        llen rlen brside hb0 hb1
      cases hlb : (ktStep m kt meth ku32 ku64 kb kad i l.top r.top px32
          px64 plen found llen rlen brside).leafBrk with
      | true =>
        simp only [descendKTLoop, LT.top]
        rw [hb0, hb1]
        rw [if_neg (by simpa using htr)]
        simp only [hlb, if_true]
        exact ⟨_, rfl⟩
      | false =>
      cases hmb : (ktStep m kt meth ku32 ku64 kb kad i l.top r.top px32
          px64 plen found llen rlen brside).misBrk with
      | true =>
        simp only [descendKTLoop, LT.top]
        rw [hb0, hb1]
        rw [if_neg (by simpa using htr)]
        simp only [hlb, hmb, Bool.false_eq_true, if_false, if_true]
        exact ⟨_, rfl⟩
      | false =>
      cases hbs : (ktStep m kt meth ku32 ku64 kb kad i l.top r.top px32
          px64 plen found llen rlen brside).brside with
      | true =>
        by_cases hrt : r.top = i
        · simp only [descendKTLoop, LT.top]
          rw [hb0, hb1]
          rw [if_neg (by simpa using htr)]
          simp only [hlb, hmb, hbs, Bool.false_eq_true, if_false, if_true]
          rw [if_pos hrt]
          exact ⟨_, rfl⟩
        · have hent2 : EnterK kt m ku64 (divK kt m ku64 i) r = true :=
            childK_enter hcr hrt
          simp only [descendKTLoop, LT.top]
          rw [hb0, hb1]
          rw [if_neg (by simpa using htr)]
          simp only [hlb, hmb, hbs, Bool.false_eq_true, if_false, if_true]
          rw [if_neg hrt]
          apply ihr hwr
          · rw [carrySel_upd, hdv]
            exact hent2
          · exact hfr
      | false =>
        by_cases hlt : l.top = i
        · simp only [descendKTLoop, LT.top]
          rw [hb0, hb1]
          rw [if_neg (by simpa using htr)]
          simp only [hlb, hmb, hbs, Bool.false_eq_true, if_false, if_true]
          rw [if_pos hlt]
          exact ⟨_, rfl⟩
        · have hent2 : EnterK kt m ku64 (divK kt m ku64 i) l = true :=
            childK_enter hcl hlt
          simp only [descendKTLoop, LT.top]
          rw [hb0, hb1]
          rw [if_neg (by simpa using htr)]
          simp only [hlb, hmb, hbs, Bool.false_eq_true, if_false, if_true]
          rw [if_neg hlt]
          apply ihl hwl
          · rw [carrySel_upd, hdv]
            exact hent2
          · exact hfl

end CebKT

namespace Cebtree

/-- C8: on any tree satisfying the structural invariants, the descent
loop reaches one of its exit conditions within as many iterations as
the tree has role positions, for every key flavor (u32, u64, fixed-size
memory block, indirect block, inline string, indirect string, address),
every walk method (FST/LST/NXT/PRV and all key-directed lookups), every
key and both parent-request modes: the fueled loop never runs out when
given `t.size` fuel.  The first clause settles the u32 instantiation
the other operations of this development are built on; the second
settles the flavor-indexed engine, covering all seven `key_type`
branches of the loop at once. -/
theorem descend_terminates (s : State) (t : LT) (hwf : WFst s t)
    (meth : Meth) (kx : Nat) (wantN : Bool) (fuel : Nat)
    (hfuel : t.size ≤ fuel) :
    (∃ d, _cebu_descend s.mem meth kx wantN fuel t.top = some d) ∧
    (∀ (kt : CebKT.KeyT) (m : CebKT.KMem) (ku32 ku64 : Nat)
       (kb : List Nat) (kad : Nat) (tk : LT),
       CebKT.WFk kt m ku64 tk = true →
       CebKT.EnterK kt m ku64 (CebKT.startCarry kt) tk = true →
       ∀ fuel2, tk.size ≤ fuel2 →
       ∃ d, CebKT._cebu_descend_kt m kt meth ku32 ku64 kb kad wantN fuel2
         tk.top = some d) := by
  constructor
  · cases hk : meth.hasKey
    · have h := @descendLoop_keyless_ret s.mem meth kx wantN hk t
        hwf.2.2.2.2.2.2 _
        (root_enterOK hwf) fuel hfuel (NRef.virt, false)
        (decide (meth = .NXT ∨ meth = .LST)) .virt false .virt false .virt
        false none
      unfold _cebu_descend
      cases hd : descendLoop s.mem meth kx wantN fuel t.top (NRef.virt, false)
          (2 ^ 32 - 1) (decide (meth = .NXT ∨ meth = .LST)) .virt false .virt
          false .virt false none with
      | none =>
        rw [hd] at h
        simp at h
      | some d => exact ⟨d, rfl⟩
    · exact ⟨_, cebu_descend_eq hwf hk kx wantN hfuel⟩
  · intro kt m ku32 ku64 kb kad tk hwfk hent fuel2 hfuel2
    have hsc : CebKT.carrySel kt (2 ^ 32 - 1) (2 ^ 64 - 1) 0
        = CebKT.startCarry kt := by
      cases kt <;> rfl
    rw [← hsc] at hent
    exact CebKT.descendKTLoop_ret m kt meth ku32 ku64 kb kad wantN tk hwfk
      _ _ _ hent fuel2 hfuel2 _ _ _ _ _ _ _ _ _ _ _ _

/-- Witness for C8: the KEQ descent over the concrete one-leaf u32
state, and the string-flavor KEQ descent over the concrete two-string
state. -/
theorem descend_terminates_witness :
    WFst mismatchSt (.lf 1) ∧ (LT.lf 1).size ≤ 5 ∧
    (∃ d, _cebu_descend mismatchSt.mem .KEQ 7 false 5 (LT.lf 1).top
      = some d) ∧
    (CebKT.WFk .ST CebKT.stKMem 0 CebKT.stKTree = true ∧
     CebKT.EnterK .ST CebKT.stKMem 0 (CebKT.startCarry .ST) CebKT.stKTree
       = true ∧
     CebKT.stKTree.size ≤ 5 ∧
     ∃ d, CebKT._cebu_descend_kt CebKT.stKMem .ST .KEQ 0 0 [97] 0 false 5
       CebKT.stKTree.top = some d) :=
  ⟨mismatchSt_wf, by decide,
   (descend_terminates mismatchSt (.lf 1) mismatchSt_wf .KEQ 7 false 5
      (by decide)).1,
   by decide, by decide, by decide,
   (descend_terminates mismatchSt (.lf 1) mismatchSt_wf .KEQ 7 false 5
      (by decide)).2 .ST CebKT.stKMem 0 0 [97] 0 CebKT.stKTree (by decide)
     (by decide) 5 (by decide)⟩

/-- The window at the end of a found key-directed descent with the node
parent requested: the leaf parent, its side, the slot above it, and the
slot above the node role carrying the key. -/
theorem finWin_char {m : Mem} {kx : Nat} {meth : Meth} :
    ∀ (t : LT) (w : Win), WFt m t → kx ∈ t.keys m →
    w.loc = (w.lp, w.lps) →
    (∀ j, t ≠ .lf j) →
    (finWin m meth kx true t w).lp = NRef.node (lPar m kx t) ∧
    (finWin m meth kx true t w).lps = lSide m kx t ∧
    ((finWin m meth kx true t w).gp, (finWin m meth kx true t w).gps)
        = gSlot m kx t w.loc ∧
    ((finWin m meth kx true t w).np, (finWin m meth kx true t w).nps)
        = nSlot m kx t w.loc (w.np, w.nps) := by
  intro t
  induction t with
  | lf j =>
    intro w _ _ _ hsh
    exact absurd rfl (hsh j)
  | nd i l r ihl ihr =>
    intro w hwf hin hloc _
    have hmem : kx ∈ l.keys m ∨ kx ∈ r.keys m := by
      simpa [LT.keys, LT.leaves] using hin
    rcases hmem with h | h
    · have hdir := route_left hwf h
      have hside : tSide m kx l r = false := by
        simp [tSide, hdir]
      have hwl : WFt m l := hwf.2.2.2.2.2.2.2.1
      simp only [finWin, if_neg hdir]
      cases l with
      | lf c =>
        simp only [finWin]
        refine ⟨?_, ?_, ?_, ?_⟩
        · simp [shiftWin, lPar, hside, LT.isLf]
        · simp [shiftWin, lSide, hside, LT.isLf]
        · simp only [shiftWin]
          rw [show gSlot m kx (LT.nd i (.lf c) r) w.loc = w.loc from by
            simp [gSlot, hside, LT.isLf]]
          exact hloc.symm
        · simp only [shiftWin]
          rw [show nSlot m kx (LT.nd i (.lf c) r) w.loc (w.np, w.nps)
              = (if kx = keyOf m i then w.loc else (w.np, w.nps)) from by
            simp [nSlot, hside, LT.isLf]]
          by_cases hcap : kx = keyOf m i
          · simp [hcap, hloc]
          · simp [hcap]
      | nd a b c =>
        have hih := ihl (shiftWin m meth kx true i false w) hwl h rfl
          (fun j hj => LT.noConfusion hj)
        refine ⟨hih.1.trans ?_, hih.2.1.trans ?_, hih.2.2.1.trans ?_,
          hih.2.2.2.trans ?_⟩
        · rw [show lPar m kx (LT.nd i (.nd a b c) r)
              = lPar m kx (.nd a b c) from by
            simp [lPar, hside, LT.isLf]]
        · rw [show lSide m kx (LT.nd i (.nd a b c) r)
              = lSide m kx (.nd a b c) from by
            simp [lSide, hside, LT.isLf]]
        · rw [show gSlot m kx (LT.nd i (.nd a b c) r) w.loc
              = gSlot m kx (.nd a b c) (NRef.node i, false) from by
            simp [gSlot, hside, LT.isLf]]
          rfl
        · rw [show nSlot m kx (LT.nd i (.nd a b c) r) w.loc (w.np, w.nps)
              = nSlot m kx (.nd a b c) (NRef.node i, false)
                  (if kx = keyOf m i then w.loc else (w.np, w.nps)) from by
            simp [nSlot, hside, LT.isLf]]
          by_cases hcap : kx = keyOf m i
          · simp [shiftWin, hcap, hloc]
          · simp [shiftWin, hcap]
    · have hdir := route_right hwf h
      have hside : tSide m kx l r = true := by
        simp [tSide, hdir]
      have hwr : WFt m r := hwf.2.2.2.2.2.2.2.2
      simp only [finWin, if_pos hdir]
      cases r with
      | lf c =>
        simp only [finWin]
        refine ⟨?_, ?_, ?_, ?_⟩
        · simp [shiftWin, lPar, hside, LT.isLf]
        · simp [shiftWin, lSide, hside, LT.isLf]
        · simp only [shiftWin]
          rw [show gSlot m kx (LT.nd i l (.lf c)) w.loc = w.loc from by
            simp [gSlot, hside, LT.isLf]]
          exact hloc.symm
        · simp only [shiftWin]
          rw [show nSlot m kx (LT.nd i l (.lf c)) w.loc (w.np, w.nps)
              = (if kx = keyOf m i then w.loc else (w.np, w.nps)) from by
            simp [nSlot, hside, LT.isLf]]
          by_cases hcap : kx = keyOf m i
          · simp [hcap, hloc]
          · simp [hcap]
      | nd a b c =>
        have hih := ihr (shiftWin m meth kx true i true w) hwr h rfl
          (fun j hj => LT.noConfusion hj)
        refine ⟨hih.1.trans ?_, hih.2.1.trans ?_, hih.2.2.1.trans ?_,
          hih.2.2.2.trans ?_⟩
        · rw [show lPar m kx (LT.nd i l (.nd a b c))
              = lPar m kx (.nd a b c) from by
            simp [lPar, hside, LT.isLf]]
        · rw [show lSide m kx (LT.nd i l (.nd a b c))
              = lSide m kx (.nd a b c) from by
            simp [lSide, hside, LT.isLf]]
        · rw [show gSlot m kx (LT.nd i l (.nd a b c)) w.loc
              = gSlot m kx (.nd a b c) (NRef.node i, true) from by
            simp [gSlot, hside, LT.isLf]]
          rfl
        · rw [show nSlot m kx (LT.nd i l (.nd a b c)) w.loc (w.np, w.nps)
              = nSlot m kx (.nd a b c) (NRef.node i, true)
                  (if kx = keyOf m i then w.loc else (w.np, w.nps)) from by
            simp [nSlot, hside, LT.isLf]]
          by_cases hcap : kx = keyOf m i
          · simp [shiftWin, hcap, hloc]
          · simp [shiftWin, hcap]

/-! Structure of the path to a present key: the parent subtree, its
slot, the sibling, and the spliced shape. -/

theorem tSide_of_right {m : Mem} {i : Nat} {l r : LT}
    (hwf : WFt m (.nd i l r)) {kx : Nat} (hin : kx ∈ r.keys m) :
    tSide m kx l r = true := by
  simp [tSide, route_right hwf hin]

theorem tSide_of_left {m : Mem} {i : Nat} {l r : LT}
    (hwf : WFt m (.nd i l r)) {kx : Nat} (hin : kx ∈ l.keys m) :
    tSide m kx l r = false := by
  have := route_left hwf hin
  simp [tSide]
  omega

/-- The parent subtree is the node over the reached leaf and its
sibling, on the recorded side. -/
theorem pSub_shape {m : Mem} {kx : Nat} :
    ∀ {t : LT}, WFt m t → kx ∈ t.keys m → (∀ j, t ≠ .lf j) →
    pSub m kx t = (if lSide m kx t
      then .nd (lPar m kx t) (tSib m kx t) (.lf (destLeaf m kx t))
      else .nd (lPar m kx t) (.lf (destLeaf m kx t)) (tSib m kx t)) := by
  intro t
  induction t with
  | lf j =>
    intro _ _ hsh
    exact absurd rfl (hsh j)
  | nd i l r ihl ihr =>
    intro hwf hin _
    have hmem : kx ∈ l.keys m ∨ kx ∈ r.keys m := by
      simpa [LT.keys, LT.leaves] using hin
    rcases hmem with h | h
    · have hside := tSide_of_left hwf h
      have hdir := route_left hwf h
      cases l with
      | lf c =>
        have hc : keyOf m c = kx := by
          have h2 : kx = keyOf m c := by simpa [LT.keys, LT.leaves] using h
          exact h2.symm
        simp [pSub, lSide, lPar, tSib, destLeaf, hside, LT.isLf,
          if_neg hdir, hc]
      | nd a b c =>
        have hih := ihl hwf.2.2.2.2.2.2.2.1 h (fun j hj => LT.noConfusion hj)
        simp only [pSub, lSide, lPar, tSib, destLeaf, hside, LT.isLf,
          if_false, Bool.false_eq_true, if_neg hdir]
        exact hih
    · have hside := tSide_of_right hwf h
      have hdir := route_right hwf h
      cases r with
      | lf c =>
        have hc : keyOf m c = kx := by
          have h2 : kx = keyOf m c := by simpa [LT.keys, LT.leaves] using h
          exact h2.symm
        simp [pSub, lSide, lPar, tSib, destLeaf, hside, LT.isLf,
          if_pos hdir, hc]
      | nd a b c =>
        have hih := ihr hwf.2.2.2.2.2.2.2.2 h (fun j hj => LT.noConfusion hj)
        simp only [pSub, lSide, lPar, tSib, destLeaf, hside, LT.isLf,
          if_true, if_pos hdir]
        exact hih

/-- The parent subtree is well-formed (it is a subtree). -/
theorem pSub_wf {m : Mem} {kx : Nat} :
    ∀ {t : LT}, WFt m t → kx ∈ t.keys m → WFt m (pSub m kx t) := by
  intro t
  induction t with
  | lf j => intro h _; exact h
  | nd i l r ihl ihr =>
    intro hwf hin
    have hmem : kx ∈ l.keys m ∨ kx ∈ r.keys m := by
      simpa [LT.keys, LT.leaves] using hin
    rcases hmem with h | h
    · have hside := tSide_of_left hwf h
      cases l with
      | lf c =>
        simpa [pSub, hside, LT.isLf] using hwf
      | nd a b c =>
        simpa [pSub, hside, LT.isLf] using
          ihl hwf.2.2.2.2.2.2.2.1 h
    · have hside := tSide_of_right hwf h
      cases r with
      | lf c =>
        simpa [pSub, hside, LT.isLf] using hwf
      | nd a b c =>
        simpa [pSub, hside, LT.isLf] using
          ihr hwf.2.2.2.2.2.2.2.2 h

/-- The recorded grand-parent slot reads to the parent subtree. -/
theorem gSlot_reads {kx : Nat} {s : State} :
    ∀ {t : LT}, WFt s.mem t → kx ∈ t.keys s.mem →
    ∀ loc, readSlot s loc = some t.top →
    readSlot s (gSlot s.mem kx t loc) = some (pSub s.mem kx t).top := by
  intro t
  induction t with
  | lf j =>
    intro _ _ loc hloc
    simpa [gSlot, pSub] using hloc
  | nd i l r ihl ihr =>
    intro hwf hin loc hloc
    have hf := wfnd_facts hwf
    have hmem : kx ∈ l.keys s.mem ∨ kx ∈ r.keys s.mem := by
      simpa [LT.keys, LT.leaves] using hin
    rcases hmem with h | h
    · have hside := tSide_of_left hwf h
      cases l with
      | lf c =>
        simp only [gSlot, pSub, hside, LT.isLf, Bool.false_eq_true,
          if_false, if_true]
        exact hloc
      | nd a b c =>
        simp only [gSlot, pSub, hside, LT.isLf, Bool.false_eq_true,
          if_false]
        refine ihl hwf.2.2.2.2.2.2.2.1 h _ ?_
        show (s.mem i).b false = some (LT.nd a b c).top
        exact hf.1
    · have hside := tSide_of_right hwf h
      cases r with
      | lf c =>
        simp only [gSlot, pSub, hside, LT.isLf, if_true]
        exact hloc
      | nd a b c =>
        simp only [gSlot, pSub, hside, LT.isLf, if_true]
        refine ihr hwf.2.2.2.2.2.2.2.2 h _ ?_
        show (s.mem i).b true = some (LT.nd a b c).top
        exact hf.2.1

/-- Splicing removes exactly the reached leaf. -/
theorem splice_leaves_perm {m : Mem} {kx : Nat} :
    ∀ {t : LT}, WFt m t → kx ∈ t.keys m → (∀ j, t ≠ .lf j) →
    t.leaves.Perm (destLeaf m kx t :: (splice m kx t).leaves) := by
  intro t
  induction t with
  | lf j =>
    intro _ _ hsh
    exact absurd rfl (hsh j)
  | nd i l r ihl ihr =>
    intro hwf hin _
    have hmem : kx ∈ l.keys m ∨ kx ∈ r.keys m := by
      simpa [LT.keys, LT.leaves] using hin
    rcases hmem with h | h
    · have hside := tSide_of_left hwf h
      have hdir := route_left hwf h
      cases l with
      | lf c =>
        simp only [splice, destLeaf, hside, LT.isLf, Bool.false_eq_true,
          if_false, if_neg hdir, LT.leaves]
        exact List.Perm.refl _
      | nd a b c =>
        have hih := ihl hwf.2.2.2.2.2.2.2.1 h (fun j hj => LT.noConfusion hj)
        simp only [splice, destLeaf, hside, LT.isLf, Bool.false_eq_true,
          if_false, if_neg hdir, LT.leaves]
        exact ((hih.append_right r.leaves).trans (List.Perm.refl _))
    · have hside := tSide_of_right hwf h
      have hdir := route_right hwf h
      cases r with
      | lf c =>
        simp only [splice, destLeaf, hside, LT.isLf, if_true,
          if_pos hdir, LT.leaves]
        exact List.perm_append_comm
      | nd a b c =>
        have hih := ihr hwf.2.2.2.2.2.2.2.2 h (fun j hj => LT.noConfusion hj)
        simp only [splice, destLeaf, hside, LT.isLf, if_true,
          if_pos hdir, LT.leaves]
        exact ((hih.append_left l.leaves).trans List.perm_middle)

/-- Splicing removes exactly the parent node role. -/
theorem splice_nodes_perm {m : Mem} {kx : Nat} :
    ∀ {t : LT}, WFt m t → kx ∈ t.keys m → (∀ j, t ≠ .lf j) →
    t.nodes.Perm (lPar m kx t :: (splice m kx t).nodes) := by
  intro t
  induction t with
  | lf j =>
    intro _ _ hsh
    exact absurd rfl (hsh j)
  | nd i l r ihl ihr =>
    intro hwf hin _
    have hmem : kx ∈ l.keys m ∨ kx ∈ r.keys m := by
      simpa [LT.keys, LT.leaves] using hin
    rcases hmem with h | h
    · have hside := tSide_of_left hwf h
      cases l with
      | lf c =>
        simp only [splice, lPar, hside, LT.isLf, Bool.false_eq_true,
          if_false, LT.nodes]
        exact List.Perm.refl _
      | nd a b c =>
        have hih := ihl hwf.2.2.2.2.2.2.2.1 h (fun j hj => LT.noConfusion hj)
        simp only [splice, lPar, hside, LT.isLf, Bool.false_eq_true,
          if_false, LT.nodes]
        refine List.Perm.trans (List.Perm.cons i
          (hih.append_right r.nodes)) (List.Perm.swap _ _ _)
    · have hside := tSide_of_right hwf h
      cases r with
      | lf c =>
        simp only [splice, lPar, hside, LT.isLf, if_true, LT.nodes]
        simp
      | nd a b c =>
        have hih := ihr hwf.2.2.2.2.2.2.2.2 h (fun j hj => LT.noConfusion hj)
        simp only [splice, lPar, hside, LT.isLf, if_true, LT.nodes]
        refine List.Perm.trans (List.Perm.cons i
          ((hih.append_left l.nodes).trans List.perm_middle)) ?_
        exact List.Perm.swap _ _ _

theorem renameNd_leaves (a b : Nat) :
    ∀ t : LT, (renameNd a b t).leaves = t.leaves := by
  intro t
  induction t with
  | lf j => rfl
  | nd i l r ihl ihr => simp [renameNd, LT.leaves, ihl, ihr]

theorem renameNd_keys (m : Mem) (a b : Nat) (t : LT) :
    (renameNd a b t).keys m = t.keys m := by
  simp [LT.keys, renameNd_leaves]

theorem renameNd_nodes (a b : Nat) :
    ∀ t : LT, (renameNd a b t).nodes
      = t.nodes.map (fun i => if i = a then b else i) := by
  intro t
  induction t with
  | lf j => rfl
  | nd i l r ihl ihr => simp [renameNd, LT.nodes, ihl, ihr]

theorem renameNd_id (a b : Nat) :
    ∀ t : LT, a ∉ t.nodes → renameNd a b t = t := by
  intro t
  induction t with
  | lf j => intro _; rfl
  | nd i l r ihl ihr =>
    intro h
    simp only [LT.nodes, List.mem_cons, List.mem_append] at h
    push_neg at h
    simp [renameNd, ihl h.2.1, ihr h.2.2, if_neg (Ne.symm h.1)]

theorem renameNd_size (a b : Nat) :
    ∀ t : LT, (renameNd a b t).size = t.size := by
  intro t
  induction t with
  | lf j => rfl
  | nd i l r ihl ihr => simp [renameNd, LT.size, ihl, ihr]

theorem lPar_mem_nodes {m : Mem} {kx : Nat} {t : LT} (hwf : WFt m t)
    (hin : kx ∈ t.keys m) (hsh : ∀ j, t ≠ .lf j) :
    lPar m kx t ∈ t.nodes :=
  (splice_nodes_perm hwf hin hsh).mem_iff.mpr (List.mem_cons_self _ _)

theorem destLeaf_not_in_splice {m : Mem} {kx : Nat} {t : LT}
    (hwf : WFt m t) (hin : kx ∈ t.keys m) (hsh : ∀ j, t ≠ .lf j)
    (hdup : t.leaves.Nodup) :
    destLeaf m kx t ∉ (splice m kx t).leaves := by
  have h := (splice_leaves_perm hwf hin hsh).nodup_iff.mp hdup
  exact (List.nodup_cons.mp h).1

theorem lPar_not_in_splice {m : Mem} {kx : Nat} {t : LT}
    (hwf : WFt m t) (hin : kx ∈ t.keys m) (hsh : ∀ j, t ≠ .lf j)
    (hdup : t.nodes.Nodup) :
    lPar m kx t ∉ (splice m kx t).nodes := by
  have h := (splice_nodes_perm hwf hin hsh).nodup_iff.mp hdup
  exact (List.nodup_cons.mp h).1

/-- The keys after the splice: the old keys lose exactly the reached
key. -/
theorem splice_keys_perm {m : Mem} {kx : Nat} {t : LT} (hwf : WFt m t)
    (hin : kx ∈ t.keys m) (hsh : ∀ j, t ≠ .lf j) :
    (t.keys m).Perm (kx :: (splice m kx t).keys m) := by
  have h := splice_leaves_perm hwf hin hsh
  have h2 := h.map (keyOf m)
  simpa [LT.keys, (destLeaf_mem hwf hin).2] using h2

/-! Subtree occurrences. -/

theorem sub_wf {m : Mem} : ∀ {u t : LT}, IsSub u t → WFt m t → WFt m u := by
  intro u t h
  induction h with
  | refl => exact fun h => h
  | left i r h ih => intro hwf; exact ih hwf.2.2.2.2.2.2.2.1
  | right i l h ih => intro hwf; exact ih hwf.2.2.2.2.2.2.2.2

theorem sub_leaves : ∀ {u t : LT}, IsSub u t → ∀ j ∈ u.leaves, j ∈ t.leaves := by
  intro u t h
  induction h with
  | refl => exact fun j hj => hj
  | left i r h ih =>
    intro j hj
    exact List.mem_append_left _ (ih j hj)
  | right i l h ih =>
    intro j hj
    exact List.mem_append_right _ (ih j hj)

theorem sub_nodes : ∀ {u t : LT}, IsSub u t → ∀ j ∈ u.nodes, j ∈ t.nodes := by
  intro u t h
  induction h with
  | refl => exact fun j hj => hj
  | left i r h ih =>
    intro j hj
    simp only [LT.nodes, List.mem_cons, List.mem_append]
    exact Or.inr (Or.inl (ih j hj))
  | right i l h ih =>
    intro j hj
    simp only [LT.nodes, List.mem_cons, List.mem_append]
    exact Or.inr (Or.inr (ih j hj))

/-- Every node role id occurs as the root of a subtree. -/
theorem node_occ : ∀ {t : LT} {i : Nat}, i ∈ t.nodes →
    ∃ l r, IsSub (.nd i l r) t := by
  intro t
  induction t with
  | lf j => intro i hi; simp [LT.nodes] at hi
  | nd a l r ihl ihr =>
    intro i hi
    simp only [LT.nodes, List.mem_cons, List.mem_append] at hi
    rcases hi with h | h | h
    · subst h
      exact ⟨l, r, IsSub.refl _⟩
    · obtain ⟨l2, r2, hs⟩ := ihl h
      exact ⟨l2, r2, IsSub.left _ _ hs⟩
    · obtain ⟨l2, r2, hs⟩ := ihr h
      exact ⟨l2, r2, IsSub.right _ _ hs⟩

/-- With node roles served once, a node id determines its subtree. -/
theorem sub_nd_unique : ∀ {t : LT}, t.nodes.Nodup →
    ∀ {i : Nat} {l1 r1 l2 r2 : LT}, IsSub (.nd i l1 r1) t →
    IsSub (.nd i l2 r2) t → l1 = l2 ∧ r1 = r2 := by
  intro t
  induction t with
  | lf j =>
    intro _ i l1 r1 l2 r2 h1 _
    cases h1
  | nd a l r ihl ihr =>
    intro hdup i l1 r1 l2 r2 h1 h2
    have hdup2 : (a :: (l.nodes ++ r.nodes)).Nodup := hdup
    rw [List.nodup_cons, List.nodup_append] at hdup2
    cases h1 with
    | refl =>
      cases h2 with
      | refl => exact ⟨rfl, rfl⟩
      | left _ _ h =>
        exact absurd (List.mem_append_left _
          (sub_nodes h a (by simp [LT.nodes]))) hdup2.1
      | right _ _ h =>
        exact absurd (List.mem_append_right _
          (sub_nodes h a (by simp [LT.nodes]))) hdup2.1
    | left _ _ h =>
      cases h2 with
      | refl =>
        exact absurd (List.mem_append_left _
          (sub_nodes h a (by simp [LT.nodes]))) hdup2.1
      | left _ _ h2b => exact ihl hdup2.2.1 h h2b
      | right _ _ h2b =>
        exact absurd (sub_nodes h2b i (by simp [LT.nodes]))
          ((List.disjoint_left.mp hdup2.2.2.2)
            (sub_nodes h i (by simp [LT.nodes])))
    | right _ _ h =>
      cases h2 with
      | refl =>
        exact absurd (List.mem_append_right _
          (sub_nodes h a (by simp [LT.nodes]))) hdup2.1
      | left _ _ h2b =>
        exact absurd (sub_nodes h i (by simp [LT.nodes]))
          (List.disjoint_left.mp hdup2.2.2.2
            (sub_nodes h2b i (by simp [LT.nodes])))
      | right _ _ h2b => exact ihr hdup2.2.2.1 h h2b

/-- The parent subtree occurs in the tree. -/
theorem pSub_isSub {m : Mem} {kx : Nat} :
    ∀ (t : LT), IsSub (pSub m kx t) t := by
  intro t
  induction t with
  | lf j => exact IsSub.refl _
  | nd i l r ihl ihr =>
    by_cases hside : tSide m kx l r
    · cases r with
      | lf c =>
        simp only [pSub, hside, LT.isLf, if_true]
        exact IsSub.refl _
      | nd a b c =>
        simp only [pSub, hside, LT.isLf, if_true]
        exact IsSub.right _ _ ihr
    · cases l with
      | lf c =>
        simp only [pSub, hside, LT.isLf, Bool.false_eq_true, if_false]
        exact IsSub.refl _
      | nd a b c =>
        simp only [pSub, hside, LT.isLf, Bool.false_eq_true, if_false]
        exact IsSub.left _ _ ihl

/-- The parent node role\'s two branches: the reached leaf on the
recorded side, the sibling on the other. -/
theorem lp_reads {s : State} {t : LT} {kx : Nat} (hwf : WFt s.mem t)
    (hin : kx ∈ t.keys s.mem) (hsh : ∀ j, t ≠ .lf j) :
    (s.mem (lPar s.mem kx t)).b (lSide s.mem kx t)
        = some (destLeaf s.mem kx t) ∧
    (s.mem (lPar s.mem kx t)).b (!lSide s.mem kx t)
        = some (tSib s.mem kx t).top := by
  have hps := pSub_shape hwf hin hsh
  have hpw := pSub_wf hwf hin
  cases hls : lSide s.mem kx t
  · rw [hls] at hps
    simp only [if_neg (Bool.false_ne_true)] at hps
    rw [hps] at hpw
    have hf := wfnd_facts hpw
    constructor
    · show (s.mem (lPar s.mem kx t)).b0 = some (destLeaf s.mem kx t)
      exact hf.1
    · show (s.mem (lPar s.mem kx t)).b1 = some (tSib s.mem kx t).top
      exact hf.2.1
  · rw [hls] at hps
    simp only [if_pos rfl] at hps
    rw [hps] at hpw
    have hf := wfnd_facts hpw
    constructor
    · show (s.mem (lPar s.mem kx t)).b1 = some (destLeaf s.mem kx t)
      exact hf.2.1
    · show (s.mem (lPar s.mem kx t)).b0 = some (tSib s.mem kx t).top
      exact hf.1

/-- `_cebu_delete` on a well-formed node-rooted tree holding the key:
the found leaf is returned and the write sequence produces `delState`. -/
theorem delete_eq_found {s : State} {t : LT} (hwf : WFst s t) {kx : Nat}
    (hin : kx ∈ t.keys s.mem) (hsh : ∀ j, t ≠ .lf j)
    {node? : Option Nat}
    (hnode : node? = none ∨ node? = some (destLeaf s.mem kx t))
    {fuel : Nat} (hfuel : t.size ≤ fuel) :
    _cebu_delete fuel s node? kx
      = some (some (destLeaf s.mem kx t), delState s kx t) := by
  have hret_mem := destLeaf_mem hwf.2.2.2.2.2.2 hin
  unfold _cebu_delete
  rw [if_neg (by
    rcases hnode with h | h
    · rw [h]
      simp
    · rw [h]
      simp only [Option.map]
      intro hc
      exact (hwf.2.2.2.2.1 _ hret_mem.1) (Option.some.inj hc))]
  rw [hwf.1]
  dsimp only
  rw [cebu_descend_eq hwf (by decide) kx true hfuel]
  have hfd := @sDescend_found s.mem .KEQ kx true t hwf.2.2.2.2.2.2 hin
    startWin
  simp only [startWin] at hfd
  rw [hfd]
  have hchar := @finWin_char s.mem kx .KEQ t startWin hwf.2.2.2.2.2.2 hin rfl hsh
  simp only [startWin] at hchar
  have hkey : (s.mem (destLeaf s.mem kx t)).key = kx := hret_mem.2
  simp only [exitRes, hkey, if_pos rfl, if_true]
  rw [if_pos hnode]
  rw [hchar.1]
  dsimp only
  have hlps := hchar.2.1
  have hgp := hchar.2.2.1
  have hnp := hchar.2.2.2
  have hsib : (s.mem (lPar s.mem kx t)).b (!(lSide s.mem kx t))
      = some (tSib s.mem kx t).top :=
    (lp_reads hwf.2.2.2.2.2.2 hin hsh).2
  rw [hlps, hsib]
  rw [hgp, hnp]
  simp only [delState]
  split
  · rfl
  · split
    · rfl
    · rfl

/-- `_cebu_delete` on a well-formed singleton tree: the held leaf is
returned, the root is cleared and the leaf is detached. -/
theorem delete_eq_lf {s : State} {j : Nat} (hwf : WFst s (.lf j))
    {node? : Option Nat} (hnode : node? = none ∨ node? = some j)
    {fuel : Nat} (hfuel : 1 ≤ fuel) :
    _cebu_delete fuel s node? (keyOf s.mem j)
      = some (some j, { mem := writeB s.mem j false none, root := none }) := by
  unfold _cebu_delete
  rw [if_neg (by
    rcases hnode with h | h
    · rw [h]
      simp
    · rw [h]
      simp only [Option.map]
      intro hc
      exact (hwf.2.2.2.2.1 j (by simp [LT.leaves])) (Option.some.inj hc))]
  rw [hwf.1]
  dsimp only
  rw [cebu_descend_eq hwf (by decide) (keyOf s.mem j) true hfuel]
  have hin : keyOf s.mem j ∈ (LT.lf j).keys s.mem := by
    simp [LT.keys, LT.leaves]
  have hfd := @sDescend_found s.mem .KEQ (keyOf s.mem j) true (.lf j)
    hwf.2.2.2.2.2.2 hin startWin
  have hdl : destLeaf s.mem (keyOf s.mem j) (.lf j) = j := rfl
  rw [hdl] at hfd
  simp only [startWin] at hfd
  rw [hfd]
  simp only [exitRes, keyOf, if_pos rfl, if_true]
  rw [if_pos (by rcases hnode with h | h <;> [exact Or.inl h; exact Or.inr h])]
  rfl

/-- C10: the read-only operations (lookup, the four range lookups,
first, last, next, prev) never modify the tree: after any of them, the
root slot and both branch slots of every node are identical to their
values before the call. -/
theorem read_ops_preserve_tree (fuel : Nat) (op : ROp) (s : State) :
    (runRead fuel op s).2.root = s.root ∧
    ∀ i, ((runRead fuel op s).2.mem i).b0 = (s.mem i).b0 ∧
         ((runRead fuel op s).2.mem i).b1 = (s.mem i).b1 := by
  cases op <;> exact ⟨rfl, fun _ => ⟨rfl, rfl⟩⟩

/-- C4, counterexample: on the singleton tree holding node 1 (key 2),
deleting with supplied node 9 (same key, not in the tree, `b[0]`
non-NULL) makes the descent reach node 1, a different allocation, and
`_cebu_delete` returns node 1 — not NULL as the claim states. -/
theorem cebu_delete_wrong_node_cex :
    (_cebu_delete 40 mismatchSt (some 9) 2).map (fun p => p.1) = some (some 1) ∧
    (some 1 : Option Nat) ≠ none := by
  exact ⟨by decide, by decide⟩

/-- C4, amended: when the delete descent reaches a node that is a
different allocation than the supplied one, `_cebu_delete` returns that
reached node and performs no mutation of the tree. -/
theorem cebu_delete_wrong_node (fuel : Nat) (s : State) (n kv rv : Nat)
    (d : DRes) (ret : Nat)
    (hb : (s.mem n).b0 ≠ none)
    (hroot : s.root = some rv)
    (hd : _cebu_descend s.mem .KEQ kv true fuel rv = some d)
    (hret : d.ret = some ret)
    (hne : ret ≠ n) :
    _cebu_delete fuel s (some n) kv = some (some ret, s) := by
  unfold _cebu_delete
  rw [hroot]
  simp only [Option.map_some]
  rw [if_neg (by simpa using hb)]
  rw [hd]
  simp only [hret]
  rw [if_neg]
  simp only [reduceCtorEq, Option.some.injEq, false_or]
  intro h
  exact hne (by omega)

/-- C4, witness for the amended theorem at the concrete state above. -/
theorem cebu_delete_wrong_node_witness :
    _cebu_delete 40 mismatchSt (some 9) 2 = some (some 1, mismatchSt) :=
  cebu_delete_wrong_node 40 mismatchSt 9 2 1 mismatchDRes 1
    (by decide) rfl (by decide) rfl (by decide)

end Cebtree

namespace Cba

/-- C9: on a well-formed singleton tree holding the string "a", picking
key "a" through a caller-owned buffer finds the node, but the integrity
check compares the caller's pointer with the address of the node's
embedded key array, so `abort()` is invoked instead of detaching and
returning the node. -/
theorem cba_pick_st_aborts :
    (cba_pick_st 4 abortSt (SPtr.ext [97])).map PickRes.isAborted = some true := by
  decide

end Cba
